import Mathlib

/-!
# Verification of the `gentle` build orchestrator core

A shallow embedding, in Lean 4, of the three components of the `gentle`
repository that carry real invariants:

* `src/target.rs` — target addresses (`//package:identifier` parsing and
  display);
* `src/multi_runner.rs` — the bounded-concurrency task scheduler
  (`ParRunner`), modelled as an explicit state machine whose environment
  steps deliver worker completions into the mpsc channel;
* `src/cache.rs` — the content-addressed cache (`Cache::save`,
  `Cache::load`, `Cache::copy_into`), modelled over a finite map from
  paths (lists of components) to entries (directories or byte files).

Machine-level details are modelled as follows: file bytes are natural
numbers, filesystem paths are lists of string components (the source
manipulates `/`-separated strings; the component list is the same data
with separators made structural), and the BLAKE3 hash is modelled by a
concrete stand-in function producing 64 lowercase hex characters, as the
real hash does.  Fallible operations return `Except`; the recursive tree
copy takes explicit fuel (the source recursion is unbounded; every
theorem quantifies over sufficient fuel).
-/

namespace Gentle

/-! ## Part 1: target addresses (`src/target.rs`) -/

namespace Target

/-- A target address, from `src/target.rs`: `pub struct TargetAddress`
with a package and an identifier.  Strings are modelled as `List Char`
(the underlying data of a Rust `String`). -/
structure TargetAddress where
  package : List Char
  identifier : List Char
deriving DecidableEq, Repr

/-- The parse errors of `src/target.rs` (`enum TargetParseError`). -/
inductive TargetParseError where
  | MissingTask
  | MissingPackage
  | PackageMustBeAbsolute
deriving DecidableEq, Repr

/-- Rust `str::split(c)`: split a character list at every occurrence of
`c`; always returns at least one (possibly empty) chunk. -/
def splitChar (c : Char) : List Char → List (List Char)
  | [] => [[]]
  | x :: xs =>
    if x = c then [] :: splitChar c xs
    else
      match splitChar c xs with
      | [] => [[x]]
      | y :: ys => (x :: y) :: ys

/-- Rust `str::strip_prefix`: `some` of the remainder when `pre` is a
prefix, otherwise `none`. -/
def stripPrefix (pre l : List Char) : Option (List Char) :=
  if pre.isPrefixOf l then some (l.drop pre.length) else none

/-- `TargetAddress::from_str` from `src/target.rs`: split on `:`; the
first chunk must be nonempty and start with `//` (package), the second
chunk is the identifier (missing second chunk is `MissingTask`). -/
def fromStr (s : List Char) : Except TargetParseError TargetAddress :=
  let split := splitChar ':' s
  let package := split.headI
  if package = [] then .error .MissingPackage
  else
    match stripPrefix ['/', '/'] package with
    | none => .error .PackageMustBeAbsolute
    | some package =>
      match split.get? 1 with
      | none => .error .MissingTask
      | some identifier => .ok ⟨package, identifier⟩

/-- `Display for TargetAddress` from `src/target.rs`:
`write!(f, "//{}:{}", self.package, self.identifier)`. -/
def display (t : TargetAddress) : List Char :=
  ['/', '/'] ++ t.package ++ [':'] ++ t.identifier

end Target

end Gentle

namespace Gentle

namespace Target

theorem splitChar_ne_nil (c : Char) (l : List Char) : splitChar c l ≠ [] := by
  induction l with
  | nil => simp [splitChar]
  | cons x xs ih =>
    simp only [splitChar]
    split
    · simp
    · cases h : splitChar c xs with
      | nil => simp
      | cons y ys => simp

theorem splitChar_no_occ (c : Char) (l : List Char) (h : c ∉ l) :
    splitChar c l = [l] := by
  induction l with
  | nil => simp [splitChar]
  | cons x xs ih =>
    simp only [List.mem_cons, not_or] at h
    simp only [splitChar]
    rw [if_neg (by exact fun hx => h.1 hx.symm)]
    rw [ih h.2]

theorem splitChar_append (c : Char) (a b : List Char) (ha : c ∉ a) :
    splitChar c (a ++ c :: b) = a :: splitChar c b := by
  induction a with
  | nil => simp [splitChar]
  | cons x xs ih =>
    simp only [List.mem_cons, not_or] at ha
    simp only [List.cons_append, splitChar]
    rw [if_neg (by exact fun hx => ha.1 hx.symm)]
    rw [show (xs.append (c :: b)) = xs ++ c :: b from rfl, ih ha.2]

/-- C10.  For every `TargetAddress` whose package and identifier contain
no `:` character, parsing the `Display` form `//<package>:<identifier>`
with `FromStr` returns `Ok` of an equal `TargetAddress`. -/
theorem display_fromStr_roundtrip (t : TargetAddress)
    (hp : ':' ∉ t.package) (hi : ':' ∉ t.identifier) :
    fromStr (display t) = .ok t := by
  have hsplit : splitChar ':' (display t) =
      (['/', '/'] ++ t.package) :: [t.identifier] := by
    have hd : display t = (['/', '/'] ++ t.package) ++ ':' :: t.identifier := by
      simp [display]
    rw [hd, splitChar_append, splitChar_no_occ ':' t.identifier hi]
    rw [List.mem_append]
    rintro (h | h)
    · exact absurd h (by decide)
    · exact hp h
  have hstrip : stripPrefix ['/', '/'] (['/', '/'] ++ t.package) =
      some t.package := by
    have : (['/', '/'] : List Char).isPrefixOf (['/', '/'] ++ t.package) = true := by
      rw [List.isPrefixOf_iff_prefix]
      exact List.prefix_append _ _
    simp [stripPrefix, this]
  simp only [fromStr, hsplit, List.headI]
  rw [if_neg (by simp)]
  rw [hstrip]
  rfl

/-- Witness for C10 at a concrete input: `//foo/bar:baz` round trips. -/
theorem display_fromStr_roundtrip_witness :
    fromStr (display ⟨"foo/bar".data, "baz".data⟩) =
      .ok ⟨"foo/bar".data, "baz".data⟩ :=
  display_fromStr_roundtrip ⟨"foo/bar".data, "baz".data⟩
    (by decide) (by decide)

end Target

/-! ## Part 2: the bounded-concurrency scheduler (`src/multi_runner.rs`)

`ParRunner` spawns one worker thread per task; each worker sends exactly
one `(slot, result)` message on the mpsc channel when it finishes.  The
embedding makes the channel explicit: `pending` holds results of spawned
tasks whose send has not yet happened, `queue` is the channel contents
in arrival order, and the environment command `deliver k` moves
`pending[k]` to the back of the queue (modelling the worker finishing at
that moment; the index is the scheduling nondeterminism).  A blocking
`recv` is only enabled when the queue is nonempty, so a schedule must
interleave `deliver` commands where the real program would block.
`ProgressListener` calls are recorded in `trace`.  A task is its name
plus its eventual result (`none` = `Ok(())`, `some e` = `Err(e)`). -/

namespace Sched

/-- A `ProgressListener` notification (`on_start` / `on_finish`). -/
inductive PEvent where
  | start (name : String)
  | finish (name : String)
deriving DecidableEq, Repr

/-- The `ParRunner` state (`src/multi_runner.rs`).  `handles` and
`names` are the two `HashMap<usize, _>` fields keyed by slot id (as
lists of keys / key-value pairs); `pending`/`queue` model the mpsc
channel as described above; `trace` records progress notifications;
`done` is set once the runner has been consumed (`into_wait`) or
dropped. -/
structure PR (E : Type) where
  maxThreads : Nat
  handles : List Nat
  names : List (Nat × String)
  pending : List (Nat × Option E)
  queue : List (Nat × Option E)
  trace : List PEvent
  done : Bool
deriving DecidableEq, Repr

/-- `ParRunner::with_parallel`: a fresh runner with the given bound. -/
def PR.init (E : Type) (maxThreads : Nat) : PR E :=
  ⟨maxThreads, [], [], [], [], [], false⟩

/-- `ParRunner::on_finished`: remove the slot from `handles` and
`names`, notify `on_finish(name)`, return the name.  The source panics
when the id has no name (`.expect`); reachable states always have one,
and the model returns `""` in that impossible case. -/
def PR.onFinished {E : Type} (s : PR E) (id : Nat) : PR E × String :=
  let name := (((s.names.find? (fun p => p.1 == id)).map Prod.snd).getD "")
  ({ s with handles := s.handles.filter (fun h => h ≠ id),
            names := s.names.filter (fun p => p.1 ≠ id),
            trace := s.trace ++ [.finish name] }, name)

/-- The `try_recv` drain loop of `ParRunner::check_finished`, recursing
on the channel contents (the state's queue always equals the list
argument). -/
def PR.checkFinishedAux {E : Type} :
    List (Nat × Option E) → PR E → PR E × Option (String × E)
  | [], s => (s, none)
  | (id, r) :: rest, s =>
    let p := PR.onFinished { s with queue := rest } id
    match r with
    | some e => (p.1, some (p.2, e))
    | none => PR.checkFinishedAux rest p.1

/-- `ParRunner::check_finished`: drain every already-delivered result
(`try_recv` loop); return the first error found, if any. -/
def PR.checkFinished {E : Type} (s : PR E) : PR E × Option (String × E) :=
  PR.checkFinishedAux s.queue s

/-- `ParRunner::wait_receive_one`: blocking `recv` of one result; only
enabled (`some`) when the channel has a delivered message — otherwise
the caller's schedule must first `deliver`. -/
def PR.waitReceiveOne {E : Type} (s : PR E) :
    Option (PR E × Option (String × E)) :=
  match s.queue with
  | [] => none
  | (id, r) :: rest =>
    let p := PR.onFinished { s with queue := rest } id
    some (p.1, r.map (fun e => (p.2, e)))

/-- The tail of `ParRunner::run` once no error was drained: find the
lowest free slot (`(0..max_threads).find(...)`, `.unwrap()` modelled as
`none` when no slot is free, which reachable states never hit), spawn
the worker, notify `on_start`, record the name. -/
def PR.start {E : Type} (s : PR E) (name : String) (res : Option E) :
    Option (PR E × Option (String × E)) :=
  match (List.range s.maxThreads).find? (fun n => ! s.handles.contains n) with
  | none => none
  | some id =>
    some ({ s with
      handles := s.handles ++ [id],
      pending := s.pending ++ [(id, res)],
      trace := s.trace ++ [.start name],
      names := s.names.filter (fun p => p.1 ≠ id) ++ [(id, name)] }, none)

/-- `ParRunner::run`: drain finished results (fail fast), block for one
result when all slots are occupied, then start the new task. -/
def PR.run {E : Type} (s : PR E) (name : String) (res : Option E) :
    Option (PR E × Option (String × E)) :=
  let c := s.checkFinished
  match c.2 with
  | some e => some (c.1, some e)
  | none =>
    if c.1.maxThreads ≤ c.1.handles.length then
      match c.1.waitReceiveOne with
      | none => none
      | some (s2, some e) => some (s2, some e)
      | some (s2, none) => s2.start name res
    else c.1.start name res

/-- The environment delivers the completion: the spawned worker at index
`k` of `pending` finishes and sends its `(slot, result)` message. -/
def PR.deliver {E : Type} (s : PR E) (k : Nat) : Option (PR E) :=
  match s.pending.get? k with
  | none => none
  | some item =>
    some { s with pending := s.pending.eraseIdx k,
                  queue := s.queue ++ [item] }

/-- The drain loop of `ParRunner::wait_receive_all`, recursing on the
blocking-`recv` choice sequence and the channel contents (the state's
queue always equals the third argument).  The loop of the source is
unbounded; here it carries explicit fuel, and the wrapper below passes
`2 * |choices| + |queue| + 1`, which is provably never exhausted (each
iteration either drains one queue item or consumes one choice), so the
fuel changes nothing about the semantics. -/
def PR.waitReceiveAllAux {E : Type} :
    Nat → List Nat → List (Nat × Option E) → PR E →
    Option (PR E × Option (String × E))
  | 0, _, _, _ => none
  | fuel + 1, choices, q, s =>
    if s.handles = [] then some (s, none)
    else
      match q with
      | (id, r) :: rest =>
        let p := PR.onFinished { s with queue := rest } id
        match r with
        | some e => some (p.1, some (p.2, e))
        | none => PR.waitReceiveAllAux fuel choices rest p.1
      | [] =>
        match choices with
        | [] => none
        | k :: ch =>
          match s.deliver k with
          | none => none
          | some s2 => PR.waitReceiveAllAux fuel ch s2.queue s2

/-- `ParRunner::wait_receive_all`: loop draining one result at a time
until no handle remains, returning early at the first error.  Where the
source blocks in `recv`, the model consumes the next element of
`choices` to decide which in-flight worker finishes next. -/
def PR.waitReceiveAll {E : Type} (s : PR E) (choices : List Nat) :
    Option (PR E × Option (String × E)) :=
  PR.waitReceiveAllAux (2 * choices.length + s.queue.length + 1)
    choices s.queue s

/-- `ParRunner::into_wait`: drain everything
(stopping at the first error), then clear `handles`; the implicit
`Drop` afterwards sees no handles and drains nothing further. -/
def PR.intoWait {E : Type} (s : PR E) (choices : List Nat) :
    Option (PR E × Option (String × E)) :=
  match s.waitReceiveAll choices with
  | none => none
  | some (s1, r) =>
    let s2 := { s1 with handles := [] }
    match s2.waitReceiveAll [] with
    | none => none
    | some (s3, _) => some ({ s3 with done := true }, r)

/-- `Drop for ParRunner`: best-effort `wait_receive_all`, result
ignored. -/
def PR.dropIt {E : Type} (s : PR E) (choices : List Nat) : Option (PR E) :=
  match s.waitReceiveAll choices with
  | none => none
  | some (s1, _) => some { s1 with done := true }

/-- One step of the runner's external life: an API call (`run`,
`into_wait`, drop) or an environment delivery. -/
inductive Cmd (E : Type) where
  | run (name : String) (res : Option E)
  | deliver (k : Nat)
  | intoWait (choices : List Nat)
  | dropIt (choices : List Nat)
deriving DecidableEq, Repr

/-- Step the state by one command; `run`/`into_wait` produce an API
result (the second component). -/
def PR.step {E : Type} (s : PR E) :
    Cmd E → Option (PR E × Option (Option (String × E)))
  | .run name res =>
    if s.done then none
    else (s.run name res).map (fun p => (p.1, some p.2))
  | .deliver k =>
    if s.done then none else (s.deliver k).map (fun s2 => (s2, none))
  | .intoWait ch =>
    if s.done then none
    else (s.intoWait ch).map (fun p => (p.1, some p.2))
  | .dropIt ch =>
    if s.done then none else (s.dropIt ch).map (fun s2 => (s2, none))

/-- Execute a schedule, collecting the API results in order. -/
def PR.execOut {E : Type} (s : PR E) :
    List (Cmd E) → Option (PR E × List (Option (String × E)))
  | [] => some (s, [])
  | c :: cs =>
    match s.step c with
    | none => none
    | some (s1, o) =>
      match s1.execOut cs with
      | none => none
      | some (s2, outs) => some (s2, o.toList ++ outs)

/-- Execute a schedule, keeping only the final state. -/
def PR.exec {E : Type} (s : PR E) (cs : List (Cmd E)) : Option (PR E) :=
  (s.execOut cs).map Prod.fst

/-- The name recorded for slot `id` (what `on_finished` reports). -/
def PR.nameOf {E : Type} (s : PR E) (id : Nat) : String :=
  (((s.names.find? (fun p => p.1 == id)).map Prod.snd).getD "")

/-- Keys of an association list keyed by slot ids. -/
def keys {β : Type} (l : List (Nat × β)) : List Nat := l.map Prod.fst

/-- Number of `on_start name` notifications in a trace. -/
def startCount (name : String) (tr : List PEvent) : Nat :=
  tr.count (.start name)

/-- Number of `on_finish name` notifications in a trace. -/
def finishCount (name : String) (tr : List PEvent) : Nat :=
  tr.count (.finish name)

/-- Number of started-but-not-yet-drained tasks carrying this name. -/
def inflightNamed {E : Type} (s : PR E) (name : String) : Nat :=
  (s.names.filter (fun p => p.2 == name)).length

/-- State well-formedness, preserved by every reachable step: slots are
distinct and within `[0, max_threads)`; the name table has distinct
keys; every in-flight (spawned, undrained) slot id has a recorded name;
while the runner is alive every recorded name belongs to an occupied
slot. -/
structure Inv {E : Type} (s : PR E) : Prop where
  hnd : s.handles.Nodup
  hlt : ∀ id ∈ s.handles, id < s.maxThreads
  knd : (keys s.names).Nodup
  pqnd : (keys s.pending ++ keys s.queue).Nodup
  pk : ∀ id ∈ keys s.pending, id ∈ keys s.names
  qk : ∀ id ∈ keys s.queue, id ∈ keys s.names
  kh : s.done = false → ∀ id ∈ keys s.names, id ∈ s.handles

/-- The pairing ledger: starts = finishes + in-flight names. -/
def CntInv {E : Type} (s : PR E) : Prop :=
  ∀ n, startCount n s.trace = finishCount n s.trace + inflightNamed s n

/-- All spawned-or-delivered results are successes. -/
def NoErr {E : Type} (s : PR E) : Prop :=
  (∀ x ∈ s.pending, x.2 = (none : Option E)) ∧
  (∀ x ∈ s.queue, x.2 = (none : Option E))

end Sched

end Gentle

namespace Gentle

namespace Sched

theorem keys_append {β : Type} (l₁ l₂ : List (Nat × β)) :
    keys (l₁ ++ l₂) = keys l₁ ++ keys l₂ := by
  simp [keys]

theorem mem_keys_of_mem {β : Type} {l : List (Nat × β)} {x : Nat × β}
    (h : x ∈ l) : x.1 ∈ keys l := List.mem_map_of_mem Prod.fst h

theorem filter_keyne_of_not_mem {β : Type} {l : List (Nat × β)} {id : Nat}
    (h : id ∉ keys l) : l.filter (fun p => p.1 ≠ id) = l := by
  induction l with
  | nil => rfl
  | cons a as ih =>
    simp only [keys, List.map_cons, List.mem_cons, not_or] at h
    have h1 : a.1 ≠ id := fun he => h.1 he.symm
    rw [List.filter_cons_of_pos (by simpa using h1)]
    rw [ih (by simpa [keys] using h.2)]

theorem keys_filter_keyne {β : Type} (l : List (Nat × β)) (id : Nat) :
    keys (l.filter (fun p => p.1 ≠ id)) = (keys l).filter (fun i => i ≠ id) := by
  induction l with
  | nil => rfl
  | cons a as ih =>
    simp only [keys] at ih ⊢
    by_cases h : a.1 = id
    · rw [List.filter_cons_of_neg (by simpa using h), List.map_cons,
        List.filter_cons_of_neg (by simpa using h)]
      exact ih
    · rw [List.filter_cons_of_pos (by simpa using h), List.map_cons,
        List.map_cons, List.filter_cons_of_pos (by simpa using h)]
      rw [ih]

theorem find?_key_eq {β : Type} {l : List (Nat × β)} {id : Nat} {b : β}
    (hnd : (keys l).Nodup) (hmem : (id, b) ∈ l) :
    l.find? (fun p => p.1 == id) = some (id, b) := by
  induction l with
  | nil => simp at hmem
  | cons a as ih =>
    simp only [keys, List.map_cons, List.nodup_cons] at hnd
    rcases List.mem_cons.mp hmem with h | h
    · subst h
      simp [List.find?]
    · have hne : a.1 ≠ id := by
        intro he
        exact hnd.1 (he ▸ mem_keys_of_mem h)
      rw [List.find?_cons_of_neg _ (by simpa using hne)]
      exact ih hnd.2 h

/-- Removing the unique entry for `id` removes one in-flight count for
its name and leaves other names alone. -/
theorem filter_keyne_inflight {β : Type} [DecidableEq β]
    {l : List (Nat × β)} {id : Nat} {nm : β}
    (hnd : (keys l).Nodup) (hmem : (id, nm) ∈ l) (n : β) :
    ((l.filter (fun p => p.1 ≠ id)).filter (fun p => p.2 == n)).length
      + (if nm = n then 1 else 0)
      = (l.filter (fun p => p.2 == n)).length := by
  induction l with
  | nil => simp at hmem
  | cons a as ih =>
    simp only [keys, List.map_cons, List.nodup_cons] at hnd
    rcases List.mem_cons.mp hmem with h | h
    · have ha : a = (id, nm) := h.symm
      subst ha
      rw [List.filter_cons_of_neg (by simp)]
      rw [filter_keyne_of_not_mem (by simpa [keys] using hnd.1)]
      by_cases he : nm = n
      · rw [List.filter_cons_of_pos (by simpa using he), if_pos he]
        simp
      · rw [List.filter_cons_of_neg (by simpa using he), if_neg he]
        simp
    · have hne : a.1 ≠ id := by
        intro hx
        exact hnd.1 (hx ▸ mem_keys_of_mem h)
      have hih := ih hnd.2 h
      rw [List.filter_cons_of_pos (by simpa using hne)]
      by_cases he : a.2 = n
      · rw [List.filter_cons_of_pos (by simpa using he),
          List.filter_cons_of_pos (by simpa using he)]
        simp only [List.length_cons]
        omega
      · rw [List.filter_cons_of_neg (by simpa using he),
          List.filter_cons_of_neg (by simpa using he)]
        exact hih

theorem startCount_append (n : String) (t₁ t₂ : List PEvent) :
    startCount n (t₁ ++ t₂) = startCount n t₁ + startCount n t₂ :=
  List.count_append _ _ _

theorem finishCount_append (n : String) (t₁ t₂ : List PEvent) :
    finishCount n (t₁ ++ t₂) = finishCount n t₁ + finishCount n t₂ :=
  List.count_append _ _ _

theorem startCount_finish (n nm : String) :
    startCount n [PEvent.finish nm] = 0 := by
  simp [startCount, List.count_singleton]

theorem finishCount_finish (n nm : String) :
    finishCount n [PEvent.finish nm] = if nm = n then 1 else 0 := by
  by_cases h : nm = n <;> simp [finishCount, h, List.count_singleton]

theorem finishCount_start (n nm : String) :
    finishCount n [PEvent.start nm] = 0 := by
  simp [finishCount, List.count_singleton]

theorem startCount_start (n nm : String) :
    startCount n [PEvent.start nm] = if nm = n then 1 else 0 := by
  by_cases h : nm = n <;> simp [startCount, h, List.count_singleton]

/-- Effect of draining one delivered result `(id, r)` off the head of
the queue (the common core of `check_finished`, `wait_receive_one`, and
`wait_receive_all`). -/
theorem drain_inv {E : Type} {s : PR E} {id : Nat} {r : Option E}
    {rest : List (Nat × Option E)}
    (hI : Inv s) (hq : s.queue = (id, r) :: rest) :
    Inv ((PR.onFinished { s with queue := rest } id).1) ∧
    (CntInv s → CntInv ((PR.onFinished { s with queue := rest } id).1)) ∧
    ((PR.onFinished { s with queue := rest } id).1.pending = s.pending) ∧
    ((PR.onFinished { s with queue := rest } id).1.maxThreads = s.maxThreads) ∧
    ((PR.onFinished { s with queue := rest } id).1.done = s.done) ∧
    ((PR.onFinished { s with queue := rest } id).1.queue = rest) ∧
    (∀ n, startCount n ((PR.onFinished { s with queue := rest } id).1).trace
      = startCount n s.trace) ∧
    (NoErr s → NoErr ((PR.onFinished { s with queue := rest } id).1)) := by
  have hidq : id ∈ keys s.queue := by rw [hq]; simp [keys]
  have hidn : id ∈ keys s.names := hI.qk id hidq
  have hex : ∃ nm, (id, nm) ∈ s.names := by
    obtain ⟨x, hx, he⟩ := List.mem_map.mp hidn
    refine ⟨x.2, ?_⟩
    rw [← he, Prod.mk.eta]
    exact hx
  obtain ⟨nm, hmemn⟩ := hex
  have hfind := find?_key_eq hI.knd hmemn
  have hqknd : (keys s.queue).Nodup := hI.pqnd.of_append_right
  have hqcons : keys s.queue = id :: keys rest := by rw [hq]; simp [keys]
  have hrest_sub : List.Sublist (keys rest) (keys s.queue) := by
    rw [hqcons]
    exact List.sublist_cons_self _ _
  have hid_rest : id ∉ keys rest := by
    have h2 := hqknd
    rw [hqcons] at h2
    exact (List.nodup_cons.mp h2).1
  have hdisj := List.disjoint_of_nodup_append hI.pqnd
  have hid_pending : id ∉ keys s.pending := fun hmem => hdisj hmem hidq
  have hname : (PR.onFinished { s with queue := rest } id).2 = nm := by
    simp [PR.onFinished, hfind]
  refine ⟨?_, ?_, rfl, rfl, rfl, rfl, ?_, ?_⟩
  · refine ⟨hI.hnd.filter _, ?_, ?_, ?_, ?_, ?_, ?_⟩
    · intro i hi
      exact hI.hlt i (List.mem_of_mem_filter hi)
    · simp only [PR.onFinished]
      rw [keys_filter_keyne]
      exact hI.knd.filter _
    · simp only [PR.onFinished]
      refine List.Nodup.sublist ?_ hI.pqnd
      exact (List.Sublist.refl _).append hrest_sub
    · intro i hi
      simp only [PR.onFinished] at hi ⊢
      have hin : i ∈ keys s.names := hI.pk i hi
      have hne : i ≠ id := fun he => hid_pending (he ▸ hi)
      rw [keys_filter_keyne]
      exact List.mem_filter.mpr ⟨hin, by simpa using hne⟩
    · intro i hi
      simp only [PR.onFinished] at hi ⊢
      have hiq : i ∈ keys s.queue := by
        rw [hq, keys, List.map_cons]
        exact List.mem_cons_of_mem _ hi
      have hin : i ∈ keys s.names := hI.qk i hiq
      have hne : i ≠ id := fun he => hid_rest (he ▸ hi)
      rw [keys_filter_keyne]
      exact List.mem_filter.mpr ⟨hin, by simpa using hne⟩
    · intro hdone i hi
      simp only [PR.onFinished] at hi hdone ⊢
      rw [keys_filter_keyne] at hi
      have hmf := List.mem_filter.mp hi
      have hih : i ∈ s.handles := hI.kh hdone i hmf.1
      exact List.mem_filter.mpr ⟨hih, hmf.2⟩
  · intro hC n
    have hcnt := filter_keyne_inflight hI.knd hmemn n
    have hs : startCount n ((PR.onFinished { s with queue := rest } id).1).trace
        = startCount n s.trace := by
      simp only [PR.onFinished, hfind]
      rw [startCount_append, startCount_finish]
      omega
    have hf : finishCount n ((PR.onFinished { s with queue := rest } id).1).trace
        = finishCount n s.trace + (if nm = n then 1 else 0) := by
      simp only [PR.onFinished, hfind]
      rw [finishCount_append, finishCount_finish]
      simp
    have hfl : inflightNamed ((PR.onFinished { s with queue := rest } id).1) n
        + (if nm = n then 1 else 0) = inflightNamed s n := by
      simpa [PR.onFinished, inflightNamed] using hcnt
    have := hC n
    simp only [inflightNamed] at this hfl
    rw [hs, hf]
    simp only [inflightNamed]
    omega
  · intro n
    simp only [PR.onFinished, hfind]
    rw [startCount_append, startCount_finish]
    omega
  · rintro ⟨hp, hqk2⟩
    refine ⟨?_, ?_⟩
    · intro x hx
      exact hp x hx
    · intro x hx
      exact hqk2 x (by rw [hq]; exact List.mem_cons_of_mem _ hx)

theorem onFinished_name {E : Type} (s : PR E) (id : Nat) :
    (s.onFinished id).2 = s.nameOf id := rfl

/-- `check_finished` preserves the state invariants, never touches
`pending`, the bound, the `done` flag, or the start notifications, and
returns no error when no spawned task errs. -/
theorem checkFinishedAux_spec {E : Type} :
    ∀ (l : List (Nat × Option E)) (s : PR E), s.queue = l → Inv s →
    Inv (PR.checkFinishedAux l s).1 ∧
    (CntInv s → CntInv (PR.checkFinishedAux l s).1) ∧
    (PR.checkFinishedAux l s).1.pending = s.pending ∧
    (PR.checkFinishedAux l s).1.maxThreads = s.maxThreads ∧
    (PR.checkFinishedAux l s).1.done = s.done ∧
    (∀ n, startCount n (PR.checkFinishedAux l s).1.trace = startCount n s.trace) ∧
    (NoErr s → NoErr (PR.checkFinishedAux l s).1 ∧
      (PR.checkFinishedAux l s).2 = none) := by
  intro l
  induction l with
  | nil =>
    intro s hq hI
    exact ⟨hI, fun h => h, rfl, rfl, rfl, fun _ => rfl, fun h => ⟨h, rfl⟩⟩
  | cons hd rest ih =>
    intro s hq hI
    obtain ⟨id, r⟩ := hd
    have hD := drain_inv hI hq
    simp only [PR.checkFinishedAux]
    match r with
    | some e =>
      exact ⟨hD.1, fun h => hD.2.1 h, hD.2.2.1, hD.2.2.2.1, hD.2.2.2.2.1,
        hD.2.2.2.2.2.2.1,
        fun h => absurd (h.2 (id, some e) (by rw [hq]; exact List.mem_cons_self _ _))
          (by simp)⟩
    | none =>
      have hqrest := hD.2.2.2.2.2.1
      have hih := ih _ hqrest hD.1
      refine ⟨hih.1, fun h => hih.2.1 (hD.2.1 h), ?_, ?_, ?_, ?_, ?_⟩
      · rw [hih.2.2.1, hD.2.2.1]
      · rw [hih.2.2.2.1, hD.2.2.2.1]
      · rw [hih.2.2.2.2.1, hD.2.2.2.2.1]
      · intro n
        rw [hih.2.2.2.2.2.1 n, hD.2.2.2.2.2.2.1 n]
      · intro h
        exact hih.2.2.2.2.2.2 (hD.2.2.2.2.2.2.2 h)

theorem checkFinished_spec {E : Type} (s : PR E) (hI : Inv s) :
    Inv (s.checkFinished).1 ∧ (CntInv s → CntInv (s.checkFinished).1) ∧
    (s.checkFinished).1.pending = s.pending ∧
    (s.checkFinished).1.maxThreads = s.maxThreads ∧
    (s.checkFinished).1.done = s.done ∧
    (∀ n, startCount n (s.checkFinished).1.trace = startCount n s.trace) ∧
    (NoErr s → NoErr (s.checkFinished).1 ∧ (s.checkFinished).2 = none) :=
  checkFinishedAux_spec s.queue s rfl hI

/-- When the queue holds a (first) error, `check_finished` drains up to
it and returns it, tagged with the erroring task's recorded name. -/
theorem checkFinishedAux_err {E : Type} :
    ∀ (q₀ : List (Nat × Option E)) (s : PR E) (id : Nat) (e : E)
      (q₁ : List (Nat × Option E)) (nm : String), Inv s →
    s.queue = q₀ ++ (id, some e) :: q₁ →
    (∀ x ∈ q₀, x.2 = (none : Option E)) →
    (id, nm) ∈ s.names →
    (PR.checkFinishedAux s.queue s).2 = some (nm, e) := by
  intro q₀
  induction q₀ with
  | nil =>
    intro s id e q₁ nm hI hq h0 hmem
    rw [hq]
    simp only [List.nil_append, PR.checkFinishedAux]
    have : (PR.onFinished { s with queue := q₁ } id).2 = nm := by
      simp [PR.onFinished, find?_key_eq hI.knd hmem]
    rw [this]
  | cons hd rest ih =>
    intro s id e q₁ nm hI hq h0 hmem
    obtain ⟨i0, r0⟩ := hd
    have hr0 : r0 = none := h0 (i0, r0) (List.mem_cons_self _ _)
    subst hr0
    have hq2 : s.queue = (i0, none) :: (rest ++ (id, some e) :: q₁) := by
      rw [hq]; rfl
    have hD := drain_inv hI hq2
    have hqknd : (keys s.queue).Nodup := hI.pqnd.of_append_right
    have hne : id ≠ i0 := by
      intro he
      rw [hq2, keys, List.map_cons] at hqknd
      have h1 := (List.nodup_cons.mp hqknd).1
      apply h1
      rw [← he]
      simp only [keys, List.map_append, List.map_cons]
      exact List.mem_append.mpr (Or.inr (List.mem_cons_self _ _))
    have hmem2 : (id, nm) ∈
        (PR.onFinished { s with queue := rest ++ (id, some e) :: q₁ } i0).1.names := by
      simp only [PR.onFinished]
      exact List.mem_filter.mpr ⟨hmem, by simpa using hne⟩
    rw [hq2]
    simp only [PR.checkFinishedAux]
    have hqp := hD.2.2.2.2.2.1
    have := ih _ id e q₁ nm hD.1 hqp
      (fun x hx => h0 x (List.mem_cons_of_mem _ hx)) hmem2
    rw [hqp] at this
    exact this

theorem checkFinished_err {E : Type} {s : PR E} {q₀ : List (Nat × Option E)}
    {id : Nat} {e : E} {q₁ : List (Nat × Option E)} {nm : String} (hI : Inv s)
    (hq : s.queue = q₀ ++ (id, some e) :: q₁)
    (h0 : ∀ x ∈ q₀, x.2 = (none : Option E)) (hmem : (id, nm) ∈ s.names) :
    (s.checkFinished).2 = some (nm, e) :=
  checkFinishedAux_err q₀ s id e q₁ nm hI hq h0 hmem

/-- The environment delivery step preserves all invariants and touches
neither slots, names, trace, nor flags. -/
theorem deliver_inv {E : Type} {s s2 : PR E} {k : Nat}
    (hI : Inv s) (hs : s.deliver k = some s2) :
    Inv s2 ∧ s2.handles = s.handles ∧ s2.names = s.names ∧
    s2.trace = s.trace ∧ s2.done = s.done ∧ s2.maxThreads = s.maxThreads ∧
    (CntInv s → CntInv s2) ∧ (NoErr s → NoErr s2) := by
  simp only [PR.deliver] at hs
  match hg : s.pending.get? k with
  | none => rw [hg] at hs; exact absurd hs (by simp)
  | some item =>
    rw [hg] at hs
    have hs2 : s2 = { s with pending := s.pending.eraseIdx k,
                             queue := s.queue ++ [item] } :=
      ((Option.some.injEq _ _).mp hs).symm
    subst hs2
    obtain ⟨hk, hget⟩ := List.get?_eq_some.mp hg
    have hitem : item ∈ s.pending := hget ▸ s.pending.get_mem _ _
    have hsplit : s.pending
        = s.pending.take k ++ item :: s.pending.drop (k + 1) := by
      have hgetel : s.pending[k] = item := by
        simpa [List.get_eq_getElem] using hget
      conv_lhs => rw [← List.take_append_drop k s.pending]
      rw [List.drop_eq_getElem_cons hk, hgetel]
    have herase : s.pending.eraseIdx k
        = s.pending.take k ++ s.pending.drop (k + 1) :=
      List.eraseIdx_eq_take_drop_succ _ _
    have hperm : List.Perm
        (keys (s.pending.eraseIdx k) ++ keys (s.queue ++ [item]))
        (keys s.pending ++ keys s.queue) := by
      rw [herase]
      conv_rhs => rw [hsplit]
      simp only [keys, List.map_append, List.map_cons, List.map_nil,
        List.append_assoc, List.cons_append, List.nil_append]
      refine List.Perm.append_left _ ?_
      have h1 : List.map Prod.fst (s.pending.drop (k + 1))
            ++ (List.map Prod.fst s.queue ++ [item.1])
          = (List.map Prod.fst (s.pending.drop (k + 1))
            ++ List.map Prod.fst s.queue) ++ [item.1] :=
        (List.append_assoc _ _ _).symm
      rw [h1]
      exact List.perm_append_singleton _ _
    have hpsub : List.Sublist (s.pending.eraseIdx k) s.pending :=
      List.eraseIdx_sublist _ _
    refine ⟨?_, rfl, rfl, rfl, rfl, rfl, fun h => h, ?_⟩
    · refine ⟨hI.hnd, hI.hlt, hI.knd, ?_, ?_, ?_, hI.kh⟩
      · exact hperm.symm.nodup hI.pqnd
      · intro i hi
        refine hI.pk i ?_
        simp only [keys] at hi ⊢
        exact (hpsub.map Prod.fst).mem hi
      · intro i hi
        simp only [keys, List.map_append, List.map_cons, List.map_nil] at hi
        rcases List.mem_append.mp hi with h | h
        · exact hI.qk i h
        · rcases List.mem_cons.mp h with h | h
          · exact hI.pk i (h ▸ mem_keys_of_mem hitem)
          · simp at h
    · rintro ⟨hp, hq⟩
      refine ⟨fun x hx => hp x (hpsub.mem hx), ?_⟩
      intro x hx
      rcases List.mem_append.mp hx with h | h
      · exact hq x h
      · rcases List.mem_cons.mp h with h | h
        · exact h ▸ hp item hitem
        · simp at h

/-- `wait_receive_all` preserves the invariants, returns `Ok` exactly
when it drained every in-flight task, and never starts anything. -/
theorem waitReceiveAllAux_spec {E : Type} :
    ∀ (fuel : Nat) (choices : List Nat) (q : List (Nat × Option E)) (s : PR E),
    s.queue = q → Inv s →
    ∀ s2 o, PR.waitReceiveAllAux fuel choices q s = some (s2, o) →
    Inv s2 ∧ (CntInv s → CntInv s2) ∧ s2.maxThreads = s.maxThreads ∧
    s2.done = s.done ∧ (∀ n, startCount n s2.trace = startCount n s.trace) ∧
    (o = none → s2.handles = []) ∧ (NoErr s → o = none ∧ NoErr s2) := by
  intro fuel
  induction fuel with
  | zero =>
    intro choices q s hq hI s2 o hres
    exact absurd hres (by simp [PR.waitReceiveAllAux])
  | succ fuel ih =>
    intro choices q s hq hI s2 o hres
    rw [PR.waitReceiveAllAux.eq_def] at hres
    simp only at hres
    by_cases hh : s.handles = []
    · rw [if_pos hh] at hres
      have h1 : s = s2 ∧ (none : Option (String × E)) = o := by
        simpa using hres
      obtain ⟨h1, h2⟩ := h1
      subst h1
      subst h2
      exact ⟨hI, fun h => h, rfl, rfl, fun _ => rfl, fun _ => hh,
        fun h => ⟨rfl, h⟩⟩
    · rw [if_neg hh] at hres
      rcases q with _ | ⟨⟨id, r⟩, rest⟩
      · rcases choices with _ | ⟨k, ch⟩
        · simp at hres
        · simp only at hres
          match hdel : s.deliver k with
          | none => rw [hdel] at hres; simp at hres
          | some s2d =>
            rw [hdel] at hres
            have hD := deliver_inv hI hdel
            have hih := ih ch s2d.queue s2d rfl hD.1 s2 o hres
            refine ⟨hih.1, fun h => hih.2.1 (hD.2.2.2.2.2.2.1 h), ?_, ?_, ?_,
              hih.2.2.2.2.2.1, ?_⟩
            · rw [hih.2.2.1, hD.2.2.2.2.2.1]
            · rw [hih.2.2.2.1, hD.2.2.2.2.1]
            · intro n
              rw [hih.2.2.2.2.1 n, hD.2.2.2.1]
            · intro h
              exact hih.2.2.2.2.2.2 (hD.2.2.2.2.2.2.2 h)
      · rcases r with _ | e
        · simp only at hres
          have hD := drain_inv (r := none) hI hq
          have hih := ih choices rest _ hD.2.2.2.2.2.1 hD.1 s2 o hres
          refine ⟨hih.1, fun h => hih.2.1 (hD.2.1 h), ?_, ?_, ?_,
            hih.2.2.2.2.2.1, ?_⟩
          · rw [hih.2.2.1, hD.2.2.2.1]
          · rw [hih.2.2.2.1, hD.2.2.2.2.1]
          · intro n
            rw [hih.2.2.2.2.1 n, hD.2.2.2.2.2.2.1 n]
          · intro h
            exact hih.2.2.2.2.2.2 (hD.2.2.2.2.2.2.2 h)
        · simp only at hres
          have hD := drain_inv hI hq
          have h1 : (PR.onFinished { s with queue := rest } id).1 = s2 ∧
              some ((PR.onFinished { s with queue := rest } id).2, e) = o := by
            simpa using hres
          obtain ⟨h1, h2⟩ := h1
          subst h1
          subst h2
          refine ⟨hD.1, hD.2.1, hD.2.2.2.1, hD.2.2.2.2.1, hD.2.2.2.2.2.2.1,
            fun habs => by simp at habs, ?_⟩
          intro h
          exact absurd
            (h.2 (id, some e) (by rw [hq]; exact List.mem_cons_self _ _))
            (by simp)

theorem waitReceiveAll_spec {E : Type} {s : PR E} (hI : Inv s) {s2 : PR E}
    {o : Option (String × E)} (hres : s.waitReceiveAll choices = some (s2, o)) :
    Inv s2 ∧ (CntInv s → CntInv s2) ∧ s2.maxThreads = s.maxThreads ∧
    s2.done = s.done ∧ (∀ n, startCount n s2.trace = startCount n s.trace) ∧
    (o = none → s2.handles = []) ∧ (NoErr s → o = none ∧ NoErr s2) :=
  waitReceiveAllAux_spec _ choices s.queue s rfl hI s2 o hres

theorem waitReceiveAll_nil_handles {E : Type} {s : PR E}
    (hh : s.handles = []) (ch : List Nat) :
    s.waitReceiveAll ch = some (s, none) := by
  rw [PR.waitReceiveAll, PR.waitReceiveAllAux.eq_def]
  simp only
  rw [if_pos hh]

/-- Removing one present element from a duplicate-free list shortens it
by exactly one. -/
theorem filter_ne_length {l : List Nat} {id : Nat}
    (hnd : l.Nodup) (hmem : id ∈ l) :
    (l.filter (fun h => h ≠ id)).length + 1 = l.length := by
  induction l with
  | nil => simp at hmem
  | cons a as ih =>
    have hnd2 := List.nodup_cons.mp hnd
    rcases List.mem_cons.mp hmem with h | h
    · subst h
      rw [List.filter_cons_of_neg (by simp)]
      have hself : List.filter (fun h => decide (h ≠ id)) as = as := by
        apply List.filter_eq_self.mpr
        intro x hx
        have hxid : x ≠ id := fun he => hnd2.1 (he ▸ hx)
        simpa using hxid
      rw [hself]
      simp
    · have hne : a ≠ id := fun he => hnd2.1 (he ▸ h)
      rw [List.filter_cons_of_pos (by simpa using hne)]
      simp only [List.length_cons]
      rw [← ih hnd2.2 h]

/-- `wait_receive_one` drains the queue head: invariants survive,
`pending` and the bound are untouched, nothing is started; when the
runner is alive the drained slot leaves `handles`, shrinking it. -/
theorem waitReceiveOne_spec {E : Type} {s : PR E} (hI : Inv s)
    {s3 : PR E} {o3 : Option (String × E)}
    (hres : s.waitReceiveOne = some (s3, o3)) :
    Inv s3 ∧ (CntInv s → CntInv s3) ∧ s3.pending = s.pending ∧
    s3.maxThreads = s.maxThreads ∧ s3.done = s.done ∧
    (∀ n, startCount n s3.trace = startCount n s.trace) ∧
    (s.done = false → s3.handles.length + 1 = s.handles.length) ∧
    (NoErr s → o3 = none ∧ NoErr s3) := by
  rw [PR.waitReceiveOne] at hres
  match hq : s.queue with
  | [] => rw [hq] at hres; exact absurd hres (by simp)
  | (id, r) :: rest =>
    rw [hq] at hres
    simp only at hres
    have hD := drain_inv hI hq
    have h1 : (PR.onFinished { s with queue := rest } id).1 = s3 ∧
        Option.map (fun e => ((PR.onFinished { s with queue := rest } id).2, e)) r
          = o3 := by
      constructor
      · exact congrArg Prod.fst ((Option.some.injEq _ _).mp hres)
      · exact congrArg Prod.snd ((Option.some.injEq _ _).mp hres)
    obtain ⟨h1, h2⟩ := h1
    subst h1
    subst h2
    refine ⟨hD.1, hD.2.1, hD.2.2.1, hD.2.2.2.1, hD.2.2.2.2.1,
      hD.2.2.2.2.2.2.1, ?_, ?_⟩
    · intro hdone
      have hidn : id ∈ keys s.names :=
        hI.qk id (by rw [hq]; simp [keys])
      have hidh : id ∈ s.handles := hI.kh hdone id hidn
      simp only [PR.onFinished]
      exact filter_ne_length hI.hnd hidh
    · intro h
      have hr : r = none := h.2 (id, r) (by rw [hq]; exact List.mem_cons_self _ _)
      subst hr
      exact ⟨rfl, hD.2.2.2.2.2.2.2 h⟩

/-- When an in-flight task has failed and its delivery is the first
error in the channel, `wait_receive_all` drains up to it and returns
`(name, error)`, leaving `pending` (the still-running siblings) and the
start notifications untouched. -/
theorem waitReceiveAllAux_err {E : Type} :
    ∀ (q₀ : List (Nat × Option E)) (fuel : Nat) (s : PR E)
      (choices : List Nat) (id : Nat) (e : E) (q₁ : List (Nat × Option E))
      (nm : String),
    Inv s → s.done = false →
    s.queue = q₀ ++ (id, some e) :: q₁ →
    2 * choices.length + s.queue.length < fuel →
    (∀ x ∈ q₀, x.2 = (none : Option E)) →
    (id, nm) ∈ s.names →
    ∃ s2, PR.waitReceiveAllAux fuel choices s.queue s
        = some (s2, some (nm, e)) ∧
      s2.pending = s.pending ∧
      (∀ n, startCount n s2.trace = startCount n s.trace) := by
  intro q₀
  induction q₀ with
  | nil =>
    intro fuel s choices id e q₁ nm hI hdone hq hf h0 hmem
    have hidh : id ∈ s.handles :=
      hI.kh hdone id (mem_keys_of_mem hmem)
    have hne : s.handles ≠ [] := List.ne_nil_of_mem hidh
    have hq1 : s.queue = (id, some e) :: q₁ := by rw [hq]; rfl
    rcases fuel with _ | fuel
    · rw [hq1] at hf
      simp at hf
    · have hD := drain_inv hI hq1
      have hnm : (PR.onFinished { s with queue := q₁ } id).2 = nm := by
        simp [PR.onFinished, find?_key_eq hI.knd hmem]
      rw [hq1, PR.waitReceiveAllAux.eq_def]
      simp only
      rw [if_neg hne]
      exact ⟨_, by rw [hnm], hD.2.2.1, hD.2.2.2.2.2.2.1⟩
  | cons hd rest ih =>
    intro fuel s choices id e q₁ nm hI hdone hq hf h0 hmem
    obtain ⟨i0, r0⟩ := hd
    have hr0 : r0 = none := h0 _ (List.mem_cons_self _ _)
    subst hr0
    have hq2 : s.queue = (i0, none) :: (rest ++ (id, some e) :: q₁) := by
      rw [hq]; rfl
    rcases fuel with _ | fuel
    · rw [hq2] at hf
      simp at hf
    · have hD := drain_inv hI hq2
      have hidh : id ∈ s.handles := hI.kh hdone id (mem_keys_of_mem hmem)
      have hne : s.handles ≠ [] := List.ne_nil_of_mem hidh
      have hqknd : (keys s.queue).Nodup := hI.pqnd.of_append_right
      have hne2 : id ≠ i0 := by
        intro he
        rw [hq2, keys, List.map_cons] at hqknd
        have h1 := (List.nodup_cons.mp hqknd).1
        apply h1
        rw [← he]
        simp only [keys, List.map_append, List.map_cons]
        exact List.mem_append.mpr (Or.inr (List.mem_cons_self _ _))
      have hmem2 : (id, nm) ∈
          (PR.onFinished { s with queue := rest ++ (id, some e) :: q₁ }
            i0).1.names := by
        simp only [PR.onFinished]
        exact List.mem_filter.mpr ⟨hmem, by simpa using hne2⟩
      have hdone2 :
          (PR.onFinished { s with queue := rest ++ (id, some e) :: q₁ }
            i0).1.done = false := by
        rw [hD.2.2.2.2.1]
        exact hdone
      have hqp := hD.2.2.2.2.2.1
      have hf2 : 2 * choices.length +
          (PR.onFinished { s with queue := rest ++ (id, some e) :: q₁ }
            i0).1.queue.length < fuel := by
        rw [hqp]
        have hlen := congrArg List.length hq2
        simp only [List.length_cons] at hlen
        omega
      have hih := ih fuel _ choices id e q₁ nm hD.1 hdone2 hqp hf2
        (fun x hx => h0 x (List.mem_cons_of_mem _ hx)) hmem2
      obtain ⟨s2, hres2, hpend2, hcnt2⟩ := hih
      rw [hqp] at hres2
      rw [hq2, PR.waitReceiveAllAux.eq_def]
      simp only
      rw [if_neg hne]
      refine ⟨s2, hres2, ?_, ?_⟩
      · rw [hpend2, hD.2.2.1]
      · intro n
        rw [hcnt2 n, hD.2.2.2.2.2.2.1 n]

/-- The spawn step in `ParRunner::run`: when a slot is free, the lowest
free slot is chosen, the worker is spawned, `on_start(name)` fires, and
the name is recorded — and all invariants are preserved. -/
theorem start_spec {E : Type} {s : PR E} (hI : Inv s) (hdone : s.done = false)
    (hroom : s.handles.length < s.maxThreads) (name : String) (res : Option E) :
    ∃ id s2, s.start name res = some (s2, none) ∧
      id < s.maxThreads ∧ id ∉ s.handles ∧ (∀ j, j < id → j ∈ s.handles) ∧
      s2.handles = s.handles ++ [id] ∧
      s2.names = s.names ++ [(id, name)] ∧
      s2.pending = s.pending ++ [(id, res)] ∧
      s2.queue = s.queue ∧
      s2.trace = s.trace ++ [PEvent.start name] ∧
      s2.done = s.done ∧ s2.maxThreads = s.maxThreads ∧
      Inv s2 ∧ (CntInv s → CntInv s2) ∧
      (NoErr s → res = none → NoErr s2) := by
  have hfree : ∃ x ∈ List.range s.maxThreads, (! s.handles.contains x) = true := by
    by_contra hall
    push_neg at hall
    have hsub : List.range s.maxThreads ⊆ s.handles := by
      intro x hx
      have := hall x hx
      simpa using this
    have := (List.subperm_of_subset (List.nodup_range _) hsub).length_le
    rw [List.length_range] at this
    omega
  have hsome : ((List.range s.maxThreads).find?
      (fun n => ! s.handles.contains n)).isSome := by
    rw [List.find?_isSome]
    exact hfree
  obtain ⟨id, hfind⟩ := Option.isSome_iff_exists.mp hsome
  obtain ⟨hp, as, bs, hsplit, hall⟩ := List.find?_eq_some.mp hfind
  have hidh : id ∉ s.handles := by simpa using hp
  have hidrange : id ∈ List.range s.maxThreads := by
    rw [hsplit]
    exact List.mem_append.mpr (Or.inr (List.mem_cons_self _ _))
  have hidlt : id < s.maxThreads := List.mem_range.mp hidrange
  have haslen : as.length < s.maxThreads := by
    have := congrArg List.length hsplit
    simp at this
    omega
  have hid_is_len : id = as.length := by
    have h1 : (List.range s.maxThreads)[as.length]? = some id := by
      rw [hsplit]
      rw [List.getElem?_append_right (Nat.le_refl as.length)]
      simp
    rw [List.getElem?_range haslen] at h1
    exact (Option.some.injEq _ _).mp h1.symm
  have hleast : ∀ j, j < id → j ∈ s.handles := by
    intro j hj
    have hjas : j ∈ as := by
      have h1 : as = (List.range s.maxThreads).take as.length := by
        rw [hsplit, List.take_left]
      rw [h1, List.take_range]
      rw [List.mem_range]
      rw [hid_is_len] at hj
      omega
    have := hall j hjas
    simp only [Bool.not_not] at this
    simpa using this
  have hidnames : id ∉ keys s.names := by
    intro hmem
    exact hidh (hI.kh hdone id hmem)
  have hfilter : s.names.filter (fun p => p.1 ≠ id) = s.names :=
    filter_keyne_of_not_mem hidnames
  refine ⟨id, { s with
      handles := s.handles ++ [id],
      pending := s.pending ++ [(id, res)],
      trace := s.trace ++ [PEvent.start name],
      names := s.names.filter (fun p => p.1 ≠ id) ++ [(id, name)] },
    ?_, hidlt, hidh, hleast, rfl, ?_, rfl, rfl, rfl, rfl, rfl,
    ?_, ?_, ?_⟩
  · rw [PR.start, hfind]
  · simp only [hfilter]
  · -- the invariant survives the spawn
    have hidpq : id ∉ keys s.pending ++ keys s.queue := by
      intro hmem
      rcases List.mem_append.mp hmem with h | h
      · exact hidnames (hI.pk id h)
      · exact hidnames (hI.qk id h)
    refine ⟨?_, ?_, ?_, ?_, ?_, ?_, ?_⟩
    · simp only
      rw [List.nodup_append]
      exact ⟨hI.hnd, List.nodup_singleton _, by
        intro a ha hb
        simp only [List.mem_singleton] at hb
        exact hidh (hb ▸ ha)⟩
    · intro i hi
      simp only at hi
      rcases List.mem_append.mp hi with h | h
      · exact hI.hlt i h
      · simp only [List.mem_singleton] at h
        exact h ▸ hidlt
    · simp only [hfilter, keys, List.map_append, List.map_cons, List.map_nil]
      rw [List.nodup_append]
      refine ⟨hI.knd, List.nodup_singleton _, ?_⟩
      intro a ha hb
      simp only [List.mem_singleton] at hb
      exact hidnames (hb ▸ ha)
    · simp only [keys, List.map_append, List.map_cons, List.map_nil]
      have hperm : List.Perm
          ((List.map Prod.fst s.pending ++ [id]) ++ List.map Prod.fst s.queue)
          (id :: (List.map Prod.fst s.pending ++ List.map Prod.fst s.queue)) := by
        have h1 := (List.perm_append_singleton id
          (List.map Prod.fst s.pending)).append_right (List.map Prod.fst s.queue)
        simp only [List.cons_append] at h1
        exact h1
      refine hperm.symm.nodup ?_
      rw [List.nodup_cons]
      exact ⟨by simpa [keys] using hidpq, hI.pqnd⟩
    · intro i hi
      simp only [hfilter, keys, List.map_append, List.map_cons, List.map_nil] at hi ⊢
      rcases List.mem_append.mp hi with h | h
      · exact List.mem_append.mpr (Or.inl (hI.pk i h))
      · exact List.mem_append.mpr (Or.inr h)
    · intro i hi
      simp only [hfilter, keys, List.map_append, List.map_cons, List.map_nil]
      exact List.mem_append.mpr (Or.inl (hI.qk i hi))
    · intro hd2 i hi
      simp only [hfilter, keys, List.map_append, List.map_cons, List.map_nil] at hi
      rcases List.mem_append.mp hi with h | h
      · exact List.mem_append.mpr (Or.inl (hI.kh hdone i h))
      · exact List.mem_append.mpr (Or.inr h)
  · intro hC n
    simp only [CntInv] at hC ⊢
    simp only [hfilter]
    rw [startCount_append, startCount_start, finishCount_append,
      finishCount_start]
    simp only [inflightNamed, List.filter_append]
    rw [List.length_append]
    have := hC n
    simp only [inflightNamed] at this
    by_cases he : name = n
    · rw [if_pos he]
      rw [List.filter_cons_of_pos (by simpa using he)]
      simp only [List.filter_nil, List.length_cons, List.length_nil]
      omega
    · rw [if_neg he]
      rw [List.filter_cons_of_neg (by simpa using he)]
      simp only [List.filter_nil, List.length_nil]
      omega
  · rintro ⟨hp2, hq2⟩ hres
    subst hres
    refine ⟨?_, ?_⟩
    · intro x hx
      simp only at hx
      rcases List.mem_append.mp hx with h | h
      · exact hp2 x h
      · simp only [List.mem_singleton] at h
        rw [h]
    · intro x hx
      exact hq2 x hx

/-- `ParRunner::run` on the success path preserves every invariant; on
any path it never increases the bound, never flips `done`. -/
theorem run_spec {E : Type} {s : PR E} (hI : Inv s) (hdone : s.done = false)
    {name : String} {res : Option E} {s2 : PR E} {o : Option (String × E)}
    (hres : s.run name res = some (s2, o)) :
    Inv s2 ∧ (CntInv s → CntInv s2) ∧ s2.maxThreads = s.maxThreads ∧
    s2.done = s.done ∧ (NoErr s → res = none → NoErr s2) := by
  have hCF := checkFinished_spec s hI
  rw [PR.run] at hres
  match hc : (s.checkFinished).2 with
  | some e =>
    rw [hc] at hres
    have h1 : (s.checkFinished).1 = s2 ∧ (some e : Option (String × E)) = o := by
      simpa using hres
    obtain ⟨h1, h2⟩ := h1
    subst h1
    subst h2
    refine ⟨hCF.1, hCF.2.1, hCF.2.2.2.1, hCF.2.2.2.2.1, ?_⟩
    intro hNE _
    exact (hCF.2.2.2.2.2.2 hNE).1
  | none =>
    rw [hc] at hres
    simp only at hres
    set c1 := (s.checkFinished).1 with hc1
    have hc1done : c1.done = false := by rw [hCF.2.2.2.2.1]; exact hdone
    by_cases hfull : c1.maxThreads ≤ c1.handles.length
    · rw [if_pos hfull] at hres
      match hw : c1.waitReceiveOne with
      | none => rw [hw] at hres; exact absurd hres (by simp)
      | some (s3, o3) =>
        rw [hw] at hres
        have hWO := waitReceiveOne_spec hCF.1 hw
        match o3 with
        | some e =>
          have h1 : s3 = s2 ∧ (some e : Option (String × E)) = o := by
            simpa using hres
          obtain ⟨h1, h2⟩ := h1
          subst h1
          subst h2
          refine ⟨hWO.1, fun h => hWO.2.1 (hCF.2.1 h), ?_, ?_, ?_⟩
          · rw [hWO.2.2.2.1, hCF.2.2.2.1]
          · rw [hWO.2.2.2.2.1, hCF.2.2.2.2.1]
          · intro hNE _
            exact (hWO.2.2.2.2.2.2.2 ((hCF.2.2.2.2.2.2 hNE).1)).2
        | none =>
          simp only at hres
          have hs3done : s3.done = false := by
            rw [hWO.2.2.2.2.1]
            exact hc1done
          have hs3room : s3.handles.length < s3.maxThreads := by
            have hlen := hWO.2.2.2.2.2.2.1 hc1done
            have hbound : c1.handles.length ≤ c1.maxThreads := by
              have hsub := List.subperm_of_subset hCF.1.hnd
                (fun x hx => List.mem_range.mpr (hCF.1.hlt x hx))
              have := hsub.length_le
              rwa [List.length_range] at this
            rw [hWO.2.2.2.1]
            omega
          obtain ⟨id, s4, hst, _, _, _, _, _, _, _, _, hd4, hm4, hInv4, hC4,
            hNE4⟩ := start_spec hWO.1 hs3done hs3room name res
          rw [hst] at hres
          have h1 : s4 = s2 ∧ (none : Option (String × E)) = o := by
            simpa using hres
          obtain ⟨h1, h2⟩ := h1
          subst h1
          subst h2
          refine ⟨hInv4, ?_, ?_, ?_, ?_⟩
          · intro h
            exact hC4 (hWO.2.1 (hCF.2.1 h))
          · rw [hm4, hWO.2.2.2.1, hCF.2.2.2.1]
          · rw [hd4, hWO.2.2.2.2.1, hCF.2.2.2.2.1]
          · intro hNE hr
            exact hNE4 (hWO.2.2.2.2.2.2.2 ((hCF.2.2.2.2.2.2 hNE).1)).2 hr
    · rw [if_neg hfull] at hres
      have hroom : c1.handles.length < c1.maxThreads := by omega
      obtain ⟨id, s4, hst, _, _, _, _, _, _, _, _, hd4, hm4, hInv4, hC4, hNE4⟩ :=
        start_spec hCF.1 hc1done hroom name res
      rw [hst] at hres
      have h1 : s4 = s2 ∧ (none : Option (String × E)) = o := by
        simpa using hres
      obtain ⟨h1, h2⟩ := h1
      subst h1
      subst h2
      refine ⟨hInv4, ?_, ?_, ?_, ?_⟩
      · intro h
        exact hC4 (hCF.2.1 h)
      · rw [hm4, hCF.2.2.2.1]
      · rw [hd4, hCF.2.2.2.2.1]
      · intro hNE hr
        exact hNE4 ((hCF.2.2.2.2.2.2 hNE).1) hr

/-- C4 (amended), `run` part: if a failed task is the first error sitting
in the channel, the next `run` call returns `(its name, its error)`
without starting the submitted task, and the still-running siblings in
`pending` are untouched. -/
theorem run_err {E : Type} {s : PR E} {q₀ : List (Nat × Option E)} {id : Nat}
    {e : E} {q₁ : List (Nat × Option E)} {nm : String} (hI : Inv s)
    (hq : s.queue = q₀ ++ (id, some e) :: q₁)
    (h0 : ∀ x ∈ q₀, x.2 = (none : Option E)) (hmem : (id, nm) ∈ s.names)
    (name : String) (res : Option E) :
    s.run name res = some ((s.checkFinished).1, some (nm, e)) ∧
    (s.checkFinished).1.pending = s.pending ∧
    (∀ n, startCount n (s.checkFinished).1.trace = startCount n s.trace) := by
  have hCF := checkFinished_spec s hI
  have herr := checkFinished_err hI hq h0 hmem
  refine ⟨?_, hCF.2.2.1, hCF.2.2.2.2.2.1⟩
  rw [PR.run, herr]

/-- `into_wait` is its drain followed by clearing `handles` and marking
the runner consumed; the `Drop` that follows sees no handles and drains
nothing. -/
theorem intoWait_spec {E : Type} {s : PR E} {ch : List Nat} {s2 : PR E}
    {o : Option (String × E)} (hres : s.intoWait ch = some (s2, o)) :
    ∃ s1, s.waitReceiveAll ch = some (s1, o) ∧
      s2 = { s1 with handles := [], done := true } := by
  rw [PR.intoWait] at hres
  match hw : s.waitReceiveAll ch with
  | none => rw [hw] at hres; exact absurd hres (by simp)
  | some (s1, r) =>
    rw [hw] at hres
    simp only at hres
    rw [waitReceiveAll_nil_handles (s := { s1 with handles := [] }) rfl []]
      at hres
    have h1 : ({ s1 with handles := [], done := true } : PR E) = s2 ∧ r = o := by
      simpa using hres
    obtain ⟨hA, hB⟩ := h1
    subst hB
    exact ⟨s1, rfl, hA.symm⟩

/-- Dropping the runner is a best-effort drain with the result ignored. -/
theorem dropIt_spec {E : Type} {s : PR E} {ch : List Nat} {s2 : PR E}
    (hres : s.dropIt ch = some s2) :
    ∃ s1 o, s.waitReceiveAll ch = some (s1, o) ∧
      s2 = { s1 with done := true } := by
  rw [PR.dropIt] at hres
  match hw : s.waitReceiveAll ch with
  | none => rw [hw] at hres; exact absurd hres (by simp)
  | some (s1, r) =>
    rw [hw] at hres
    simp only at hres
    exact ⟨s1, r, rfl, ((Option.some.injEq _ _).mp hres).symm⟩

/-- Combined reachable-state property: well-formedness plus the
start/finish ledger. -/
def Good {E : Type} (s : PR E) : Prop := Inv s ∧ CntInv s

/-- A command that cannot introduce a failing result. -/
def okCmd {E : Type} : Cmd E → Prop
  | .run _ r => r = none
  | _ => True

theorem step_good {E : Type} {s : PR E} {c : Cmd E} {s2 : PR E}
    {out : Option (Option (String × E))} (hG : Good s)
    (hres : s.step c = some (s2, out)) :
    Good s2 ∧ s2.maxThreads = s.maxThreads ∧
    (NoErr s → okCmd c → NoErr s2) := by
  obtain ⟨hI, hC⟩ := hG
  match c with
  | .run name res =>
    simp only [PR.step] at hres
    match hd : s.done with
    | true => rw [hd] at hres; simp at hres
    | false =>
      rw [hd] at hres
      simp only [Bool.false_eq_true, if_false] at hres
      match hr : s.run name res with
      | none => rw [hr] at hres; simp at hres
      | some (s2a, r) =>
        rw [hr] at hres
        have h1 : s2a = s2 ∧ (some r : Option (Option (String × E))) = out := by
          simpa using hres
        obtain ⟨h1, h2⟩ := h1
        subst h1
        have hR := run_spec hI hd hr
        exact ⟨⟨hR.1, hR.2.1 hC⟩, hR.2.2.1,
          fun hNE hok => hR.2.2.2.2 hNE hok⟩
  | .deliver k =>
    simp only [PR.step] at hres
    match hd : s.done with
    | true => rw [hd] at hres; simp at hres
    | false =>
      rw [hd] at hres
      simp only [Bool.false_eq_true, if_false] at hres
      match hr : s.deliver k with
      | none => rw [hr] at hres; simp at hres
      | some s2a =>
        rw [hr] at hres
        have h12 : s2a = s2 ∧ (none : Option (Option (String × E))) = out := by
          simpa using hres
        obtain ⟨h1, _⟩ := h12
        subst h1
        have hD := deliver_inv hI hr
        exact ⟨⟨hD.1, hD.2.2.2.2.2.2.1 hC⟩, hD.2.2.2.2.2.1,
          fun hNE _ => hD.2.2.2.2.2.2.2 hNE⟩
  | .intoWait ch =>
    simp only [PR.step] at hres
    match hd : s.done with
    | true => rw [hd] at hres; simp at hres
    | false =>
      rw [hd] at hres
      simp only [Bool.false_eq_true, if_false] at hres
      match hr : s.intoWait ch with
      | none => rw [hr] at hres; simp at hres
      | some (s2a, r) =>
        rw [hr] at hres
        have h1 : s2a = s2 := by
          have := (Option.some.injEq _ _).mp hres
          exact congrArg Prod.fst this
        subst h1
        obtain ⟨s1, hw, hs2⟩ := intoWait_spec hr
        have hW := waitReceiveAll_spec hI hw
        subst hs2
        refine ⟨⟨?_, ?_⟩, hW.2.2.1, ?_⟩
        · refine ⟨List.nodup_nil, ?_, hW.1.knd, hW.1.pqnd, hW.1.pk, hW.1.qk, ?_⟩
          · intro i hi
            simp at hi
          · intro hfalse
            simp at hfalse
        · exact hW.2.1 hC
        · intro hNE _
          exact (hW.2.2.2.2.2.2 hNE).2
  | .dropIt ch =>
    simp only [PR.step] at hres
    match hd : s.done with
    | true => rw [hd] at hres; simp at hres
    | false =>
      rw [hd] at hres
      simp only [Bool.false_eq_true, if_false] at hres
      match hr : s.dropIt ch with
      | none => rw [hr] at hres; simp at hres
      | some s2a =>
        rw [hr] at hres
        have h12 : s2a = s2 ∧ (none : Option (Option (String × E))) = out := by
          simpa using hres
        obtain ⟨h1, _⟩ := h12
        subst h1
        obtain ⟨s1, o, hw, hs2⟩ := dropIt_spec hr
        have hW := waitReceiveAll_spec hI hw
        subst hs2
        refine ⟨⟨?_, ?_⟩, hW.2.2.1, ?_⟩
        · refine ⟨hW.1.hnd, hW.1.hlt, hW.1.knd, hW.1.pqnd, hW.1.pk, hW.1.qk, ?_⟩
          intro hfalse
          simp at hfalse
        · exact hW.2.1 hC
        · intro hNE _
          exact (hW.2.2.2.2.2.2 hNE).2

theorem execOut_good {E : Type} :
    ∀ (cs : List (Cmd E)) (s : PR E), Good s →
    ∀ s2 outs, s.execOut cs = some (s2, outs) →
    Good s2 ∧ s2.maxThreads = s.maxThreads ∧
    (NoErr s → (∀ c ∈ cs, okCmd c) → NoErr s2) := by
  intro cs
  induction cs with
  | nil =>
    intro s hG s2 outs hres
    have h12 : s = s2 ∧ ([] : List (Option (String × E))) = outs := by
      simpa [PR.execOut] using hres
    obtain ⟨h1, _⟩ := h12
    subst h1
    exact ⟨hG, rfl, fun h _ => h⟩
  | cons c cs ih =>
    intro s hG s2 outs hres
    simp only [PR.execOut] at hres
    match hst : s.step c with
    | none => rw [hst] at hres; simp at hres
    | some (s1, o) =>
      rw [hst] at hres
      simp only at hres
      match hex : s1.execOut cs with
      | none => rw [hex] at hres; simp at hres
      | some (s2a, outs2) =>
        rw [hex] at hres
        have h1 : s2a = s2 := by
          have := (Option.some.injEq _ _).mp hres
          exact congrArg Prod.fst this
        subst h1
        have hS := step_good hG hst
        have hih := ih s1 hS.1 s2a outs2 hex
        refine ⟨hih.1, by rw [hih.2.1, hS.2.1], ?_⟩
        intro hNE hok
        exact hih.2.2 (hS.2.2 hNE (hok c (List.mem_cons_self _ _)))
          (fun x hx => hok x (List.mem_cons_of_mem _ hx))

theorem exec_good {E : Type} {m : Nat} {cs : List (Cmd E)} {s2 : PR E}
    (hres : (PR.init E m).exec cs = some s2) :
    Good s2 ∧ s2.maxThreads = m := by
  rw [PR.exec] at hres
  match hex : (PR.init E m).execOut cs with
  | none => rw [hex] at hres; exact absurd hres (by simp)
  | some (s2a, outs) =>
    rw [hex] at hres
    have h1 : s2a = s2 := by simpa using hres
    have hG0 : Good (PR.init E m) := by
      refine ⟨⟨List.nodup_nil, ?_, ?_, ?_, ?_, ?_, ?_⟩, ?_⟩
      · intro i hi
        simp [PR.init] at hi
      · simp [PR.init, keys]
      · simp [PR.init, keys]
      · intro i hi
        simp [PR.init, keys] at hi
      · intro i hi
        simp [PR.init, keys] at hi
      · intro _ i hi
        simp [PR.init, keys] at hi
      · intro n
        simp [PR.init, CntInv, startCount, finishCount, inflightNamed]
    rw [← h1]
    exact ⟨(execOut_good cs _ hG0 s2a outs hex).1,
      (execOut_good cs _ hG0 s2a outs hex).2.1⟩

/-- Splitting an execution at its last command. -/
theorem execOut_append_last {E : Type} :
    ∀ (cs : List (Cmd E)) (s : PR E) (c : Cmd E) {s2 : PR E}
      {outs : List (Option (String × E))},
    s.execOut (cs ++ [c]) = some (s2, outs) →
    ∃ s1 outs1 o, s.execOut cs = some (s1, outs1) ∧
      s1.step c = some (s2, o) := by
  intro cs
  induction cs with
  | nil =>
    intro s c s2 outs hres
    simp only [List.nil_append, PR.execOut] at hres
    match hst : s.step c with
    | none => rw [hst] at hres; simp at hres
    | some (s1, o) =>
      rw [hst] at hres
      simp only [PR.execOut] at hres
      have h1 : s1 = s2 := by
        have := (Option.some.injEq _ _).mp hres
        exact congrArg Prod.fst this
      subst h1
      exact ⟨s, [], o, rfl, hst⟩
  | cons c0 cs ih =>
    intro s c s2 outs hres
    simp only [List.cons_append, PR.execOut] at hres
    match hst : s.step c0 with
    | none => rw [hst] at hres; simp at hres
    | some (s1, o) =>
      rw [hst] at hres
      simp only at hres
      rw [show cs.append [c] = cs ++ [c] from rfl] at hres
      match hex : s1.execOut (cs ++ [c]) with
      | none => rw [hex] at hres; simp at hres
      | some (s2a, outs2) =>
        rw [hex] at hres
        have h1 : s2a = s2 := by
          have := (Option.some.injEq _ _).mp hres
          exact congrArg Prod.fst this
        subst h1
        obtain ⟨s1b, outs1, ob, hex1, hstep1⟩ := ih s1 c hex
        refine ⟨s1b, o.toList ++ outs1, ob, ?_, hstep1⟩
        simp only [PR.execOut, hst, hex1]

theorem init_good (E : Type) (m : Nat) : Good (PR.init E m) := by
  refine ⟨⟨List.nodup_nil, ?_, ?_, ?_, ?_, ?_, ?_⟩, ?_⟩
  · intro i hi
    simp [PR.init] at hi
  · simp [PR.init, keys]
  · simp [PR.init, keys]
  · intro i hi
    simp [PR.init, keys] at hi
  · intro i hi
    simp [PR.init, keys] at hi
  · intro _ i hi
    simp [PR.init, keys] at hi
  · intro n
    simp [PR.init, CntInv, startCount, finishCount, inflightNamed]

theorem find_free_lowest {m : Nat} {handles : List Nat} {id : Nat}
    (hfind : (List.range m).find? (fun n => ! handles.contains n) = some id) :
    id < m ∧ id ∉ handles ∧ ∀ j, j < id → j ∈ handles := by
  obtain ⟨hp, as, bs, hsplit, hall⟩ := List.find?_eq_some.mp hfind
  have hidh : id ∉ handles := by simpa using hp
  have hidlt : id < m := by
    have : id ∈ List.range m := by
      rw [hsplit]
      exact List.mem_append.mpr (Or.inr (List.mem_cons_self _ _))
    exact List.mem_range.mp this
  have haslen : as.length < m := by
    have := congrArg List.length hsplit
    simp at this
    omega
  have hid_is_len : id = as.length := by
    have h1 : (List.range m)[as.length]? = some id := by
      rw [hsplit]
      rw [List.getElem?_append_right (Nat.le_refl as.length)]
      simp
    rw [List.getElem?_range haslen] at h1
    exact (Option.some.injEq _ _).mp h1.symm
  refine ⟨hidlt, hidh, ?_⟩
  intro j hj
  have hjas : j ∈ as := by
    have h1 : as = (List.range m).take as.length := by
      rw [hsplit, List.take_left]
    rw [h1, List.take_range]
    rw [List.mem_range]
    rw [hid_is_len] at hj
    omega
  have := hall j hjas
  simp only [Bool.not_not] at this
  simpa using this

/-- The slot chosen by `run`'s spawn step is the least free one, and it
is appended to the occupied set. -/
theorem start_lowest {E : Type} {s : PR E} {name : String} {res : Option E}
    {s2 : PR E} {o : Option (String × E)}
    (h : s.start name res = some (s2, o)) :
    ∃ id, id < s.maxThreads ∧ id ∉ s.handles ∧ (∀ j, j < id → j ∈ s.handles) ∧
      s2.handles = s.handles ++ [id] ∧ o = none := by
  rw [PR.start] at h
  match hfind : (List.range s.maxThreads).find?
      (fun n => ! s.handles.contains n) with
  | none => rw [hfind] at h; simp at h
  | some id =>
    rw [hfind] at h
    obtain ⟨hlt, hnot, hleast⟩ := find_free_lowest hfind
    have h1 : ({ s with
        handles := s.handles ++ [id],
        pending := s.pending ++ [(id, res)],
        trace := s.trace ++ [PEvent.start name],
        names := s.names.filter (fun p => p.1 ≠ id) ++ [(id, name)] } : PR E)
          = s2 ∧ (none : Option (String × E)) = o := by
      simpa using h
    refine ⟨id, hlt, hnot, hleast, ?_, h1.2.symm⟩
    rw [← h1.1]

/-- When an error is waiting in the channel, `into_wait` drains up to it
and returns it with the erroring task's name; the still-running siblings
stay in flight and no start notification is emitted. -/
theorem intoWait_err {E : Type} {s : PR E} {choices : List Nat}
    {q₀ : List (Nat × Option E)} {id : Nat} {e : E}
    {q₁ : List (Nat × Option E)} {nm : String} (hI : Inv s)
    (hdone : s.done = false) (hq : s.queue = q₀ ++ (id, some e) :: q₁)
    (h0 : ∀ x ∈ q₀, x.2 = (none : Option E)) (hmem : (id, nm) ∈ s.names) :
    ∃ s2, s.intoWait choices = some (s2, some (nm, e)) ∧
      s2.pending = s.pending ∧
      (∀ n, startCount n s2.trace = startCount n s.trace) := by
  obtain ⟨s2m, hw, hpend, hcnt⟩ :=
    waitReceiveAllAux_err q₀ (2 * choices.length + s.queue.length + 1) s
      choices id e q₁ nm hI hdone hq (by omega) h0 hmem
  have hw2 : s.waitReceiveAll choices = some (s2m, some (nm, e)) := hw
  refine ⟨{ s2m with handles := [], done := true }, ?_, hpend, hcnt⟩
  rw [PR.intoWait, hw2]
  simp only
  rw [waitReceiveAll_nil_handles (s := { s2m with handles := [] }) rfl []]

/-- C4 (amended).  If a scheduled task has returned an error and its
completion has been delivered as the first error in the channel, then
the next `run()` call returns `(that task's name, that error)` without
starting the task submitted in that call, and a pending `into_wait()`
returns the same pair; tasks already in flight (`pending`) are not
cancelled by either.  (As stated the claim is false: the scheduler does
not prevent tasks submitted by *later* `run()` calls from starting, and
a `run()` issued before the failed completion is delivered returns `Ok`
— see the counterexample.) -/
theorem failfast_amended :
    (∀ (E : Type) (s : PR E) (q₀ : List (Nat × Option E)) (id : Nat) (e : E)
      (q₁ : List (Nat × Option E)) (nm : String) (name : String)
      (res : Option E), Inv s →
      s.queue = q₀ ++ (id, some e) :: q₁ →
      (∀ x ∈ q₀, x.2 = (none : Option E)) →
      (id, nm) ∈ s.names →
      s.run name res = some ((s.checkFinished).1, some (nm, e)) ∧
      (s.checkFinished).1.pending = s.pending ∧
      (∀ n, startCount n (s.checkFinished).1.trace = startCount n s.trace)) ∧
    (∀ (E : Type) (s : PR E) (choices : List Nat)
      (q₀ : List (Nat × Option E)) (id : Nat) (e : E)
      (q₁ : List (Nat × Option E)) (nm : String), Inv s → s.done = false →
      s.queue = q₀ ++ (id, some e) :: q₁ →
      (∀ x ∈ q₀, x.2 = (none : Option E)) →
      (id, nm) ∈ s.names →
      ∃ s2, s.intoWait choices = some (s2, some (nm, e)) ∧
        s2.pending = s.pending ∧
        (∀ n, startCount n s2.trace = startCount n s.trace)) :=
  ⟨fun _ _ _ _ _ _ _ name res hI hq h0 hmem =>
      run_err hI hq h0 hmem name res,
    fun _ _ _ _ _ _ _ _ hI hdone hq h0 hmem =>
      intoWait_err hI hdone hq h0 hmem⟩

/-- A concrete two-slot state: task `fails` (slot 0) has errored and
its completion has been delivered to the channel. -/
def failScenario : PR Unit :=
  ⟨2, [0], [(0, "fails")], [], [(0, some ())], [PEvent.start "fails"], false⟩

/-- Witness for the amended C4 at `failScenario`: a `run` of `ok`
returns `("fails", ())` without starting `ok`, and an `into_wait`
returns the same pair. -/
theorem failfast_amended_witness :
    (failScenario.run "ok" none
      = some ((failScenario.checkFinished).1, some ("fails", ()))) ∧
    (∃ s2, failScenario.intoWait [] = some (s2, some ("fails", ()))) := by
  constructor
  · exact (failfast_amended.1 Unit failScenario [] 0 () [] "fails" "ok" none
      ⟨by decide, by decide, by decide, by decide, by decide, by decide,
        by decide⟩ rfl (by decide) (by decide)).1
  · obtain ⟨s2, hs2, _, _⟩ := failfast_amended.2 Unit failScenario [] [] 0 ()
      [] "fails"
      ⟨by decide, by decide, by decide, by decide, by decide, by decide,
        by decide⟩ rfl rfl (by decide) (by decide)
    exact ⟨s2, hs2⟩

/-- C4 counterexample.  As frozen the claim fails on the code twice
over: (a) when the failed completion has not yet been delivered, the
next `run()` returns `Ok` and starts its task (`outs = [none, none]`,
`ok` started); (b) after the error *was* observed (the second `run`
returned `("fails", ())` and never started `ok2`), a later `run` call
happily starts `ok3` — so "no task submitted after the error is
observed is ever started" is false. -/
theorem failfast_counterexample :
    (((PR.init Unit 2).execOut
        [Cmd.run "fails" (some ()), Cmd.run "ok" none]).map
        (fun p => (p.2, decide (PEvent.start "ok" ∈ p.1.trace)))
      = some ([none, none], true)) ∧
    (((PR.init Unit 2).execOut
        [Cmd.run "fails" (some ()), Cmd.deliver 0, Cmd.run "ok2" none,
         Cmd.run "ok3" none]).map
        (fun p => (p.2, decide (PEvent.start "ok3" ∈ p.1.trace),
          decide (PEvent.start "ok2" ∈ p.1.trace)))
      = some ([none, some ("fails", ()), none], true, false)) := by
  constructor
  · decide
  · decide

/-- C9.  Slot discipline of the scheduler: (1) in every reachable state
the occupied slots are distinct, lie in `[0, max_concurrency)`, and
number at most `max_concurrency` (so at most that many tasks are in
flight); (2) the spawn step of `run()` picks the lowest-numbered free
slot and marks it occupied; (3) a task finishing (its completion being
delivered) frees nothing; (4) a slot is freed exactly when its result
is drained (`on_finished` removes exactly that slot). -/
theorem slot_invariants :
    (∀ (E : Type) (m : Nat) (cs : List (Cmd E)) (s : PR E),
      (PR.init E m).exec cs = some s →
      s.handles.Nodup ∧ (∀ id ∈ s.handles, id < m) ∧ s.handles.length ≤ m) ∧
    (∀ (E : Type) (s : PR E) (name : String) (res : Option E) (s2 : PR E)
      (o : Option (String × E)), s.start name res = some (s2, o) →
      ∃ id, id < s.maxThreads ∧ id ∉ s.handles ∧
        (∀ j, j < id → j ∈ s.handles) ∧ s2.handles = s.handles ++ [id]) ∧
    (∀ (E : Type) (s : PR E) (k : Nat) (s2 : PR E),
      s.deliver k = some s2 → s2.handles = s.handles) ∧
    (∀ (E : Type) (s : PR E) (id : Nat),
      ((s.onFinished id).1).handles = s.handles.filter (fun h => h ≠ id)) := by
  refine ⟨?_, ?_, ?_, ?_⟩
  · intro E m cs s hres
    obtain ⟨⟨hI, _⟩, hm⟩ := exec_good hres
    refine ⟨hI.hnd, fun id hid => hm ▸ hI.hlt id hid, ?_⟩
    have hsub := List.subperm_of_subset hI.hnd
      (fun x hx => List.mem_range.mpr (hI.hlt x hx))
    have := hsub.length_le
    rw [List.length_range, hm] at this
    exact this
  · intro E s name res s2 o h
    obtain ⟨id, hlt, hnot, hleast, hh, _⟩ := start_lowest h
    exact ⟨id, hlt, hnot, hleast, hh⟩
  · intro E s k s2 h
    simp only [PR.deliver] at h
    match hg : s.pending.get? k with
    | none => rw [hg] at h; exact absurd h (by simp)
    | some item =>
      rw [hg] at h
      have := (Option.some.injEq _ _).mp h
      rw [← this]
  · intro E s id
    rfl

/-- Witness for C9 at a concrete run: after `run "A"` on a two-slot
runner, part (1) holds of the reached state, and the spawn picked
slot 0. -/
theorem slot_invariants_witness :
    ((⟨2, [0], [(0, "A")], [(0, (none : Option Unit))], [],
        [PEvent.start "A"], false⟩ : PR Unit).handles.Nodup ∧
      (∀ id ∈ (⟨2, [0], [(0, "A")], [(0, (none : Option Unit))], [],
        [PEvent.start "A"], false⟩ : PR Unit).handles, id < 2) ∧
      (⟨2, [0], [(0, "A")], [(0, (none : Option Unit))], [],
        [PEvent.start "A"], false⟩ : PR Unit).handles.length ≤ 2) :=
  slot_invariants.1 Unit 2 [Cmd.run "A" none] _ (by decide)

/-- C5 (amended).  (1) In every reachable state the progress ledger
balances: `on_start(n)` notifications = `on_finish(n)` notifications +
started-but-undrained tasks named `n`; in particular every `on_finish`
is preceded by its `on_start`, and drained tasks get exactly one
`on_finish`.  (2) The claim's unqualified teardown guarantee holds
exactly in the error-free case: if no task errs and the runner is
discarded by drop, the teardown drain completes and every started task
has received exactly one `on_finish`.  The unqualified claim is false:
`wait_receive_all` (the drop-path drain) returns at the first `Err`,
leaving sibling tasks undrained with no `on_finish`, and after
`into_wait` returned an error the handle map is already cleared so
nothing further is drained; both lossy paths are exhibited in the
counterexample. -/
theorem progress_pairing_amended :
    (∀ (E : Type) (m : Nat) (cs : List (Cmd E)) (s : PR E),
      (PR.init E m).exec cs = some s →
      ∀ n, startCount n s.trace = finishCount n s.trace + inflightNamed s n) ∧
    (∀ (E : Type) (m : Nat) (cs : List (Cmd E)) (ch : List Nat) (s : PR E),
      (PR.init E m).exec (cs ++ [Cmd.dropIt ch]) = some s →
      (∀ name r, Cmd.run name r ∈ cs → r = (none : Option E)) →
      ∀ n, startCount n s.trace = finishCount n s.trace) := by
  constructor
  · intro E m cs s hres
    exact (exec_good hres).1.2
  · intro E m cs ch s hres hok
    rw [PR.exec] at hres
    match hex : (PR.init E m).execOut (cs ++ [Cmd.dropIt ch]) with
    | none => rw [hex] at hres; exact absurd hres (by simp)
    | some (sf, outs) =>
      rw [hex] at hres
      have hsf : sf = s := by simpa using hres
      subst hsf
      obtain ⟨s1, outs1, o, hex1, hstep⟩ :=
        execOut_append_last cs _ (Cmd.dropIt ch) hex
      have hG1 := execOut_good cs _ (init_good E m) s1 outs1 hex1
      have hNE1 : NoErr s1 := by
        refine hG1.2.2 ⟨?_, ?_⟩ ?_
        · intro x hx
          simp [PR.init] at hx
        · intro x hx
          simp [PR.init] at hx
        · intro c hc
          match c with
          | Cmd.run name r => exact hok name r hc
          | Cmd.deliver k => trivial
          | Cmd.intoWait chx => trivial
          | Cmd.dropIt chx => trivial
      simp only [PR.step] at hstep
      match hd1 : s1.done with
      | true => rw [hd1] at hstep; simp at hstep
      | false =>
        rw [hd1] at hstep
        simp only [Bool.false_eq_true, if_false] at hstep
        match hdr : s1.dropIt ch with
        | none => rw [hdr] at hstep; simp at hstep
        | some s2a =>
          rw [hdr] at hstep
          have h2a : s2a = sf := by
            have h12 := (Option.some.injEq _ _).mp hstep
            exact congrArg Prod.fst h12
          obtain ⟨s3, o3, hw3, hs2a⟩ := dropIt_spec hdr
          have hW := waitReceiveAll_spec hG1.1.1 hw3
          have ho3 : o3 = none := (hW.2.2.2.2.2.2 hNE1).1
          have hh3 : s3.handles = [] := hW.2.2.2.2.2.1 ho3
          have hd3 : s3.done = false := by rw [hW.2.2.2.1]; exact hd1
          have hnames3 : s3.names = [] := by
            have hsub : keys s3.names = [] := by
              apply List.eq_nil_iff_forall_not_mem.mpr
              intro x hx
              have := hW.1.kh hd3 x hx
              rw [hh3] at this
              simp at this
            exact List.map_eq_nil_iff.mp hsub
          have hC3 : CntInv s3 := hW.2.1 (hG1.1.2)
          intro n
          have := hC3 n
          rw [← h2a, hs2a]
          simp only [inflightNamed, hnames3, List.filter_nil,
            List.length_nil] at this
          simpa using this

/-- Witness for the amended C5 at a concrete run: two tasks, one
delivered and drained by `into_wait`; the reachable-state ledger
balances (task `A` started, not finished, still in flight). -/
theorem progress_pairing_amended_witness :
    (PR.init Unit 2).exec
        [Cmd.run "A" none, Cmd.run "B" (some ()), Cmd.deliver 1,
         Cmd.intoWait []]
      = some (⟨2, [], [(0, "A")], [(0, none)], [],
        [PEvent.start "A", PEvent.start "B", PEvent.finish "B"], true⟩ : PR Unit) ∧
    (∀ n, startCount n [PEvent.start "A", PEvent.start "B", PEvent.finish "B"]
      = finishCount n [PEvent.start "A", PEvent.start "B", PEvent.finish "B"]
        + inflightNamed (⟨2, [], [(0, "A")], [(0, none)], [],
          [PEvent.start "A", PEvent.start "B", PEvent.finish "B"], true⟩ : PR Unit) n) :=
  ⟨by decide, progress_pairing_amended.1 Unit 2
    [Cmd.run "A" none, Cmd.run "B" (some ()), Cmd.deliver 1, Cmd.intoWait []]
    (⟨2, [], [(0, "A")], [(0, none)], [],
      [PEvent.start "A", PEvent.start "B", PEvent.finish "B"], true⟩ : PR Unit)
    (by decide)⟩

/-- C5 counterexample: both teardown paths can leave a started task
without its `on_finish`, refuting "no started task is left without its
`on_finish` notification".  (1) After `into_wait` returns the error of
task `B`, task `A` — started, still running — never receives
`on_finish`: the final trace holds `start A` with no `finish A`.
(2) A discard by drop is no better when a drained result errs:
`wait_receive_all` stops at the first `Err` (here `B`, whose `finish`
does fire), the error is discarded, and sibling `A` is left undrained
with `start A` but no `finish A`. -/
theorem progress_pairing_counterexample :
    ((PR.init Unit 2).execOut
        [Cmd.run "A" none, Cmd.run "B" (some ()), Cmd.deliver 1,
         Cmd.intoWait []]).map
        (fun p => (p.2, startCount "A" p.1.trace, finishCount "A" p.1.trace,
          p.1.done))
      = some ([none, none, some ("B", ())], 1, 0, true) ∧
    ((PR.init Unit 2).execOut
        [Cmd.run "A" none, Cmd.run "B" (some ()), Cmd.deliver 1,
         Cmd.dropIt []]).map
        (fun p => (p.2, startCount "A" p.1.trace, finishCount "A" p.1.trace,
          startCount "B" p.1.trace, finishCount "B" p.1.trace))
      = some ([none, none], 1, 0, 1, 1) :=
  ⟨by decide, by decide⟩

end Sched

/-! ## Part 3: the content-addressed cache (`src/cache.rs`)

`Cache` moves file trees between a working directory and a cache root
through a `vfs::FileSystem`.  The filesystem is modelled as a finite
association list from paths to entries; a path is its list of
`/`-separated components (so `"/cache/large_files"` is
`["cache", "large_files"]`, and the root `"/"` is `[]`, which always
exists and is a directory).  File contents are byte lists.  `copy_into`
is recursive over directories with no bound in the source; the model
takes explicit fuel and is written as a depth-first worklist, which
performs the identical traversal in the identical order.  Every write
the algorithm performs is also recorded as a `WEvent`, so that claims
about *not* rewriting existing data are expressible.  The BLAKE3 digest
is modelled by `blake3Hex`, a concrete stand-in producing 64 lowercase
hex characters (the exact function is opaque to the algorithm; only its
output format matters to it). -/

namespace Cache

/-- Decidable equality of `Except` results (for evaluating concrete
cache runs). -/
instance {e a : Type} [DecidableEq e] [DecidableEq a] : DecidableEq (Except e a) := fun
  | .error x, .error y => decidable_of_iff (x = y) (by simp)
  | .error _, .ok _ => .isFalse (by simp)
  | .ok _, .error _ => .isFalse (by simp)
  | .ok x, .ok y => decidable_of_iff (x = y) (by simp)

/-- File bytes. -/
abbrev Bytes := List Nat

/-- A filesystem path as its list of components. -/
abbrev Path := List String

/-- A directory entry: directory or regular file with contents. -/
inductive Entry where
  | dir
  | file (content : Bytes)
deriving DecidableEq, Repr

/-- The filesystem: a finite map from paths to entries, as an
association list.  The root `[]` is implicitly always a directory. -/
abbrev FS := List (Path × Entry)

/-- Look a path up (`vfs` `exists`/`metadata`/`open_file` all read
this). -/
def FS.get (fs : FS) (p : Path) : Option Entry :=
  if p = [] then some .dir
  else (fs.find? (fun kv => kv.1 == p)).map Prod.snd

/-- Write an entry (used by `create_file`, `create_dir`, `copy_file`):
replace any entry at `p` and append the new one. -/
def FS.set (fs : FS) (p : Path) (e : Entry) : FS :=
  fs.filter (fun kv => kv.1 ≠ p) ++ [(p, e)]

/-- `vfs` `exists`. -/
def FS.exists? (fs : FS) (p : Path) : Bool := (FS.get fs p).isSome

/-- `q` is a direct child of `p`. -/
def isChild (p q : Path) : Bool :=
  q.length == p.length + 1 && p.isPrefixOf q

/-- `vfs` `read_dir`: the names of the direct children of `p`. -/
def FS.readDir (fs : FS) (p : Path) : List String :=
  fs.filterMap (fun kv => if isChild p kv.1 then kv.1.getLast? else none)

/-- Cache-operation failures (`anyhow` errors in the source). -/
inductive CErr where
  | noParent (p : Path)
  | isDir (p : Path)
  | copySrc (p : Path)
  | hashParse (p : Path)
  | createDirFail (p : Path)
  | outOfFuel
deriving DecidableEq, Repr

/-- `create_file` on a physical filesystem (`File::create`): the parent
must be an existing directory, the target must not be a directory;
an existing file is truncated/overwritten. -/
def FS.createFile (fs : FS) (p : Path) (c : Bytes) : Except CErr FS :=
  if p = [] then .error (.isDir p)
  else if h : FS.get fs p.dropLast = some .dir then
    match FS.get fs p with
    | some .dir => .error (.isDir p)
    | _ => .ok (FS.set fs p (.file c))
  else .error (.noParent p)

/-- `create_dir`: parent must be an existing directory, target must not
exist. -/
def FS.createDir (fs : FS) (p : Path) : Except CErr FS :=
  if p = [] then .error (.isDir p)
  else if h : FS.get fs p.dropLast = some .dir then
    match FS.get fs p with
    | none => .ok (FS.set fs p .dir)
    | some _ => .error (.createDirFail p)
  else .error (.noParent p)

/-- A write performed by the algorithm, recorded for frame reasoning:
`mkDir` from `create_dir`, `mkFile` from `create_file` (the pointer
record), `copy` from `copy_file`. -/
inductive WEvent where
  | mkDir (p : Path)
  | mkFile (p : Path) (content : Bytes)
  | copy (src dst : Path)
deriving DecidableEq, Repr

/-- `const DEDUPLICATE_LARGER_THAN: u64 = 1024`. -/
def DEDUPLICATE_LARGER_THAN : Nat := 1024

/-- Accumulator-style list length (the constructor match keeps
evaluation depth flat on long inputs); `lenAcc_eq` shows it is
`List.length`. -/
def lenAcc {α : Type} : Nat → List α → Nat
  | n, [] => n
  | n, _ :: t =>
    match n + 1 with
    | 0 => lenAcc 0 t
    | m + 1 => lenAcc (m + 1) t

/-- The byte length of file contents (`metadata.len`). -/
def Bytes.len (c : Bytes) : Nat := lenAcc 0 c

theorem lenAcc_eq {α : Type} (c : List α) : ∀ n, lenAcc n c = n + c.length := by
  induction c with
  | nil => intro n; simp [lenAcc]
  | cons b t ih =>
    intro n
    rw [lenAcc]
    have h : (match n + 1 with
        | 0 => lenAcc 0 t
        | m + 1 => lenAcc (m + 1) t) = lenAcc (n + 1) t := by
      cases hm : n + 1 with
      | zero => simp at hm
      | succ k => simp
    rw [h, ih]
    simp [List.length_cons]
    omega

/-- `Bytes.len` is list length. -/
theorem len_eq_length (c : Bytes) : Bytes.len c = c.length := by
  rw [Bytes.len, lenAcc_eq]
  omega

/-- The byte of a character (used to model `&str`/`&[u8]` crossings). -/
def strBytes (s : String) : Bytes := s.data.map Char.toNat

/-- `const HASHED_FILE_PREFIX: &[u8] = b"GENTLE HASHED"`. -/
def HASHED_FILE_PREFIX : Bytes := strBytes "GENTLE HASHED"

/-- The lowercase-hex character for a digit value below 16. -/
def hexChar (n : Nat) : Char :=
  if n < 10 then Char.ofNat (48 + n) else Char.ofNat (87 + n)

/-- A 256-bit number as 64 lowercase hex characters, big-endian. -/
def toHex64 (n : Nat) : List Char :=
  (List.range 64).map (fun i => hexChar (n / 16 ^ (63 - i) % 16))

/-- One mixing step of the digest stand-in. -/
def hashStep (a b : Nat) : Nat := (a * 1099511628211 + b + 1) % 2 ^ 256

/-- Absorb a byte string into an accumulator, one `hashStep` per byte
(the constructor match keeps evaluation depth flat on long inputs). -/
def hashAcc : Nat → Bytes → Nat
  | a, [] => a
  | a, b :: t =>
    match hashStep a b with
    | 0 => hashAcc 0 t
    | m + 1 => hashAcc (m + 1) t

/-- Model of the BLAKE3 digest of a byte string, displayed as lowercase
hex (`blake3::Hasher` + `to_hex`).  The algorithm under verification
treats the digest as an opaque 64-character lowercase-hex name; this
concrete stand-in has exactly that format.  Collision-freedom, where a
claim needs it, is an explicit hypothesis on the contents involved. -/
def blake3Hex (c : Bytes) : String :=
  String.mk (toHex64 (hashAcc 1 c))

/-- Is this byte an ASCII hex digit (`blake3::Hash::from_hex` accepts
both cases)? -/
def isHexByte (b : Nat) : Bool :=
  (48 ≤ b && b ≤ 57) || (97 ≤ b && b ≤ 102) || (65 ≤ b && b ≤ 70)

/-- Lowercase an ASCII uppercase hex byte. -/
def lowerHexByte (b : Nat) : Nat :=
  if 65 ≤ b && b ≤ 70 then b + 32 else b

/-- `blake3::Hash::from_hex` followed by `Display` (`{hash}` in the
source): accept 64 hex bytes of either case, render lowercase. -/
def hexNormalize (l : Bytes) : Option String :=
  if l.length = 64 ∧ l.all isHexByte then
    some (String.mk (l.map (fun b => Char.ofNat (lowerHexByte b))))
  else none

/-- The pointer-record classification used by `copy_into`:
`metadata.len == HASHED_FILE_PREFIX.len() + 64` and
`contents.starts_with(HASHED_FILE_PREFIX)`. -/
def isPtrRecord (c : Bytes) : Prop :=
  Bytes.len c = HASHED_FILE_PREFIX.length + 64 ∧
    HASHED_FILE_PREFIX.isPrefixOf c

instance (c : Bytes) : Decidable (isPtrRecord c) := by
  unfold isPtrRecord
  infer_instance

/-- The bytes `copy_into` writes as a pointer record for content `c`. -/
def ptrRecord (c : Bytes) : Bytes :=
  HASHED_FILE_PREFIX ++ strBytes (blake3Hex c)

/-- `Cache` (the struct): the cache root and the working directory,
both as absolute paths. -/
structure Cfg where
  cache : Path
  pwd : Path
deriving DecidableEq, Repr

/-- `large_files/<hash>` for content `c`. -/
def blobPath (cfg : Cfg) (c : Bytes) : Path :=
  cfg.cache ++ ["large_files", blake3Hex c]

/-- `Cache::create_dir_all` (fuel-indexed; `dir.length + 1` always
suffices since each step drops one component): stop at the first
existing prefix (`rsplit_once` = `dropLast` on components), create the
rest. -/
def createDirAllAux : Nat → FS → Path → Except CErr (FS × List WEvent)
  | 0, _, _ => .error .outOfFuel
  | fuel + 1, fs, dir =>
    if FS.exists? fs dir then .ok (fs, [])
    else
      match dir with
      | [] => .error (.createDirFail [])
      | _ :: _ => do
        let (fs1, t1) ← createDirAllAux fuel fs dir.dropLast
        let fs2 ← FS.createDir fs1 dir
        .ok (fs2, t1 ++ [.mkDir dir])

/-- `Cache::create_dir_all`. -/
def createDirAll (fs : FS) (dir : Path) : Except CErr (FS × List WEvent) :=
  createDirAllAux (dir.length + 1) fs dir

/-- The regular-file body of `Cache::copy_into`: compute `copy_from`
(resolving a pointer record through `large_files`), compute `copy_to`
(writing a pointer record and deduplicating when the file is at least
`DEDUPLICATE_LARGER_THAN` bytes), then `copy_file(copy_from, copy_to)`. -/
def copyFileStep (cfg : Cfg) (fs : FS) (src dst : Path) (content : Bytes) :
    Except CErr (FS × List WEvent) := do
  let copyFrom ←
    if isPtrRecord content then
      match hexNormalize (content.drop HASHED_FILE_PREFIX.length) with
      | none => Except.error (.hashParse src)
      | some h => Except.ok (cfg.cache ++ ["large_files", h])
    else Except.ok src
  let step2 ←
    if Bytes.len content < DEDUPLICATE_LARGER_THAN then
      Except.ok (fs, ([] : List WEvent), dst)
    else do
      let h := blake3Hex content
      let fsr ← FS.createFile fs dst (HASHED_FILE_PREFIX ++ strBytes h)
      Except.ok (fsr, [WEvent.mkFile dst (HASHED_FILE_PREFIX ++ strBytes h)],
        cfg.cache ++ ["large_files", h])
  let (fs2, t2, copyTo) := step2
  match FS.get fs2 copyFrom with
  | some (.file c) => do
    let fs3 ← FS.createFile fs2 copyTo c
    Except.ok (fs3, t2 ++ [WEvent.copy copyFrom copyTo])
  | _ => Except.error (.copySrc copyFrom)

/-- `Cache::copy_into`, as a fueled depth-first worklist over
`(from, to)` jobs; `copy_into(from, to)` is the singleton worklist.
A missing source is skipped (`Ok`); a directory source is
`create_dir_all(to)` followed by one job per `read_dir` child, in
order; a file source is `copyFileStep`. -/
def copyIntoAux (cfg : Cfg) :
    Nat → FS → List (Path × Path) → Except CErr (FS × List WEvent)
  | 0, _, _ => .error .outOfFuel
  | _ + 1, fs, [] => .ok (fs, [])
  | fuel + 1, fs, (src, dst) :: jobs =>
    if FS.exists? fs src then
      match FS.get fs src with
      | some .dir => do
        let (fs1, t1) ← createDirAll fs dst
        let children := FS.readDir fs1 src
        let childJobs := children.map (fun n => (src ++ [n], dst ++ [n]))
        let (fs2, t2) ← copyIntoAux cfg fuel fs1 (childJobs ++ jobs)
        .ok (fs2, t1 ++ t2)
      | some (.file content) => do
        let (fs2, t2) ← copyFileStep cfg fs src dst content
        let (fs3, t3) ← copyIntoAux cfg fuel fs2 jobs
        .ok (fs3, t2 ++ t3)
      | none => copyIntoAux cfg fuel fs jobs
    else copyIntoAux cfg fuel fs jobs

/-- `Cache::copy_into`. -/
def copyInto (cfg : Cfg) (fuel : Nat) (fs : FS) (src dst : Path) :
    Except CErr (FS × List WEvent) :=
  copyIntoAux cfg fuel fs [(src, dst)]

/-- A path argument to `Cache::save`: either absolute (`starts_with
"/"`) or relative to the working directory. -/
structure LPath where
  absolute : Bool
  comps : Path
deriving DecidableEq, Repr

/-- The filesystem location `save` reads from. -/
def srcRoot (cfg : Cfg) (p : LPath) : Path :=
  if p.absolute then p.comps else cfg.pwd ++ p.comps

/-- The cache location `save` writes to (`{cache}/absolute{path}` or
`{cache}/relative/{path}`). -/
def mirrorRoot (cfg : Cfg) (p : LPath) : Path :=
  if p.absolute then cfg.cache ++ ["absolute"] ++ p.comps
  else cfg.cache ++ ["relative"] ++ p.comps

/-- `Cache::save`: ensure `{cache}/large_files` exists, then copy the
path into the matching mirror subtree. -/
def save (cfg : Cfg) (fuel : Nat) (fs : FS) (p : LPath) :
    Except CErr (FS × List WEvent) := do
  let (fs1, t1) ← createDirAll fs (cfg.cache ++ ["large_files"])
  let (fs2, t2) ← copyInto cfg fuel fs1 (srcRoot cfg p) (mirrorRoot cfg p)
  .ok (fs2, t1 ++ t2)

/-- `Cache::load`: copy `{cache}/absolute` onto `/` and
`{cache}/relative` onto the working directory. -/
def load (cfg : Cfg) (fuel : Nat) (fs : FS) :
    Except CErr (FS × List WEvent) := do
  let (fs1, t1) ← copyInto cfg fuel fs (cfg.cache ++ ["absolute"]) []
  let (fs2, t2) ← copyInto cfg fuel fs1 (cfg.cache ++ ["relative"]) cfg.pwd
  .ok (fs2, t1 ++ t2)

/-- Delete the tree rooted at `p` (the "then deleting the original" step
of the round-trip claim). -/
def deleteTree (fs : FS) (p : Path) : FS :=
  fs.filter (fun kv => decide (¬ p.isPrefixOf kv.1))

/-- Total on-disk bytes below `root`: the sum of the lengths of file
contents stored at paths with prefix `root` (directories occupy no
bytes, matching the repository's size test). -/
def totalSize (fs : FS) (root : Path) : Nat :=
  (fs.filterMap (fun kv =>
    if root.isPrefixOf kv.1 then
      match kv.2 with
      | .file c => some (Bytes.len c)
      | .dir => some 0
    else none)).foldr (· + ·) 0

/-- The keys of the filesystem are duplicate-free (maintained by
`FS.set`). -/
def keysNodup (fs : FS) : Prop := (fs.map Prod.fst).Nodup

instance (fs : FS) : Decidable (keysNodup fs) := by
  unfold keysNodup
  infer_instance

/-- Height of the subtree at `p` (for fuel bounds): one more than the
longest relative path with an entry below `p`. -/
def subHeight (fs : FS) (p : Path) : Nat :=
  (fs.filterMap (fun kv =>
    if p.isPrefixOf kv.1 then some (kv.1.length - p.length) else none)).foldr
    max 0 + 1

/-! ### Association-list filesystem lemmas -/

theorem get_nil (fs : FS) : FS.get fs [] = some .dir := by
  simp [FS.get]

theorem get_cons (kv : Path × Entry) (t : FS) (p : Path) (hp : p ≠ []) :
    FS.get (kv :: t) p = if kv.1 = p then some kv.2 else FS.get t p := by
  unfold FS.get
  simp only [if_neg hp]
  by_cases h : kv.1 = p
  · simp [List.find?, h]
  · have hb : (kv.1 == p) = false := by simp [h]
    simp [List.find?, hb, h]

theorem get_eq_some_iff {fs : FS} (hn : keysNodup fs) {p : Path} {e : Entry}
    (hp : p ≠ []) : FS.get fs p = some e ↔ (p, e) ∈ fs := by
  induction fs with
  | nil => simp [FS.get, if_neg hp, List.find?]
  | cons kv t ih =>
    unfold keysNodup at hn
    simp only [List.map_cons, List.nodup_cons] at hn
    obtain ⟨hk1, hk2⟩ := hn
    rw [get_cons kv t p hp]
    by_cases hk : kv.1 = p
    · rw [if_pos hk]
      constructor
      · intro h
        simp at h
        have hkv : kv = (p, e) := by
          cases kv with
          | mk k v =>
            simp at hk h
            rw [hk, h]
        rw [hkv]
        exact List.mem_cons_self _ _
      · intro h
        rcases List.mem_cons.mp h with h | h
        · rw [← h]
        · exfalso
          apply hk1
          rw [hk]
          exact List.mem_map_of_mem Prod.fst h
    · rw [if_neg hk]
      rw [ih hk2]
      constructor
      · exact fun h => List.mem_cons_of_mem _ h
      · intro h
        rcases List.mem_cons.mp h with h | h
        · exfalso; apply hk; rw [← h]
        · exact h

theorem get_eq_none_iff {fs : FS} {p : Path} (hp : p ≠ []) :
    FS.get fs p = none ↔ ∀ e, (p, e) ∉ fs := by
  induction fs with
  | nil => simp [FS.get, if_neg hp, List.find?]
  | cons kv t ih =>
    rw [get_cons kv t p hp]
    by_cases hk : kv.1 = p
    · rw [if_pos hk]
      simp only [reduceCtorEq, false_iff, not_forall]
      push_neg
      refine ⟨kv.2, ?_⟩
      have hkv : kv = (p, kv.2) := by
        cases kv with
        | mk k v => simp at hk; rw [hk]
      rw [hkv]
      exact List.mem_cons_self _ _
    · rw [if_neg hk, ih]
      constructor
      · intro h e hmem
        rcases List.mem_cons.mp hmem with hmem | hmem
        · exact hk (by rw [← hmem])
        · exact h e hmem
      · intro h e hmem
        exact h e (List.mem_cons_of_mem _ hmem)

theorem get_set_self (fs : FS) (p : Path) (e : Entry) (hp : p ≠ []) :
    FS.get (FS.set fs p e) p = some e := by
  unfold FS.set
  induction fs with
  | nil => simp [FS.get, if_neg hp, List.find?]
  | cons kv t ih =>
    by_cases hk : kv.1 = p
    · rw [List.filter_cons_of_neg (by simp [hk])]
      exact ih
    · rw [List.filter_cons_of_pos (by simp [hk]), List.cons_append,
        get_cons _ _ p hp, if_neg hk]
      exact ih

theorem get_set_ne (fs : FS) (p q : Path) (e : Entry) (hq : q ≠ p) :
    FS.get (FS.set fs p e) q = FS.get fs q := by
  by_cases h0 : q = []
  · subst h0; rw [get_nil, get_nil]
  unfold FS.set
  induction fs with
  | nil =>
    simp only [List.filter_nil, List.nil_append]
    rw [get_cons _ _ q h0]
    simp only [FS.get, if_neg h0, List.find?]
    rw [if_neg (fun hh => hq hh.symm)]
  | cons kv t ih =>
    by_cases hk : kv.1 = p
    · rw [List.filter_cons_of_neg (by simp [hk])]
      rw [ih, get_cons _ _ q h0, if_neg (by rw [hk]; exact fun hh => hq hh.symm)]
    · rw [List.filter_cons_of_pos (by simp [hk]), List.cons_append,
        get_cons _ _ q h0, get_cons _ _ q h0]
      by_cases hkq : kv.1 = q
      · rw [if_pos hkq, if_pos hkq]
      · rw [if_neg hkq, if_neg hkq]
        exact ih

theorem keysNodup_set (fs : FS) (p : Path) (e : Entry) (hn : keysNodup fs) :
    keysNodup (FS.set fs p e) := by
  unfold keysNodup FS.set
  rw [List.map_append]
  apply List.Nodup.append
  · exact ((List.filter_sublist fs).map Prod.fst).nodup hn
  · simp
  · intro q hq1 hq2
    simp at hq2
    subst hq2
    simp only [List.mem_map] at hq1
    obtain ⟨kv, hmem, hkey⟩ := hq1
    have := List.of_mem_filter hmem
    simp at this
    exact this hkey

theorem append_singleton_ne_nil (p : Path) (n : String) : p ++ [n] ≠ [] := by
  simp

theorem child_ext_iff (p q : Path) (n : String) :
    (isChild p q = true ∧ q.getLast? = some n) ↔ q = p ++ [n] := by
  constructor
  · rintro ⟨hc, hl⟩
    unfold isChild at hc
    simp only [Bool.and_eq_true, beq_iff_eq] at hc
    obtain ⟨hlen, hpre⟩ := hc
    rw [List.isPrefixOf_iff_prefix] at hpre
    obtain ⟨t, ht⟩ := hpre
    subst ht
    rw [List.length_append] at hlen
    have h1 : t.length = 1 := by omega
    obtain ⟨x, hx⟩ := List.length_eq_one.mp h1
    subst hx
    rw [List.getLast?_concat] at hl
    simp at hl
    rw [hl]
  · intro h
    subst h
    refine ⟨?_, List.getLast?_concat _⟩
    unfold isChild
    simp [List.isPrefixOf_iff_prefix]

theorem mem_readDir_iff (fs : FS) (p : Path) (n : String) :
    n ∈ FS.readDir fs p ↔ ∃ e, (p ++ [n], e) ∈ fs := by
  unfold FS.readDir
  rw [List.mem_filterMap]
  constructor
  · rintro ⟨kv, hmem, hf⟩
    by_cases hc : isChild p kv.1
    · rw [if_pos hc] at hf
      have := (child_ext_iff p kv.1 n).mp ⟨hc, hf⟩
      refine ⟨kv.2, ?_⟩
      have hkv : kv = (p ++ [n], kv.2) := by
        cases kv with
        | mk k v => simp at this ⊢; exact this
      rw [← hkv]
      exact hmem
    · rw [if_neg hc] at hf
      simp at hf
  · rintro ⟨e, hmem⟩
    refine ⟨(p ++ [n], e), hmem, ?_⟩
    have := (child_ext_iff p (p ++ [n]) n).mpr rfl
    simp only
    rw [if_pos this.1]
    exact this.2

theorem get_child_iff_mem_readDir {fs : FS} (hn : keysNodup fs) (p : Path)
    (n : String) : FS.get fs (p ++ [n]) ≠ none ↔ n ∈ FS.readDir fs p := by
  rw [mem_readDir_iff]
  constructor
  · intro h
    cases hg : FS.get fs (p ++ [n]) with
    | none => exact absurd hg h
    | some e =>
      exact ⟨e, (get_eq_some_iff hn (append_singleton_ne_nil p n)).mp hg⟩
  · rintro ⟨e, hmem⟩ hnone
    exact (get_eq_none_iff (append_singleton_ne_nil p n)).mp hnone e hmem

theorem readDir_nodup {fs : FS} (hn : keysNodup fs) (p : Path) :
    (FS.readDir fs p).Nodup := by
  have heq : FS.readDir fs p =
      (fs.map Prod.fst).filterMap
        (fun q => if isChild p q then q.getLast? else none) := by
    rw [List.filterMap_map]
    rfl
  rw [heq]
  apply List.Nodup.filterMap
  · intro q q' n hq hq'
    by_cases hc : isChild p q
    · rw [if_pos hc] at hq
      by_cases hc' : isChild p q'
      · rw [if_pos hc'] at hq'
        simp only [Option.mem_def] at hq hq'
        have h1 := (child_ext_iff p q n).mp ⟨hc, hq⟩
        have h2 := (child_ext_iff p q' n).mp ⟨hc', hq'⟩
        rw [h1, h2]
      · rw [if_neg hc'] at hq'; simp at hq'
    · rw [if_neg hc] at hq; simp at hq
  · exact hn

theorem createFile_ok {fs : FS} {p : Path} (c : Bytes) (hp : p ≠ [])
    (hpar : FS.get fs p.dropLast = some .dir)
    (hnd : FS.get fs p ≠ some .dir) :
    FS.createFile fs p c = .ok (FS.set fs p (.file c)) := by
  unfold FS.createFile
  rw [if_neg hp, dif_pos hpar]
  cases hg : FS.get fs p with
  | none => simp
  | some e =>
    cases e with
    | dir => exact absurd hg hnd
    | file c2 => simp

theorem createDir_ok {fs : FS} {p : Path} (hp : p ≠ [])
    (hpar : FS.get fs p.dropLast = some .dir)
    (hmiss : FS.get fs p = none) :
    FS.createDir fs p = .ok (FS.set fs p .dir) := by
  unfold FS.createDir
  rw [if_neg hp, dif_pos hpar, hmiss]

/-- Tree well-formedness: keys are duplicate-free and every proper
prefix of an existing path is a directory (as on a physical
filesystem). -/
def goodTree (fs : FS) : Prop :=
  keysNodup fs ∧
    ∀ p e, FS.get fs p = some e → ∀ q, q <+: p → q ≠ p → FS.get fs q = some .dir

theorem prefix_dropLast_iff {q p : Path} (hp : p ≠ []) :
    q <+: p.dropLast ↔ (q <+: p ∧ q ≠ p) := by
  constructor
  · intro h
    have hle := h.length_le
    rw [List.length_dropLast] at hle
    have hplen : 0 < p.length := List.length_pos.mpr hp
    constructor
    · exact h.trans (List.dropLast_prefix p)
    · intro heq
      subst heq
      omega
  · rintro ⟨h1, h2⟩
    have hlt : q.length < p.length := by
      have hle := h1.length_le
      rcases Nat.lt_or_ge q.length p.length with h | h
      · exact h
      · exfalso
        apply h2
        have : q.length = p.length := by omega
        exact List.IsPrefix.eq_of_length h1 this
    rw [List.prefix_iff_eq_take] at h1 ⊢
    rw [List.dropLast_eq_take, List.take_take]
    have hmin : min q.length (p.length - 1) = q.length := by omega
    rw [hmin]
    exact h1

theorem goodTree_set {fs : FS} {p : Path} {e : Entry} (hg : goodTree fs)
    (hp : p ≠ []) (hpar : FS.get fs p.dropLast = some .dir)
    (hok : e = .dir ∨ FS.get fs p ≠ some .dir) :
    goodTree (FS.set fs p e) := by
  obtain ⟨hn, htree⟩ := hg
  refine ⟨keysNodup_set fs p e hn, ?_⟩
  have hpref : ∀ q, q <+: p → q ≠ p → FS.get fs q = some .dir := by
    intro q hq hqe
    have hq2 : q <+: p.dropLast := (prefix_dropLast_iff hp).mpr ⟨hq, hqe⟩
    by_cases hqd : q = p.dropLast
    · rw [hqd]; exact hpar
    · exact htree p.dropLast .dir hpar q hq2 hqd
  intro p2 e2 hg2 q hqp hqne
  by_cases hpp : p2 = p
  · subst hpp
    rw [get_set_ne fs p2 q e hqne]
    exact hpref q hqp hqne
  · have hold : FS.get fs p2 = some e2 := by
      rw [get_set_ne fs p p2 e hpp] at hg2
      exact hg2
    by_cases hq : q = p
    · subst hq
      have hdir := htree p2 e2 hold q hqp hqne
      rcases hok with he | hne
      · rw [get_set_self fs q e hp, he]
      · exact absurd hdir hne
    · rw [get_set_ne fs p q e hq]
      exact htree p2 e2 hold q hqp hqne

theorem exists_eq_false_iff (fs : FS) (p : Path) :
    FS.exists? fs p = false ↔ FS.get fs p = none := by
  unfold FS.exists?
  cases FS.get fs p <;> simp

theorem exists_nil (fs : FS) : FS.exists? fs [] = true := by
  simp [FS.exists?, get_nil]

/-- Full characterisation of `create_dir_all`: under tree
well-formedness, when no prefix of `dir` is a file, it succeeds, turns
exactly the missing prefixes of `dir` into directories, touches nothing
else, and records only `mkDir` events at previously missing prefixes. -/
theorem createDirAllAux_spec : ∀ (fuel : Nat) (fs : FS) (dir : Path),
    dir.length < fuel → goodTree fs →
    (∀ q c, q <+: dir → FS.get fs q ≠ some (Entry.file c)) →
    ∃ fs2 t, createDirAllAux fuel fs dir = .ok (fs2, t) ∧ goodTree fs2 ∧
      (∀ q, FS.get fs2 q =
        if q <+: dir ∧ FS.get fs q = none then some .dir else FS.get fs q) ∧
      (∀ ev ∈ t, ∃ q, ev = WEvent.mkDir q ∧ q <+: dir ∧ FS.get fs q = none) := by
  intro fuel
  induction fuel with
  | zero => intro fs dir hlen; omega
  | succ fuel ih =>
    intro fs dir hlen hg hfiles
    rw [createDirAllAux.eq_def]
    simp only
    by_cases hex : FS.exists? fs dir = true
    · rw [if_pos hex]
      refine ⟨fs, [], rfl, hg, ?_, by simp⟩
      intro q
      have hnomiss : ¬ (q <+: dir ∧ FS.get fs q = none) := by
        rintro ⟨hq, hnone⟩
        unfold FS.exists? at hex
        cases hgd : FS.get fs dir with
        | none => rw [hgd] at hex; simp at hex
        | some e =>
          by_cases hqd : q = dir
          · rw [hqd, hgd] at hnone; simp at hnone
          · have := hg.2 dir e hgd q hq hqd
            rw [this] at hnone; simp at hnone
      rw [if_neg hnomiss]
    · rw [if_neg hex]
      have hnone : FS.get fs dir = none := by
        rw [← exists_eq_false_iff]
        simpa using hex
      cases dir with
      | nil => rw [get_nil] at hnone; simp at hnone
      | cons hd tl =>
        simp only
        have hlen2 : (hd :: tl).dropLast.length < fuel := by
          rw [List.length_dropLast]
          simp only [List.length_cons] at hlen ⊢
          omega
        have hfiles2 : ∀ q c, q <+: (hd :: tl).dropLast →
            FS.get fs q ≠ some (Entry.file c) := by
          intro q c hq
          exact hfiles q c (hq.trans (List.dropLast_prefix _))
        obtain ⟨fs1, t1, heq1, hg1, hchar1, htr1⟩ :=
          ih fs (hd :: tl).dropLast hlen2 hg hfiles2
        rw [heq1]
        simp only [Bind.bind, Except.bind]
        have hd_ne : (hd :: tl) ≠ ([] : Path) := by simp
        have hpar : FS.get fs1 (hd :: tl).dropLast = some .dir := by
          rw [hchar1]
          by_cases hmiss : FS.get fs (hd :: tl).dropLast = none
          · rw [if_pos ⟨List.prefix_refl _, hmiss⟩]
          · rw [if_neg (by rintro ⟨_, hn⟩; exact hmiss hn)]
            cases hgd : FS.get fs (hd :: tl).dropLast with
            | none => exact absurd hgd hmiss
            | some e =>
              cases e with
              | dir => rfl
              | file c =>
                exact absurd hgd (hfiles _ c (List.dropLast_prefix _))
        have hmiss1 : FS.get fs1 (hd :: tl) = none := by
          rw [hchar1]
          rw [if_neg ?_]
          · exact hnone
          · rintro ⟨hq, _⟩
            have := hq.length_le
            rw [List.length_dropLast] at this
            simp at this
        rw [createDir_ok hd_ne hpar hmiss1]
        simp only [Bind.bind, Except.bind]
        refine ⟨FS.set fs1 (hd :: tl) .dir, t1 ++ [WEvent.mkDir (hd :: tl)],
          rfl, goodTree_set hg1 hd_ne hpar (Or.inl rfl), ?_, ?_⟩
        · intro q
          by_cases hq : q = hd :: tl
          · subst hq
            rw [get_set_self _ _ _ hd_ne,
              if_pos ⟨List.prefix_refl _, hnone⟩]
          · rw [get_set_ne _ _ _ _ hq, hchar1]
            have hiff : (q <+: (hd :: tl).dropLast ∧ FS.get fs q = none) ↔
                (q <+: (hd :: tl) ∧ FS.get fs q = none) := by
              constructor
              · rintro ⟨h1, h2⟩
                exact ⟨((prefix_dropLast_iff hd_ne).mp h1).1, h2⟩
              · rintro ⟨h1, h2⟩
                exact ⟨(prefix_dropLast_iff hd_ne).mpr ⟨h1, hq⟩, h2⟩
            by_cases hcond : q <+: (hd :: tl).dropLast ∧ FS.get fs q = none
            · rw [if_pos hcond, if_pos (hiff.mp hcond)]
            · rw [if_neg hcond, if_neg (fun h => hcond (hiff.mpr h))]
        · intro ev hev
          rcases List.mem_append.mp hev with hev | hev
          · obtain ⟨q, he, hq, hn⟩ := htr1 ev hev
            exact ⟨q, he, hq.trans (List.dropLast_prefix _), hn⟩
          · simp at hev
            exact ⟨hd :: tl, by rw [hev], List.prefix_refl _, hnone⟩

/-- `create_dir_all` at its canonical fuel. -/
theorem createDirAll_spec (fs : FS) (dir : Path) (hg : goodTree fs)
    (hfiles : ∀ q c, q <+: dir → FS.get fs q ≠ some (Entry.file c)) :
    ∃ fs2 t, createDirAll fs dir = .ok (fs2, t) ∧ goodTree fs2 ∧
      (∀ q, FS.get fs2 q =
        if q <+: dir ∧ FS.get fs q = none then some .dir else FS.get fs q) ∧
      (∀ ev ∈ t, ∃ q, ev = WEvent.mkDir q ∧ q <+: dir ∧ FS.get fs q = none) := by
  exact createDirAllAux_spec (dir.length + 1) fs dir (by omega) hg hfiles

theorem prefix_length : HASHED_FILE_PREFIX.length = 13 := rfl

theorem lf_concat_eq (p : Path) (h : String) :
    p ++ ["large_files", h] = (p ++ ["large_files"]) ++ [h] := by simp

theorem lf_concat_dropLast (p : Path) (h : String) :
    (p ++ ["large_files", h]).dropLast = p ++ ["large_files"] := by
  rw [lf_concat_eq, List.dropLast_concat]

theorem lf_concat_ne_nil (p : Path) (h : String) :
    p ++ ["large_files", h] ≠ [] := by simp

theorem isPtrRecord_len {c : Bytes} (h : isPtrRecord c) :
    Bytes.len c = 77 := by
  rw [h.1, prefix_length]

theorem not_isPtrRecord_of_large {c : Bytes}
    (h : ¬ Bytes.len c < DEDUPLICATE_LARGER_THAN) : ¬ isPtrRecord c := by
  intro hp
  rw [isPtrRecord_len hp] at h
  exact h (by norm_num [DEDUPLICATE_LARGER_THAN])

/-- The file step on a small (below-threshold) non-pointer file: the
bytes are copied verbatim to the destination and nothing else happens. -/
theorem copyFileStep_small {cfg : Cfg} {fs : FS} {src dst : Path}
    {content : Bytes}
    (hnp : ¬ isPtrRecord content)
    (hlen : Bytes.len content < DEDUPLICATE_LARGER_THAN)
    (hsrc : FS.get fs src = some (.file content))
    (hdst_ne : dst ≠ []) (hpar : FS.get fs dst.dropLast = some .dir)
    (hnd : FS.get fs dst ≠ some .dir) :
    copyFileStep cfg fs src dst content =
      .ok (FS.set fs dst (.file content), [WEvent.copy src dst]) := by
  unfold copyFileStep
  simp only [if_neg hnp, if_pos hlen, Bind.bind, Except.bind, hsrc,
    createFile_ok content hdst_ne hpar hnd, List.nil_append]

/-- The file step on a large (at-or-above-threshold) file: a pointer
record is written at the destination and the bytes are written to the
content-addressed blob path — unconditionally, with no existence check
on the blob. -/
theorem copyFileStep_large {cfg : Cfg} {fs : FS} {src dst : Path}
    {content : Bytes}
    (hlen : ¬ Bytes.len content < DEDUPLICATE_LARGER_THAN)
    (hsrc : FS.get fs src = some (.file content))
    (hsd : src ≠ dst)
    (hdst_ne : dst ≠ []) (hpar : FS.get fs dst.dropLast = some .dir)
    (hnd : FS.get fs dst ≠ some .dir)
    (hdlf : dst ≠ cfg.cache ++ ["large_files"])
    (hblobpar : FS.get fs (cfg.cache ++ ["large_files"]) = some .dir)
    (hblob_nd : FS.get fs (blobPath cfg content) ≠ some .dir)
    (hdb : dst ≠ blobPath cfg content) :
    copyFileStep cfg fs src dst content =
      .ok (FS.set (FS.set fs dst (.file (ptrRecord content)))
            (blobPath cfg content) (.file content),
        [WEvent.mkFile dst (ptrRecord content),
          WEvent.copy src (blobPath cfg content)]) := by
  have hnp : ¬ isPtrRecord content := not_isPtrRecord_of_large hlen
  have hget2 : FS.get (FS.set fs dst (.file (ptrRecord content))) src =
      some (.file content) := by
    rw [get_set_ne _ _ _ _ hsd, hsrc]
  have hbne : blobPath cfg content ≠ [] := by
    unfold blobPath; exact lf_concat_ne_nil _ _
  have hbpar2 : FS.get (FS.set fs dst (.file (ptrRecord content)))
      (blobPath cfg content).dropLast = some .dir := by
    unfold blobPath
    rw [lf_concat_dropLast, get_set_ne _ _ _ _ (Ne.symm hdlf)]
    exact hblobpar
  have hbnd2 : FS.get (FS.set fs dst (.file (ptrRecord content)))
      (blobPath cfg content) ≠ some .dir := by
    rw [get_set_ne _ _ _ _ (fun h => hdb h.symm)]
    exact hblob_nd
  unfold copyFileStep
  simp only [if_neg hnp, if_neg hlen, Bind.bind, Except.bind]
  rw [show (HASHED_FILE_PREFIX ++ strBytes (blake3Hex content)) =
    ptrRecord content from rfl]
  simp only [createFile_ok (ptrRecord content) hdst_ne hpar hnd,
    Except.bind, hget2]
  rw [show (cfg.cache ++ ["large_files", blake3Hex content]) =
    blobPath cfg content from rfl]
  simp only [createFile_ok content hbne hbpar2 hbnd2, Except.bind,
    List.nil_append]
  rfl

/-- The file step on a pointer-shaped file: the destination receives
the bytes of the referenced blob, not the pointer bytes. -/
theorem copyFileStep_ptr {cfg : Cfg} {fs : FS} {src dst : Path}
    {content : Bytes} {hstr : String} {bc : Bytes}
    (hp : isPtrRecord content)
    (hhex : hexNormalize (content.drop HASHED_FILE_PREFIX.length) = some hstr)
    (hblob : FS.get fs (cfg.cache ++ ["large_files", hstr]) = some (.file bc))
    (hdst_ne : dst ≠ []) (hpar : FS.get fs dst.dropLast = some .dir)
    (hnd : FS.get fs dst ≠ some .dir) :
    copyFileStep cfg fs src dst content =
      .ok (FS.set fs dst (.file bc),
        [WEvent.copy (cfg.cache ++ ["large_files", hstr]) dst]) := by
  have hlen : Bytes.len content < DEDUPLICATE_LARGER_THAN := by
    rw [isPtrRecord_len hp]
    norm_num [DEDUPLICATE_LARGER_THAN]
  unfold copyFileStep
  simp only [if_pos hp, hhex, if_pos hlen, Bind.bind, Except.bind, hblob,
    createFile_ok bc hdst_ne hpar hnd, List.nil_append]

theorem copyIntoAux_nil (cfg : Cfg) (fuel : Nat) (fs : FS) :
    copyIntoAux cfg (fuel + 1) fs [] = .ok (fs, []) := rfl

theorem copyIntoAux_cons_missing {cfg : Cfg} {fuel : Nat} {fs : FS}
    {src dst : Path} {jobs : List (Path × Path)}
    (hsrc : FS.get fs src = none) :
    copyIntoAux cfg (fuel + 1) fs ((src, dst) :: jobs) =
      copyIntoAux cfg fuel fs jobs := by
  rw [copyIntoAux.eq_def]
  simp only
  rw [if_neg (by simp [FS.exists?, hsrc])]

theorem copyIntoAux_cons_dir {cfg : Cfg} {fuel : Nat} {fs : FS}
    {src dst : Path} {jobs : List (Path × Path)}
    (hsrc : FS.get fs src = some .dir) :
    copyIntoAux cfg (fuel + 1) fs ((src, dst) :: jobs) =
      match createDirAll fs dst with
      | .error e => .error e
      | .ok (fs1, t1) =>
        match copyIntoAux cfg fuel fs1
            ((FS.readDir fs1 src).map (fun n => (src ++ [n], dst ++ [n]))
              ++ jobs) with
        | .error e => .error e
        | .ok (fs2, t2) => .ok (fs2, t1 ++ t2) := by
  rw [copyIntoAux.eq_def]
  simp only
  rw [if_pos (by simp [FS.exists?, hsrc]), hsrc]
  simp only [Bind.bind, Except.bind]
  cases createDirAll fs dst with
  | error e => rfl
  | ok p =>
    cases p with
    | mk fs1 t1 =>
      simp only
      cases copyIntoAux cfg fuel fs1
          ((FS.readDir fs1 src).map (fun n => (src ++ [n], dst ++ [n]))
            ++ jobs) with
      | error e => rfl
      | ok q => cases q with | mk fs2 t2 => rfl

theorem copyIntoAux_cons_file {cfg : Cfg} {fuel : Nat} {fs : FS}
    {src dst : Path} {jobs : List (Path × Path)} {c : Bytes}
    (hsrc : FS.get fs src = some (.file c)) :
    copyIntoAux cfg (fuel + 1) fs ((src, dst) :: jobs) =
      match copyFileStep cfg fs src dst c with
      | .error e => .error e
      | .ok (fs2, t2) =>
        match copyIntoAux cfg fuel fs2 jobs with
        | .error e => .error e
        | .ok (fs3, t3) => .ok (fs3, t2 ++ t3) := by
  rw [copyIntoAux.eq_def]
  simp only
  rw [if_pos (by simp [FS.exists?, hsrc]), hsrc]
  simp only [Bind.bind, Except.bind]
  cases copyFileStep cfg fs src dst c with
  | error e => rfl
  | ok p =>
    cases p with
    | mk fs2 t2 =>
      simp only
      cases copyIntoAux cfg fuel fs2 jobs with
      | error e => rfl
      | ok q => cases q with | mk fs3 t3 => rfl

/-- More fuel never changes a successful worklist run. -/
theorem copyIntoAux_mono (cfg : Cfg) : ∀ (fuel : Nat) (fs : FS)
    (jobs : List (Path × Path)) (r : FS × List WEvent),
    copyIntoAux cfg fuel fs jobs = .ok r →
    copyIntoAux cfg (fuel + 1) fs jobs = .ok r := by
  intro fuel
  induction fuel with
  | zero =>
    intro fs jobs r h
    rw [copyIntoAux.eq_def] at h
    simp at h
  | succ fuel ih =>
    intro fs jobs r h
    cases jobs with
    | nil => exact h
    | cons j rest =>
      cases j with
      | mk src dst =>
        cases hsrc : FS.get fs src with
        | none =>
          rw [copyIntoAux_cons_missing hsrc] at h
          rw [copyIntoAux_cons_missing hsrc]
          exact ih fs rest r h
        | some e =>
          cases e with
          | dir =>
            rw [copyIntoAux_cons_dir hsrc] at h
            rw [copyIntoAux_cons_dir hsrc]
            cases hcd : createDirAll fs dst with
            | error e2 => rw [hcd] at h; simp at h
            | ok p =>
              cases p with
              | mk fs1 t1 =>
                rw [hcd] at h
                simp only at h ⊢
                cases hin : copyIntoAux cfg fuel fs1
                    ((FS.readDir fs1 src).map
                      (fun n => (src ++ [n], dst ++ [n])) ++ rest) with
                | error e2 => rw [hin] at h; simp at h
                | ok q =>
                  rw [hin] at h
                  rw [ih _ _ _ hin]
                  exact h
          | file c =>
            rw [copyIntoAux_cons_file hsrc] at h
            rw [copyIntoAux_cons_file hsrc]
            cases hcf : copyFileStep cfg fs src dst c with
            | error e2 => rw [hcf] at h; simp at h
            | ok p =>
              cases p with
              | mk fs2 t2 =>
                rw [hcf] at h
                simp only at h ⊢
                cases hin : copyIntoAux cfg fuel fs2 rest with
                | error e2 => rw [hin] at h; simp at h
                | ok q =>
                  rw [hin] at h
                  rw [ih _ _ _ hin]
                  exact h

theorem copyIntoAux_le {cfg : Cfg} {fuel fuel2 : Nat} {fs : FS}
    {jobs : List (Path × Path)} {r : FS × List WEvent}
    (hle : fuel ≤ fuel2) (h : copyIntoAux cfg fuel fs jobs = .ok r) :
    copyIntoAux cfg fuel2 fs jobs = .ok r := by
  induction fuel2 with
  | zero =>
    have : fuel = 0 := by omega
    subst this
    exact h
  | succ f ih =>
    by_cases he : fuel = f + 1
    · subst he; exact h
    · exact copyIntoAux_mono cfg f fs jobs r (ih (by omega))

/-- A successful worklist run splits at any job-list boundary. -/
theorem copyIntoAux_split (cfg : Cfg) : ∀ (fuel : Nat) (fs : FS)
    (jobs1 jobs2 : List (Path × Path)) (fs2 : FS) (t : List WEvent),
    copyIntoAux cfg fuel fs (jobs1 ++ jobs2) = .ok (fs2, t) →
    ∃ fsm t1 t2, t = t1 ++ t2 ∧
      copyIntoAux cfg fuel fs jobs1 = .ok (fsm, t1) ∧
      copyIntoAux cfg fuel fsm jobs2 = .ok (fs2, t2) := by
  intro fuel
  induction fuel with
  | zero =>
    intro fs jobs1 jobs2 fs2 t h
    rw [copyIntoAux.eq_def] at h
    simp at h
  | succ fuel ih =>
    intro fs jobs1 jobs2 fs2 t h
    cases jobs1 with
    | nil =>
      exact ⟨fs, [], t, by simp, copyIntoAux_nil cfg fuel fs, by simpa using h⟩
    | cons j rest =>
      cases j with
      | mk src dst =>
        cases hsrc : FS.get fs src with
        | none =>
          rw [List.cons_append, copyIntoAux_cons_missing hsrc] at h
          obtain ⟨fsm, t1, t2, ht, h1, h2⟩ := ih fs rest jobs2 fs2 t h
          exact ⟨fsm, t1, t2, ht,
            by rw [copyIntoAux_cons_missing hsrc]; exact h1,
            copyIntoAux_mono cfg fuel fsm jobs2 _ h2⟩
        | some e =>
          cases e with
          | dir =>
            rw [List.cons_append, copyIntoAux_cons_dir hsrc] at h
            cases hcd : createDirAll fs dst with
            | error e2 => rw [hcd] at h; simp at h
            | ok p =>
              cases p with
              | mk fs1 tc =>
                rw [hcd] at h
                simp only at h
                cases hin : copyIntoAux cfg fuel fs1
                    ((FS.readDir fs1 src).map
                      (fun n => (src ++ [n], dst ++ [n])) ++ (rest ++ jobs2)) with
                | error e2 => rw [hin] at h; simp at h
                | ok q =>
                  cases q with
                  | mk fsr trest =>
                    rw [hin] at h
                    simp only [Except.ok.injEq, Prod.mk.injEq] at h
                    obtain ⟨hfs, ht⟩ := h
                    subst hfs
                    rw [← List.append_assoc] at hin
                    obtain ⟨fsm, ta, tb, htr, h1, h2⟩ :=
                      ih fs1 _ jobs2 _ trest hin
                    refine ⟨fsm, tc ++ ta, tb, ?_, ?_,
                      copyIntoAux_mono cfg fuel fsm jobs2 _ h2⟩
                    · rw [← ht, htr, List.append_assoc]
                    · rw [copyIntoAux_cons_dir hsrc, hcd]
                      simp only
                      rw [h1]
          | file c =>
            rw [List.cons_append, copyIntoAux_cons_file hsrc] at h
            cases hcf : copyFileStep cfg fs src dst c with
            | error e2 => rw [hcf] at h; simp at h
            | ok p =>
              cases p with
              | mk fsf tf =>
                rw [hcf] at h
                simp only at h
                cases hin : copyIntoAux cfg fuel fsf (rest ++ jobs2) with
                | error e2 => rw [hin] at h; simp at h
                | ok q =>
                  cases q with
                  | mk fsr trest =>
                    rw [hin] at h
                    simp only [Except.ok.injEq, Prod.mk.injEq] at h
                    obtain ⟨hfs, ht⟩ := h
                    subst hfs
                    obtain ⟨fsm, ta, tb, htr, h1, h2⟩ :=
                      ih fsf rest jobs2 _ trest hin
                    refine ⟨fsm, tf ++ ta, tb, ?_, ?_,
                      copyIntoAux_mono cfg fuel fsm jobs2 _ h2⟩
                    · rw [← ht, htr, List.append_assoc]
                    · rw [copyIntoAux_cons_file hsrc, hcf]
                      simp only
                      rw [h1]

theorem copyInto_file {cfg : Cfg} {fuel : Nat} {fs fs2 : FS}
    {src dst : Path} {c : Bytes} {t2 : List WEvent} (hfuel : 2 ≤ fuel)
    (hsrc : FS.get fs src = some (.file c))
    (hstep : copyFileStep cfg fs src dst c = .ok (fs2, t2)) :
    copyInto cfg fuel fs src dst = .ok (fs2, t2) := by
  obtain ⟨n, rfl⟩ : ∃ n, fuel = n + 2 := ⟨fuel - 2, by omega⟩
  unfold copyInto
  rw [copyIntoAux_cons_file hsrc, hstep]
  simp only
  rw [copyIntoAux_nil]
  simp

theorem copyInto_missing {cfg : Cfg} {fuel : Nat} {fs : FS} {src dst : Path}
    (hfuel : 2 ≤ fuel) (h : FS.get fs src = none) :
    copyInto cfg fuel fs src dst = .ok (fs, []) := by
  obtain ⟨n, rfl⟩ : ∃ n, fuel = n + 2 := ⟨fuel - 2, by omega⟩
  unfold copyInto
  rw [copyIntoAux_cons_missing h, copyIntoAux_nil]

theorem goodTree_nil : goodTree ([] : FS) := by
  refine ⟨by simp [keysNodup], ?_⟩
  intro p e h q hq hqe
  by_cases hp : p = []
  · subst hp
    have : q = [] := List.prefix_nil.mp hq
    exact absurd this hqe
  · rw [FS.get, if_neg hp] at h
    simp [List.find?] at h

/-! ### Concrete cache scenarios -/

/-- A small configuration used by the concrete cache scenarios. -/
def cfg0 : Cfg := { cache := ["cache"], pwd := ["p"] }

/-- 64 ASCII zeros, as the hex digest string they denote. -/
def zeros64 : String := String.mk (List.replicate 64 (Char.ofNat 48))

/-- A 77-byte file body that happens to match the pointer-record
heuristic: the magic prefix followed by 64 ASCII zeros. -/
def ptr77 : Bytes := HASHED_FILE_PREFIX ++ List.replicate 64 48

/-- A filesystem holding a small pointer-shaped file `/src/f` and a
blob at the path its 64 zeros resolve to. -/
def fsS : FS := [(["cache"], .dir), (["cache", "large_files"], .dir),
  (["cache", "large_files", zeros64], .file [9, 9, 9]),
  (["d"], .dir), (["src"], .dir), (["src", "f"], .file ptr77)]

/-- 1024 identical bytes — at the deduplication threshold. -/
def big5 : Bytes := List.replicate 1024 5

/-- A cache whose `relative` mirror holds a 1024-byte plain file. -/
def fsL : FS := [(["cache"], .dir), (["cache", "large_files"], .dir),
  (["cache", "relative"], .dir), (["cache", "relative", "big"], .file big5)]

/-- Another 1024-byte content. -/
def bigc : Bytes := List.replicate 1024 7

/-- A filesystem after a completed save of `/src` (mirror and blob both
present), with the original `/src/a` still in place. -/
def fs3 : FS := [(["cache"], .dir), (["cache", "large_files"], .dir),
  (["cache", "large_files", blake3Hex bigc], .file bigc),
  (["cache", "absolute"], .dir), (["cache", "absolute", "src"], .dir),
  (["cache", "absolute", "src", "a"], .file (ptrRecord bigc)),
  (["src"], .dir), (["src", "a"], .file bigc)]

/-- A two-entry filesystem with one small file. -/
def fsW : FS := [(["s"], .file [1, 2]), (["d0"], .dir)]

/-! ### Claim C6 -/

/-- Refutes C6 as stated: a file of 77 bytes — well below the 1024-byte
threshold — whose bytes happen to start with the magic prefix is *not*
copied verbatim: the destination receives the bytes of the blob its
trailing 64 characters resolve to. -/
theorem threshold_boundary_counterexample :
    FS.get fsS ["src", "f"] = some (.file ptr77) ∧
    Bytes.len ptr77 < DEDUPLICATE_LARGER_THAN ∧
    (copyInto cfg0 10 fsS ["src", "f"] ["d", "f"]).map
      (fun r => FS.get r.1 ["d", "f"]) = .ok (some (.file [9, 9, 9])) ∧
    ptr77 ≠ [9, 9, 9] := by decide

/-- C6 (amended): copying a file of exactly `DEDUPLICATE_LARGER_THAN`
(1024) bytes deduplicates it — a pointer record is written at the
destination and the content is stored under `large_files/` — while a
*non-pointer-shaped* file of 1023 bytes or fewer is copied verbatim,
with no pointer record at the destination and the filesystem otherwise
untouched.  (The stated claim's "always" fails for small files whose
bytes match the pointer heuristic; see the counterexample.) -/
theorem threshold_boundary_amended (cfg : Cfg) (fuel : Nat) (fs : FS)
    (src dst : Path) (c : Bytes)
    (hfuel : 2 ≤ fuel)
    (hsrc : FS.get fs src = some (.file c))
    (hdne : dst ≠ []) (hpar : FS.get fs dst.dropLast = some .dir)
    (hnd : FS.get fs dst ≠ some .dir) :
    (Bytes.len c = DEDUPLICATE_LARGER_THAN →
      src ≠ dst → dst ≠ cfg.cache ++ ["large_files"] →
      FS.get fs (cfg.cache ++ ["large_files"]) = some .dir →
      FS.get fs (blobPath cfg c) ≠ some .dir →
      dst ≠ blobPath cfg c →
      copyInto cfg fuel fs src dst =
        .ok (FS.set (FS.set fs dst (.file (ptrRecord c)))
              (blobPath cfg c) (.file c),
          [WEvent.mkFile dst (ptrRecord c),
            WEvent.copy src (blobPath cfg c)])) ∧
    (Bytes.len c < DEDUPLICATE_LARGER_THAN → ¬ isPtrRecord c →
      copyInto cfg fuel fs src dst =
        .ok (FS.set fs dst (.file c), [WEvent.copy src dst])) := by
  constructor
  · intro hlen h1 h2 h3 h4 h5
    have hge : ¬ Bytes.len c < DEDUPLICATE_LARGER_THAN := by omega
    exact copyInto_file hfuel hsrc
      (copyFileStep_large hge hsrc h1 hdne hpar hnd h2 h3 h4 h5)
  · intro hlen hnp
    exact copyInto_file hfuel hsrc
      (copyFileStep_small hnp hlen hsrc hdne hpar hnd)

theorem threshold_boundary_amended_witness :
    copyInto cfg0 10 fsW ["s"] ["d0", "f"] =
      .ok (FS.set fsW ["d0", "f"] (.file [1, 2]),
        [WEvent.copy ["s"] ["d0", "f"]]) :=
  (threshold_boundary_amended cfg0 10 fsW ["s"] ["d0", "f"] [1, 2]
    (by decide) (by decide) (by decide) (by decide) (by decide)).2
    (by decide) (by decide)

/-! ### Claim C8 -/

set_option maxRecDepth 6000 in
/-- Refutes the "every other file is copied byte-verbatim" half of C8:
on load, a stored file of 1024 bytes that does *not* match the pointer
heuristic is re-deduplicated — the working tree receives a 77-byte
pointer record instead of the stored bytes. -/
theorem pointer_classification_counterexample :
    FS.get fsL ["cache", "relative", "big"] = some (.file big5) ∧
    ¬ isPtrRecord big5 ∧
    (load cfg0 10 fsL).map (fun r => FS.get r.1 ["p", "big"]) =
      .ok (some (.file (ptrRecord big5))) ∧
    ptrRecord big5 ≠ big5 := by decide

/-- C8 (amended): during the copy algorithm a stored file is treated as
a pointer record — its content resolved from `large_files/<hash>` —
exactly when its byte length is `len(MAGIC_PREFIX) + 64` and its bytes
start with the magic prefix.  A non-pointer file below the threshold is
copied byte-verbatim; a non-pointer file at or above the threshold is
*not* copied verbatim — the destination receives a pointer record (see
the counterexample). -/
theorem pointer_classification_amended (cfg : Cfg) (fuel : Nat) (fs : FS)
    (src dst : Path) (m : Bytes)
    (hfuel : 2 ≤ fuel)
    (hsrc : FS.get fs src = some (.file m))
    (hdne : dst ≠ []) (hpar : FS.get fs dst.dropLast = some .dir)
    (hnd : FS.get fs dst ≠ some .dir) :
    (∀ hstr bc, isPtrRecord m →
      hexNormalize (m.drop HASHED_FILE_PREFIX.length) = some hstr →
      FS.get fs (cfg.cache ++ ["large_files", hstr]) = some (.file bc) →
      copyInto cfg fuel fs src dst =
        .ok (FS.set fs dst (.file bc),
          [WEvent.copy (cfg.cache ++ ["large_files", hstr]) dst])) ∧
    (¬ isPtrRecord m → Bytes.len m < DEDUPLICATE_LARGER_THAN →
      copyInto cfg fuel fs src dst =
        .ok (FS.set fs dst (.file m), [WEvent.copy src dst])) ∧
    (¬ Bytes.len m < DEDUPLICATE_LARGER_THAN →
      src ≠ dst → dst ≠ cfg.cache ++ ["large_files"] →
      FS.get fs (cfg.cache ++ ["large_files"]) = some .dir →
      FS.get fs (blobPath cfg m) ≠ some .dir →
      dst ≠ blobPath cfg m →
      copyInto cfg fuel fs src dst =
        .ok (FS.set (FS.set fs dst (.file (ptrRecord m)))
              (blobPath cfg m) (.file m),
          [WEvent.mkFile dst (ptrRecord m),
            WEvent.copy src (blobPath cfg m)])) := by
  refine ⟨?_, ?_, ?_⟩
  · intro hstr bc hp hhex hblob
    exact copyInto_file hfuel hsrc
      (copyFileStep_ptr hp hhex hblob hdne hpar hnd)
  · intro hnp hlen
    exact copyInto_file hfuel hsrc
      (copyFileStep_small hnp hlen hsrc hdne hpar hnd)
  · intro hlen h1 h2 h3 h4 h5
    exact copyInto_file hfuel hsrc
      (copyFileStep_large hlen hsrc h1 hdne hpar hnd h2 h3 h4 h5)

theorem pointer_classification_amended_witness :
    copyInto cfg0 10 fsS ["src", "f"] ["d", "g"] =
      .ok (FS.set fsS ["d", "g"] (.file [9, 9, 9]),
        [WEvent.copy ["cache", "large_files", zeros64] ["d", "g"]]) :=
  (pointer_classification_amended cfg0 10 fsS ["src", "f"] ["d", "g"] ptr77
    (by decide) (by decide) (by decide) (by decide) (by decide)).1
    zeros64 [9, 9, 9] (by decide) (by decide) (by decide)

/-! ### Claim C3 -/

set_option maxRecDepth 6000 in
/-- Refutes the "does not rehash or rewrite the existing blob" part of
C3: saving `/src` again when the blob for its 1024-byte file already
exists still emits a `copy` write targeting that existing blob path
(the blob is rewritten; no existence check is made). -/
theorem idempotent_save_counterexample :
    FS.get fs3 ["cache", "large_files", blake3Hex bigc] =
      some (.file bigc) ∧
    (save cfg0 10 fs3 ⟨true, ["src"]⟩).map (fun r => r.2) =
      .ok [WEvent.mkFile ["cache", "absolute", "src", "a"] (ptrRecord bigc),
        WEvent.copy ["src", "a"] ["cache", "large_files", blake3Hex bigc]] := by
  decide

/-- C3 (amended): copying content of at least 1024 bytes whose blob
already exists (holding those same bytes) creates no second blob and
leaves the blob's *bytes* equal to the content — but the blob file is
rewritten (see the counterexample for the emitted write): the final
state changes only at the destination and at that single blob path. -/
theorem idempotent_save_amended (cfg : Cfg) (fuel : Nat) (fs : FS)
    (src dst : Path) (c : Bytes)
    (hfuel : 2 ≤ fuel)
    (hlen : ¬ Bytes.len c < DEDUPLICATE_LARGER_THAN)
    (hblob : FS.get fs (blobPath cfg c) = some (.file c))
    (hsrc : FS.get fs src = some (.file c))
    (hsd : src ≠ dst) (hdne : dst ≠ [])
    (hpar : FS.get fs dst.dropLast = some .dir)
    (hnd : FS.get fs dst ≠ some .dir)
    (hdlf : dst ≠ cfg.cache ++ ["large_files"])
    (hlf : FS.get fs (cfg.cache ++ ["large_files"]) = some .dir)
    (hdb : dst ≠ blobPath cfg c) :
    ∃ fs2, copyInto cfg fuel fs src dst =
        .ok (fs2, [WEvent.mkFile dst (ptrRecord c),
          WEvent.copy src (blobPath cfg c)]) ∧
      FS.get fs2 (blobPath cfg c) = some (.file c) ∧
      (∀ q, q ≠ blobPath cfg c → q ≠ dst → FS.get fs2 q = FS.get fs q) := by
  have hbnd : FS.get fs (blobPath cfg c) ≠ some .dir := by
    rw [hblob]; simp
  refine ⟨_, copyInto_file hfuel hsrc
    (copyFileStep_large hlen hsrc hsd hdne hpar hnd hdlf hlf hbnd hdb), ?_, ?_⟩
  · rw [get_set_self]
    unfold blobPath
    exact lf_concat_ne_nil _ _
  · intro q hq1 hq2
    rw [get_set_ne _ _ _ _ hq1, get_set_ne _ _ _ _ hq2]

set_option maxRecDepth 6000 in
theorem idempotent_save_amended_witness :
    ∃ fs2, copyInto cfg0 10 fs3 ["src", "a"] ["cache", "absolute", "src", "a"] =
        .ok (fs2, [WEvent.mkFile ["cache", "absolute", "src", "a"]
            (ptrRecord bigc),
          WEvent.copy ["src", "a"] (blobPath cfg0 bigc)]) ∧
      FS.get fs2 (blobPath cfg0 bigc) = some (.file bigc) ∧
      (∀ q, q ≠ blobPath cfg0 bigc → q ≠ ["cache", "absolute", "src", "a"] →
        FS.get fs2 q = FS.get fs3 q) :=
  idempotent_save_amended cfg0 10 fs3 ["src", "a"]
    ["cache", "absolute", "src", "a"] bigc
    (by decide) (by decide) (by decide) (by decide) (by decide) (by decide)
    (by decide) (by decide) (by decide) (by decide) (by decide)

/-! ### Claim C7 -/

/-- Refutes the "creates nothing in the cache root" half of C7: saving
a nonexistent path still creates the cache root and its `large_files`
directory. -/
theorem missing_source_counterexample :
    FS.get ([] : FS) ["src"] = none ∧
    save cfg0 10 ([] : FS) ⟨true, ["src"]⟩ =
      .ok ([(["cache"], .dir), (["cache", "large_files"], .dir)],
        [WEvent.mkDir ["cache"], WEvent.mkDir ["cache", "large_files"]]) := by
  decide

/-- C7 (amended): saving a nonexistent path returns success and creates
*only* the missing directories on the `{cache}/large_files` chain
(nothing else anywhere); loading from a cache root with no `absolute`
and no `relative` mirror returns success and changes nothing at all. -/
theorem missing_source_amended (cfg : Cfg) (fuel : Nat) (fs : FS) (p : LPath)
    (hfuel : 2 ≤ fuel) (hg : goodTree fs)
    (hfiles : ∀ q c, q <+: cfg.cache ++ ["large_files"] →
      FS.get fs q ≠ some (.file c))
    (hmiss : FS.get fs (srcRoot cfg p) = none)
    (hnp : ¬ srcRoot cfg p <+: cfg.cache ++ ["large_files"]) :
    (∃ fs2 t, save cfg fuel fs p = .ok (fs2, t) ∧
      (∀ q, FS.get fs2 q =
        if q <+: cfg.cache ++ ["large_files"] ∧ FS.get fs q = none
        then some .dir else FS.get fs q) ∧
      (∀ ev ∈ t, ∃ q, ev = WEvent.mkDir q ∧
        q <+: cfg.cache ++ ["large_files"] ∧ FS.get fs q = none)) ∧
    (∀ fs3 : FS, FS.get fs3 (cfg.cache ++ ["absolute"]) = none →
      FS.get fs3 (cfg.cache ++ ["relative"]) = none →
      load cfg fuel fs3 = .ok (fs3, [])) := by
  constructor
  · obtain ⟨fs1, t1, hcd, hg1, hchar, htr⟩ :=
      createDirAll_spec fs (cfg.cache ++ ["large_files"]) hg hfiles
    have hmiss1 : FS.get fs1 (srcRoot cfg p) = none := by
      rw [hchar, if_neg]
      · exact hmiss
      · rintro ⟨h1, _⟩
        exact hnp h1
    refine ⟨fs1, t1, ?_, hchar, htr⟩
    unfold save
    rw [hcd]
    simp only [Bind.bind, Except.bind]
    rw [copyInto_missing hfuel hmiss1]
    simp
  · intro fs3 ha hr
    unfold load
    rw [copyInto_missing hfuel ha]
    simp only [Bind.bind, Except.bind]
    rw [copyInto_missing hfuel hr]
    simp

theorem missing_source_amended_witness :
    (∃ fs2 t, save cfg0 10 ([] : FS) ⟨true, ["src"]⟩ = .ok (fs2, t) ∧
      (∀ q, FS.get fs2 q =
        if q <+: cfg0.cache ++ ["large_files"] ∧ FS.get ([] : FS) q = none
        then some .dir else FS.get ([] : FS) q) ∧
      (∀ ev ∈ t, ∃ q, ev = WEvent.mkDir q ∧
        q <+: cfg0.cache ++ ["large_files"] ∧ FS.get ([] : FS) q = none)) ∧
    (∀ fs3 : FS, FS.get fs3 (cfg0.cache ++ ["absolute"]) = none →
      FS.get fs3 (cfg0.cache ++ ["relative"]) = none →
      load cfg0 10 fs3 = .ok (fs3, [])) :=
  missing_source_amended cfg0 10 ([] : FS) ⟨true, ["src"]⟩
    (by decide) goodTree_nil
    (by
      intro q c hq
      by_cases hqn : q = []
      · subst hqn; rw [get_nil]; simp
      · rw [FS.get, if_neg hqn]
        simp [List.find?])
    (by decide) (by decide)

/-! ### Prefix bookkeeping for the copy lemmas -/

theorem prefix_comparable {p q r : Path} (hp : p <+: r) (hq : q <+: r) :
    p <+: q ∨ q <+: p :=
  List.prefix_or_prefix_of_prefix hp hq

theorem prefix_concat_cases {q p : Path} {a : String}
    (h : q <+: p ++ [a]) : q <+: p ∨ q = p ++ [a] := by
  rcases Nat.lt_or_ge q.length (p ++ [a]).length with hl | hl
  · left
    have : q <+: (p ++ [a]).dropLast :=
      (prefix_dropLast_iff (by simp)).mpr
        ⟨h, by intro he; subst he; omega⟩
    rwa [List.dropLast_concat] at this
  · right
    exact List.IsPrefix.eq_of_length h
      (le_antisymm h.length_le hl)

theorem append_cons_eq (p : Path) (a : String) (r : Path) :
    p ++ a :: r = (p ++ [a]) ++ r := by simp

theorem concat_head_eq {p : Path} {a b : String} {r : Path}
    (h : p ++ [a] <+: (p ++ [b]) ++ r) : a = b := by
  obtain ⟨s, hs⟩ := h
  rw [List.append_assoc, List.append_assoc] at hs
  have h2 := List.append_cancel_left hs
  simp at h2
  exact h2.1

theorem append_subtree_cases {dst : Path} {a : String} {q : Path}
    (h : dst <+: q) : q <+: dst ∨ q = dst ∨ ∃ b r, q = dst ++ b :: r := by
  obtain ⟨s, hs⟩ := h
  cases s with
  | nil => right; left; simp [← hs]
  | cons b r => right; right; exact ⟨b, r, hs.symm⟩

theorem subtree_decomp {dst q : Path} (h : dst <+: q) :
    q = dst ∨ ∃ b r, q = dst ++ b :: r := by
  obtain ⟨s, hs⟩ := h
  cases s with
  | nil => left; simp [← hs]
  | cons b r => right; exact ⟨b, r, hs.symm⟩

theorem cons_prefix_singleton {m n : String} {r : Path}
    (h : m :: r <+: [n]) : m = n ∧ r = [] := by
  rw [List.cons_prefix_cons] at h
  exact ⟨h.1, List.prefix_nil.mp h.2⟩

/-- The entry stored in the cache mirror for a source entry. -/
def mirrorEntry (e : Entry) : Entry :=
  match e with
  | .dir => .dir
  | .file c =>
    if Bytes.len c < DEDUPLICATE_LARGER_THAN then .file c
    else .file (ptrRecord c)

theorem goodTree_no_deep_entry {fs : FS} (hg : goodTree fs) {p : Path}
    (hp : FS.get fs p = none) {r : Path} (hr : r ≠ []) :
    FS.get fs (p ++ r) = none := by
  cases hq : FS.get fs (p ++ r) with
  | none => rfl
  | some e =>
    exfalso
    have hpre : p <+: p ++ r := List.prefix_append p r
    have hne : p ≠ p ++ r := by
      intro h
      have := congrArg List.length h
      simp at this
      exact hr this
    have := hg.2 (p ++ r) e hq p hpre hne
    rw [this] at hp
    simp at hp

theorem goodTree_file_no_deep {fs : FS} (hg : goodTree fs) {p : Path}
    {c : Bytes} (hp : FS.get fs p = some (.file c)) {r : Path} (hr : r ≠ []) :
    FS.get fs (p ++ r) = none := by
  cases hq : FS.get fs (p ++ r) with
  | none => rfl
  | some e =>
    exfalso
    have hpre : p <+: p ++ r := List.prefix_append p r
    have hne : p ≠ p ++ r := by
      intro h
      have := congrArg List.length h
      simp at this
      exact hr this
    have := hg.2 (p ++ r) e hq p hpre hne
    rw [this] at hp
    simp at hp

theorem prefix_append_cancel {p x y : Path} :
    p ++ x <+: p ++ y ↔ x <+: y := by
  constructor
  · rintro ⟨s, hs⟩
    rw [List.append_assoc] at hs
    exact ⟨s, List.append_cancel_left hs⟩
  · rintro ⟨s, hs⟩
    exact ⟨s, by rw [List.append_assoc, hs]⟩

theorem prefix_concat_self (p : Path) (n : String) : p <+: p ++ [n] :=
  List.prefix_append p [n]

/-- The hypotheses under which one `copy_into` job faithfully mirrors a
source subtree into an empty destination subtree. -/
structure SaveHyps (cfg : Cfg) (fs : FS) (src dst : Path) : Prop where
  hg : goodTree fs
  hsome : FS.get fs src ≠ none
  hsd : ¬ src <+: dst
  hds : ¬ dst <+: src
  hdlf : ∀ q, dst <+: q → ¬ (cfg.cache ++ ["large_files"] <+: q)
  hcs : ¬ cfg.cache <+: src
  hsc : ¬ src <+: cfg.cache
  hempty : ∀ q, dst <+: q → FS.get fs q = none
  hdpref : ∀ q c, q <+: dst → FS.get fs q ≠ some (Entry.file c)
  hlf : FS.get fs (cfg.cache ++ ["large_files"]) = some .dir
  hbnd : ∀ h2, FS.get fs (cfg.cache ++ ["large_files", h2]) ≠ some .dir
  hnoptr : ∀ r c, FS.get fs (src ++ r) = some (Entry.file c) → ¬ isPtrRecord c
  hinj : ∀ r1 r2 c1 c2, FS.get fs (src ++ r1) = some (Entry.file c1) →
    FS.get fs (src ++ r2) = some (Entry.file c2) →
    ¬ Bytes.len c1 < DEDUPLICATE_LARGER_THAN →
    ¬ Bytes.len c2 < DEDUPLICATE_LARGER_THAN →
    blake3Hex c1 = blake3Hex c2 → c1 = c2
  hparent : FS.get fs src = some .dir ∨
    (dst ≠ [] ∧ FS.get fs dst.dropLast = some .dir)

/-- What one `copy_into` job produces: a continuation fact usable inside
any enclosing worklist run, plus a full characterisation of the final
filesystem. -/
structure SaveConc (cfg : Cfg) (fs : FS) (src dst : Path) (fs2 : FS)
    (t : List WEvent) (k : Nat) : Prop where
  kont : ∀ fuel rest fsr tr, copyIntoAux cfg fuel fs2 rest = .ok (fsr, tr) →
    copyIntoAux cfg (fuel + k) fs ((src, dst) :: rest) = .ok (fsr, t ++ tr)
  hg2 : goodTree fs2
  mirror : ∀ r, FS.get fs2 (dst ++ r) = (FS.get fs (src ++ r)).map mirrorEntry
  blob : ∀ r c, FS.get fs (src ++ r) = some (Entry.file c) →
    ¬ Bytes.len c < DEDUPLICATE_LARGER_THAN →
    FS.get fs2 (blobPath cfg c) = some (Entry.file c)
  blobframe : ∀ h2, (∀ r c, FS.get fs (src ++ r) = some (Entry.file c) →
      ¬ Bytes.len c < DEDUPLICATE_LARGER_THAN → blake3Hex c ≠ h2) →
    FS.get fs2 (cfg.cache ++ ["large_files", h2]) =
      FS.get fs (cfg.cache ++ ["large_files", h2])
  frame : ∀ q, ¬ dst <+: q → ¬ q <+: dst →
    (∀ h2, q ≠ cfg.cache ++ ["large_files", h2]) →
    FS.get fs2 q = FS.get fs q
  chain : FS.get fs src = some .dir → ∀ q, q <+: dst →
    FS.get fs2 q = some .dir
  fpref : ∀ c, FS.get fs src = some (Entry.file c) →
    ∀ q, q <+: dst → q ≠ dst → FS.get fs2 q = FS.get fs q

/-- Invariant of the child loop of a directory job: children in `P`
are mirrored, the rest of the destination subtree is still empty, blobs
for `P`-contents are in place, and nothing outside the job's write
zones has changed. -/
structure SaveInv (cfg : Cfg) (fs : FS) (src dst : Path) (P : List String)
    (g : FS) : Prop where
  good : goodTree g
  done : ∀ n ∈ P, ∀ r, FS.get g (dst ++ n :: r) =
    (FS.get fs (src ++ n :: r)).map mirrorEntry
  todo : ∀ n, n ∉ P → ∀ r, FS.get g (dst ++ n :: r) = none
  blob : ∀ n ∈ P, ∀ r c, FS.get fs (src ++ n :: r) = some (Entry.file c) →
    ¬ Bytes.len c < DEDUPLICATE_LARGER_THAN →
    FS.get g (blobPath cfg c) = some (Entry.file c)
  blobframe : ∀ h2, (∀ n ∈ P, ∀ r c,
      FS.get fs (src ++ n :: r) = some (Entry.file c) →
      ¬ Bytes.len c < DEDUPLICATE_LARGER_THAN → blake3Hex c ≠ h2) →
    FS.get g (cfg.cache ++ ["large_files", h2]) =
      FS.get fs (cfg.cache ++ ["large_files", h2])
  frame : ∀ q, ¬ dst <+: q → ¬ q <+: dst →
    (∀ h2, q ≠ cfg.cache ++ ["large_files", h2]) → FS.get g q = FS.get fs q
  chain : ∀ q, q <+: dst → FS.get g q = some .dir

theorem lfroot_prefix_blob (cfg : Cfg) (h2 : String) :
    cfg.cache ++ ["large_files"] <+: cfg.cache ++ ["large_files", h2] := by
  rw [lf_concat_eq]
  exact List.prefix_append _ _

theorem dst_zone_not_blob {cfg : Cfg} {dst : Path}
    (hdlf : ∀ q, dst <+: q → ¬ (cfg.cache ++ ["large_files"] <+: q))
    {q : Path} (hq : dst <+: q) (h2 : String) :
    q ≠ cfg.cache ++ ["large_files", h2] := by
  intro he
  exact hdlf q hq (he ▸ lfroot_prefix_blob cfg h2)

theorem blob_eq_iff {cfg : Cfg} {h2 h3 : String} :
    cfg.cache ++ ["large_files", h2] = cfg.cache ++ ["large_files", h3] ↔
      h2 = h3 := by
  constructor
  · intro h
    have := List.append_cancel_left h
    simpa using this
  · intro h; rw [h]

theorem save_src_pres {cfg : Cfg} {fs : FS} {src dst : Path}
    {P : List String} {g : FS} (hyp : SaveHyps cfg fs src dst)
    (inv : SaveInv cfg fs src dst P g) :
    ∀ r, FS.get g (src ++ r) = FS.get fs (src ++ r) := by
  intro r
  apply inv.frame
  · intro hq
    rcases prefix_comparable hq (List.prefix_append src r) with h | h
    · exact hyp.hds h
    · exact hyp.hsd h
  · intro hq
    exact hyp.hsd ((List.prefix_append src r).trans hq)
  · intro h2 he
    have hc : cfg.cache <+: src ++ r := by
      rw [he, lf_concat_eq]
      exact (List.prefix_append _ _).trans (List.prefix_append _ _)
    rcases prefix_comparable hc (List.prefix_append src r) with h | h
    · exact hyp.hcs h
    · exact hyp.hsc h

theorem save_lf_pres {cfg : Cfg} {fs : FS} {src dst : Path}
    {P : List String} {g : FS} (hyp : SaveHyps cfg fs src dst)
    (inv : SaveInv cfg fs src dst P g) :
    FS.get g (cfg.cache ++ ["large_files"]) = some .dir := by
  rw [← hyp.hlf]
  apply inv.frame
  · intro hq
    exact hyp.hdlf _ hq (List.prefix_refl _)
  · intro hq
    exact hyp.hdlf dst (List.prefix_refl _) hq
  · intro h2 he
    have := congrArg List.length he
    rw [lf_concat_eq] at this
    simp at this

theorem save_bnd_pres {cfg : Cfg} {fs : FS} {src dst : Path}
    {P : List String} {g : FS} (hyp : SaveHyps cfg fs src dst)
    (inv : SaveInv cfg fs src dst P g) :
    ∀ h2, FS.get g (cfg.cache ++ ["large_files", h2]) ≠ some .dir := by
  intro h2
  by_cases hhit : ∃ n, n ∈ P ∧ ∃ r c,
      FS.get fs (src ++ n :: r) = some (Entry.file c) ∧
      ¬ Bytes.len c < DEDUPLICATE_LARGER_THAN ∧ blake3Hex c = h2
  · obtain ⟨n, hnP, r, c, hc, hlarge, hhash⟩ := hhit
    have hb := inv.blob n hnP r c hc hlarge
    unfold blobPath at hb
    rw [hhash] at hb
    rw [hb]
    simp
  · have hcond : ∀ n ∈ P, ∀ r c,
        FS.get fs (src ++ n :: r) = some (Entry.file c) →
        ¬ Bytes.len c < DEDUPLICATE_LARGER_THAN → blake3Hex c ≠ h2 := by
      intro n hn r c hc hl hh
      exact hhit ⟨n, hn, r, c, hc, hl, hh⟩
    rw [inv.blobframe h2 hcond]
    exact hyp.hbnd h2

theorem save_child_hyps {cfg : Cfg} {fs : FS} {src dst : Path}
    {P : List String} {g : FS} (hyp : SaveHyps cfg fs src dst)
    (inv : SaveInv cfg fs src dst P g) {n : String} (hnP : n ∉ P)
    (hn : FS.get fs (src ++ [n]) ≠ none) :
    SaveHyps cfg g (src ++ [n]) (dst ++ [n]) := by
  have hpres := save_src_pres hyp inv
  refine ⟨inv.good, ?_, ?_, ?_, ?_, ?_, ?_, ?_, ?_, ?_, ?_, ?_, ?_, ?_⟩
  · rw [hpres [n]]
    exact hn
  · intro h
    have h2 : src <+: dst ++ [n] := (List.prefix_append src [n]).trans h
    rcases prefix_concat_cases h2 with h3 | h3
    · exact hyp.hsd h3
    · exact hyp.hds ⟨[n], h3.symm⟩
  · intro h
    have h2 : dst <+: src ++ [n] := (List.prefix_append dst [n]).trans h
    rcases prefix_concat_cases h2 with h3 | h3
    · exact hyp.hds h3
    · exact hyp.hsd ⟨[n], h3.symm⟩
  · intro q hq
    exact hyp.hdlf q ((List.prefix_append dst [n]).trans hq)
  · intro h
    rcases prefix_concat_cases h with h3 | h3
    · exact hyp.hcs h3
    · exact hyp.hsc ⟨[n], h3.symm⟩
  · intro h
    exact hyp.hsc ((List.prefix_append src [n]).trans h)
  · intro q hq
    obtain ⟨s, hs⟩ := hq
    rw [← hs, List.append_assoc]
    have h4 : ([n] : Path) ++ s = n :: s := rfl
    rw [h4]
    exact inv.todo n hnP s
  · intro q c hq
    rcases prefix_concat_cases hq with h3 | h3
    · rw [inv.chain q h3]
      simp
    · subst h3
      have h4 : FS.get g (dst ++ [n]) = none := by
        have h5 := inv.todo n hnP []
        simpa using h5
      rw [h4]
      simp
  · exact save_lf_pres hyp inv
  · exact save_bnd_pres hyp inv
  · intro r c hc
    rw [← append_cons_eq] at hc
    rw [hpres (n :: r)] at hc
    exact hyp.hnoptr (n :: r) c hc
  · intro r1 r2 c1 c2 h1 h2 hl1 hl2 hh
    rw [← append_cons_eq] at h1 h2
    rw [hpres (n :: r1)] at h1
    rw [hpres (n :: r2)] at h2
    exact hyp.hinj (n :: r1) (n :: r2) c1 c2 h1 h2 hl1 hl2 hh
  · right
    refine ⟨by simp, ?_⟩
    rw [List.dropLast_concat]
    exact inv.chain dst (List.prefix_refl dst)

theorem save_inv_step {cfg : Cfg} {fs : FS} {src dst : Path}
    {P : List String} {g g2 : FS} {tc : List WEvent} {kc : Nat} {n : String}
    (hyp : SaveHyps cfg fs src dst)
    (inv : SaveInv cfg fs src dst P g)
    (hnP : n ∉ P)
    (hn : FS.get fs (src ++ [n]) ≠ none)
    (cc : SaveConc cfg g (src ++ [n]) (dst ++ [n]) g2 tc kc) :
    SaveInv cfg fs src dst (P ++ [n]) g2 := by
  have hpres := save_src_pres hyp inv
  have hframe_sub : ∀ (m : String) (r : Path), m ≠ n →
      FS.get g2 (dst ++ m :: r) = FS.get g (dst ++ m :: r) := by
    intro m r hmn
    apply cc.frame
    · intro h
      rw [append_cons_eq dst m r] at h
      exact hmn (concat_head_eq h).symm
    · intro h
      have h4 : m :: r <+: [n] := by
        have h5 : dst ++ m :: r <+: dst ++ [n] := h
        exact prefix_append_cancel.mp h5
      exact hmn (cons_prefix_singleton h4).1
    · exact fun h2 => dst_zone_not_blob hyp.hdlf (List.prefix_append dst (m :: r)) h2
  refine ⟨cc.hg2, ?_, ?_, ?_, ?_, ?_, ?_⟩
  · intro m hm r
    rcases List.mem_append.mp hm with hm2 | hm2
    · by_cases hmn : m = n
      · exact absurd (hmn ▸ hm2) hnP
      · rw [hframe_sub m r hmn]
        exact inv.done m hm2 r
    · simp at hm2
      subst hm2
      rw [append_cons_eq dst m r, cc.mirror r, ← append_cons_eq, hpres (m :: r)]
  · intro m hm r
    have hmn : m ≠ n := by
      intro he
      exact hm (by rw [he]; exact List.mem_append.mpr (Or.inr (by simp)))
    have hmP : m ∉ P := fun h => hm (List.mem_append.mpr (Or.inl h))
    rw [hframe_sub m r hmn]
    exact inv.todo m hmP r
  · intro m hm r c hc hl
    rcases List.mem_append.mp hm with hm | hm
    · by_cases hhit : ∃ r2 c2,
          FS.get fs (src ++ n :: r2) = some (Entry.file c2) ∧
          ¬ Bytes.len c2 < DEDUPLICATE_LARGER_THAN ∧
          blake3Hex c2 = blake3Hex c
      · obtain ⟨r2, c2, hc2, hl2, hh2⟩ := hhit
        have hceq : c2 = c := hyp.hinj (n :: r2) (m :: r) c2 c hc2 hc hl2 hl hh2
        have hgc : FS.get g ((src ++ [n]) ++ r2) = some (Entry.file c2) := by
          rw [← append_cons_eq, hpres (n :: r2)]
          exact hc2
        have := cc.blob r2 c2 hgc hl2
        rw [hceq] at this
        exact this
      · have hcond : ∀ r2 c2,
            FS.get g ((src ++ [n]) ++ r2) = some (Entry.file c2) →
            ¬ Bytes.len c2 < DEDUPLICATE_LARGER_THAN →
            blake3Hex c2 ≠ blake3Hex c := by
          intro r2 c2 hc2 hl2 hh2
          rw [← append_cons_eq, hpres (n :: r2)] at hc2
          exact hhit ⟨r2, c2, hc2, hl2, hh2⟩
        have hbf := cc.blobframe (blake3Hex c) hcond
        unfold blobPath
        rw [hbf]
        have := inv.blob m hm r c hc hl
        unfold blobPath at this
        exact this
    · simp at hm
      subst hm
      have hgc : FS.get g ((src ++ [m]) ++ r) = some (Entry.file c) := by
        rw [← append_cons_eq, hpres (m :: r)]
        exact hc
      exact cc.blob r c hgc hl
  · intro h2 hcond
    have hcond_n : ∀ r c, FS.get g ((src ++ [n]) ++ r) = some (Entry.file c) →
        ¬ Bytes.len c < DEDUPLICATE_LARGER_THAN → blake3Hex c ≠ h2 := by
      intro r c hc hl
      rw [← append_cons_eq, hpres (n :: r)] at hc
      exact hcond n (List.mem_append.mpr (Or.inr (by simp))) r c hc hl
    have hcond_P : ∀ m ∈ P, ∀ r c,
        FS.get fs (src ++ m :: r) = some (Entry.file c) →
        ¬ Bytes.len c < DEDUPLICATE_LARGER_THAN → blake3Hex c ≠ h2 :=
      fun m hm => hcond m (List.mem_append.mpr (Or.inl hm))
    rw [cc.blobframe h2 hcond_n, inv.blobframe h2 hcond_P]
  · intro q h1 h2 h3
    have := cc.frame q
      (fun h => h1 ((prefix_concat_self dst n).trans h))
      (by
        intro h
        rcases prefix_concat_cases h with h4 | h4
        · exact h2 h4
        · exact h1 (h4 ▸ prefix_concat_self dst n))
      h3
    rw [this]
    exact inv.frame q h1 h2 h3
  · intro q hq
    cases hs : FS.get g (src ++ [n]) with
    | none =>
      rw [hpres [n]] at hs
      exact absurd hs hn
    | some e =>
      cases e with
      | dir =>
        exact cc.chain hs q (hq.trans (prefix_concat_self dst n))
      | file c =>
        have hne : q ≠ dst ++ [n] := by
          intro he
          have hlen := hq.length_le
          rw [he] at hlen
          simp at hlen
        rw [cc.fpref c hs q (hq.trans (prefix_concat_self dst n)) hne]
        exact inv.chain q hq

/-- The child loop of a directory job: processing a suffix `R` of the
(duplicate-free) children extends the invariant from `P` to `P ++ R`
and embeds into any enclosing worklist run. -/
theorem saveChildren (cfg : Cfg) (H : Nat)
    (ihOuter : ∀ fs2 src2 dst2,
      (∀ r, FS.get fs2 (src2 ++ r) ≠ none → r.length < H) →
      SaveHyps cfg fs2 src2 dst2 →
      ∃ g2 t k, SaveConc cfg fs2 src2 dst2 g2 t k)
    (fs : FS) (src dst : Path) (hyp : SaveHyps cfg fs src dst)
    (hH : ∀ r, FS.get fs (src ++ r) ≠ none → r.length < H + 1) :
    ∀ (R P : List String) (g : FS),
      (P ++ R).Nodup →
      (∀ n ∈ R, FS.get fs (src ++ [n]) ≠ none) →
      SaveInv cfg fs src dst P g →
      ∃ g2 t k, SaveInv cfg fs src dst (P ++ R) g2 ∧
        (∀ fuel rest fsr tr, copyIntoAux cfg fuel g2 rest = .ok (fsr, tr) →
          copyIntoAux cfg (fuel + k) g
            (R.map (fun n => (src ++ [n], dst ++ [n])) ++ rest) =
            .ok (fsr, t ++ tr)) := by
  intro R
  induction R with
  | nil =>
    intro P g hnd hmem inv
    exact ⟨g, [], 0, by simpa using inv,
      fun fuel rest fsr tr h => by simpa using h⟩
  | cons n R ih =>
    intro P g hnd hmem inv
    have hnP : n ∉ P := by
      have hdisj := List.disjoint_of_nodup_append hnd
      intro h
      exact hdisj h (by simp)
    have hn : FS.get fs (src ++ [n]) ≠ none := hmem n (by simp)
    have hchyps := save_child_hyps hyp inv hnP hn
    have hHc : ∀ r, FS.get g ((src ++ [n]) ++ r) ≠ none → r.length < H := by
      intro r hr
      rw [← append_cons_eq, save_src_pres hyp inv (n :: r)] at hr
      have := hH (n :: r) hr
      simp at this
      omega
    obtain ⟨g1, tc, kc, cc⟩ := ihOuter g (src ++ [n]) (dst ++ [n]) hHc hchyps
    have inv1 := save_inv_step hyp inv hnP hn cc
    have hnd1 : ((P ++ [n]) ++ R).Nodup := by
      rw [List.append_assoc]
      exact hnd
    have hmem1 : ∀ m ∈ R, FS.get fs (src ++ [m]) ≠ none :=
      fun m hm => hmem m (by simp [hm])
    obtain ⟨g2, t2, k2, invF, KONT2⟩ := ih (P ++ [n]) g1 hnd1 hmem1 inv1
    refine ⟨g2, tc ++ t2, kc + k2, ?_, ?_⟩
    · rw [List.append_assoc] at invF
      exact invF
    · intro fuel rest fsr tr hrun
      have h2 := KONT2 fuel rest fsr tr hrun
      have h1 := cc.kont (fuel + k2)
        (R.map (fun m => (src ++ [m], dst ++ [m])) ++ rest) fsr (t2 ++ tr) h2
      have he : fuel + (kc + k2) = fuel + k2 + kc := by omega
      rw [he]
      simpa [List.append_assoc] using h1

/-- Main characterisation of one `copy_into` job under `SaveHyps`:
it succeeds (with enough fuel), mirrors the source subtree exactly,
writes the blobs of its large contents, and changes nothing else. -/
theorem saveJob (cfg : Cfg) : ∀ (H : Nat) (fs : FS) (src dst : Path),
    (∀ r, FS.get fs (src ++ r) ≠ none → r.length < H) →
    SaveHyps cfg fs src dst →
    ∃ fs2 t k, SaveConc cfg fs src dst fs2 t k := by
  intro H
  induction H with
  | zero =>
    intro fs src dst hH hyp
    exact absurd (hH [] (by simpa using hyp.hsome)) (by omega)
  | succ H ih =>
    intro fs src dst hH hyp
    cases hsrc : FS.get fs src with
    | none => exact absurd hsrc hyp.hsome
    | some e =>
      cases e with
      | file c =>
        have hpd : dst ≠ [] ∧ FS.get fs dst.dropLast = some .dir := by
          rcases hyp.hparent with h | h
          · rw [hsrc] at h; simp at h
          · exact h
        obtain ⟨hdne, hpar⟩ := hpd
        have hdnone : FS.get fs dst = none := hyp.hempty dst (List.prefix_refl dst)
        have hnd : FS.get fs dst ≠ some .dir := by rw [hdnone]; simp
        have hnp : ¬ isPtrRecord c := hyp.hnoptr [] c (by simpa using hsrc)
        have hdeep : ∀ r, r ≠ [] → FS.get fs (src ++ r) = none :=
          fun r hr => goodTree_file_no_deep hyp.hg hsrc hr
        by_cases hsmall : Bytes.len c < DEDUPLICATE_LARGER_THAN
        · have hstep := @copyFileStep_small cfg fs src dst c
            hnp hsmall hsrc hdne hpar hnd
          refine ⟨FS.set fs dst (.file c), [WEvent.copy src dst], 1,
            ?_, ?_, ?_, ?_, ?_, ?_, ?_, ?_⟩
          · intro fuel rest fsr tr hrun
            rw [copyIntoAux_cons_file hsrc, hstep]
            simp only
            rw [hrun]
          · exact goodTree_set hyp.hg hdne hpar (Or.inr (by rw [hdnone]; simp))
          · intro r
            cases r with
            | nil =>
              simp only [List.append_nil]
              rw [get_set_self fs dst _ hdne, hsrc]
              simp [mirrorEntry, if_pos hsmall]
            | cons a r2 =>
              have hne : dst ++ a :: r2 ≠ dst := by simp
              rw [get_set_ne _ _ _ _ hne,
                hyp.hempty _ (List.prefix_append _ _),
                hdeep (a :: r2) (by simp)]
              simp
          · intro r c2 hc2 hl2
            cases r with
            | nil =>
              rw [List.append_nil, hsrc] at hc2
              simp at hc2
              subst hc2
              exact absurd hsmall hl2
            | cons a r2 =>
              rw [hdeep (a :: r2) (by simp)] at hc2
              simp at hc2
          · intro h2 hcond
            exact get_set_ne fs dst _ _
              (fun h => (dst_zone_not_blob hyp.hdlf (List.prefix_refl dst) h2)
                h.symm)
          · intro q h1 h2 h3
            exact get_set_ne fs dst q _ (fun h => h2 (by rw [h]))
          · intro hdir
            rw [hsrc] at hdir
            simp at hdir
          · intro c2 _ q hq hne
            exact get_set_ne fs dst q _ hne
        · have hsd2 : src ≠ dst := by
            intro h
            rw [h, hdnone] at hsrc
            simp at hsrc
          have hdlf2 : dst ≠ cfg.cache ++ ["large_files"] := by
            intro h
            exact hyp.hdlf dst (List.prefix_refl dst) (by rw [h])
          have hdb : dst ≠ blobPath cfg c := by
            unfold blobPath
            exact dst_zone_not_blob hyp.hdlf (List.prefix_refl dst) (blake3Hex c)
          have hbnd2 : FS.get fs (blobPath cfg c) ≠ some .dir :=
            hyp.hbnd (blake3Hex c)
          have hstep := copyFileStep_large hsmall hsrc hsd2 hdne hpar hnd
            hdlf2 hyp.hlf hbnd2 hdb
          have hqblob : ∀ q, dst <+: q → q ≠ blobPath cfg c := by
            intro q hq
            unfold blobPath
            exact dst_zone_not_blob hyp.hdlf hq (blake3Hex c)
          refine ⟨FS.set (FS.set fs dst (.file (ptrRecord c)))
              (blobPath cfg c) (.file c),
            [WEvent.mkFile dst (ptrRecord c), WEvent.copy src (blobPath cfg c)],
            1, ?_, ?_, ?_, ?_, ?_, ?_, ?_, ?_⟩
          · intro fuel rest fsr tr hrun
            rw [copyIntoAux_cons_file hsrc, hstep]
            simp only
            rw [hrun]
          · have hg1 : goodTree (FS.set fs dst (.file (ptrRecord c))) :=
              goodTree_set hyp.hg hdne hpar (Or.inr (by rw [hdnone]; simp))
            apply goodTree_set hg1
            · unfold blobPath
              exact lf_concat_ne_nil _ _
            · unfold blobPath
              rw [lf_concat_dropLast, get_set_ne _ _ _ _ (Ne.symm hdlf2)]
              exact hyp.hlf
            · right
              rw [get_set_ne _ _ _ _ (Ne.symm hdb)]
              exact hbnd2
          · intro r
            cases r with
            | nil =>
              simp only [List.append_nil]
              rw [get_set_ne _ _ _ _ hdb,
                get_set_self fs dst _ hdne, hsrc]
              simp [mirrorEntry, if_neg hsmall]
            | cons a r2 =>
              have hne : dst ++ a :: r2 ≠ dst := by simp
              have hneb : dst ++ a :: r2 ≠ blobPath cfg c :=
                hqblob _ (List.prefix_append _ _)
              rw [get_set_ne _ _ _ _ hneb, get_set_ne _ _ _ _ hne,
                hyp.hempty _ (List.prefix_append _ _),
                hdeep (a :: r2) (by simp)]
              simp
          · intro r c2 hc2 hl2
            cases r with
            | nil =>
              rw [List.append_nil, hsrc] at hc2
              simp at hc2
              subst hc2
              rw [get_set_self]
              unfold blobPath
              exact lf_concat_ne_nil _ _
            | cons a r2 =>
              rw [hdeep (a :: r2) (by simp)] at hc2
              simp at hc2
          · intro h2 hcond
            have hh2 : blake3Hex c ≠ h2 :=
              hcond [] c (by simpa using hsrc) hsmall
            have hne1 : cfg.cache ++ ["large_files", h2] ≠ blobPath cfg c := by
              unfold blobPath
              intro h
              exact hh2 (blob_eq_iff.mp h).symm
            have hne2 : cfg.cache ++ ["large_files", h2] ≠ dst :=
              fun h => (dst_zone_not_blob hyp.hdlf (List.prefix_refl dst) h2)
                h.symm
            rw [get_set_ne _ _ _ _ hne1, get_set_ne _ _ _ _ hne2]
          · intro q h1 h2 h3
            have hne1 : q ≠ blobPath cfg c := by
              unfold blobPath
              exact h3 (blake3Hex c)
            have hne2 : q ≠ dst := fun h => h2 (by rw [h])
            rw [get_set_ne _ _ _ _ hne1, get_set_ne _ _ _ _ hne2]
          · intro hdir
            rw [hsrc] at hdir
            simp at hdir
          · intro c2 _ q hq hne
            have hne1 : q ≠ blobPath cfg c := by
              unfold blobPath
              intro h
              apply hyp.hdlf dst (List.prefix_refl dst)
              exact ((h ▸ lfroot_prefix_blob cfg (blake3Hex c)).trans hq)
            rw [get_set_ne _ _ _ _ hne1, get_set_ne _ _ _ _ hne]
      | dir =>
        obtain ⟨fs1, t1, hcd, hg1, hchar1, htr1⟩ :=
          createDirAll_spec fs dst hyp.hg (fun q c hq => hyp.hdpref q c hq)
        have hbase : SaveInv cfg fs src dst [] fs1 := by
          refine ⟨hg1, by simp, ?_, by simp, ?_, ?_, ?_⟩
          · intro n _ r
            rw [hchar1, if_neg]
            · exact hyp.hempty _ (List.prefix_append _ _)
            · rintro ⟨h4, _⟩
              have := h4.length_le
              simp at this
          · intro h2 _
            rw [hchar1, if_neg]
            rintro ⟨h4, _⟩
            exact hyp.hdlf dst (List.prefix_refl dst)
              ((lfroot_prefix_blob cfg h2).trans h4)
          · intro q h1 h2 h3
            rw [hchar1, if_neg]
            rintro ⟨h4, _⟩
            exact h2 h4
          · intro q hq
            rw [hchar1]
            by_cases hmiss : FS.get fs q = none
            · rw [if_pos ⟨hq, hmiss⟩]
            · rw [if_neg (by rintro ⟨_, h⟩; exact hmiss h)]
              cases hgq : FS.get fs q with
              | none => exact absurd hgq hmiss
              | some e2 =>
                cases e2 with
                | dir => rfl
                | file c2 => exact absurd hgq (hyp.hdpref q c2 hq)
        have hkn : keysNodup fs1 := hg1.1
        have hmemchild : ∀ n, n ∈ FS.readDir fs1 src ↔
            FS.get fs (src ++ [n]) ≠ none := by
          intro n
          have hpr : FS.get fs1 (src ++ [n]) = FS.get fs (src ++ [n]) := by
            rw [hchar1, if_neg]
            rintro ⟨h4, _⟩
            exact hyp.hsd ((List.prefix_append src [n]).trans h4)
          rw [← get_child_iff_mem_readDir hkn, hpr]
        obtain ⟨g2, t2, k2, invF, KONT2⟩ := saveChildren cfg H ih fs src dst
          hyp hH (FS.readDir fs1 src) [] fs1
          (by simpa using readDir_nodup hkn src)
          (fun n hn => (hmemchild n).mp hn) hbase
        refine ⟨g2, t1 ++ t2, k2 + 1, ?_, invF.good, ?_, ?_, ?_, ?_, ?_, ?_⟩
        · intro fuel rest fsr tr hrun
          have h2 := KONT2 fuel rest fsr tr hrun
          have he : fuel + (k2 + 1) = (fuel + k2) + 1 := by omega
          rw [he, copyIntoAux_cons_dir hsrc, hcd]
          simp only
          rw [h2]
          simp
        · intro r
          cases r with
          | nil =>
            simp only [List.append_nil]
            rw [invF.chain dst (List.prefix_refl dst), hsrc]
            rfl
          | cons n r2 =>
            by_cases hn : n ∈ FS.readDir fs1 src
            · exact invF.done n (by simpa using hn) r2
            · have hfsn : FS.get fs (src ++ [n]) = none := by
                by_contra h
                exact hn ((hmemchild n).mpr h)
              rw [invF.todo n (by simpa using hn) r2]
              have hnone2 : FS.get fs (src ++ n :: r2) = none := by
                cases r2 with
                | nil => simpa using hfsn
                | cons b r3 =>
                  rw [append_cons_eq]
                  exact goodTree_no_deep_entry hyp.hg hfsn (by simp)
              rw [hnone2]
              rfl
        · intro r c2 hc2 hl2
          cases r with
          | nil =>
            rw [List.append_nil, hsrc] at hc2
            simp at hc2
          | cons n r2 =>
            have hmemn : n ∈ FS.readDir fs1 src := by
              apply (hmemchild n).mpr
              intro h
              cases r2 with
              | nil =>
                rw [h] at hc2
                simp at hc2
              | cons b r3 =>
                rw [append_cons_eq,
                  goodTree_no_deep_entry hyp.hg h (by simp)] at hc2
                simp at hc2
            exact invF.blob n (by simpa using hmemn) r2 c2 hc2 hl2
        · intro h2 hcond
          apply invF.blobframe h2
          intro n _ r c2 hc2 hl2
          exact hcond (n :: r) c2 hc2 hl2
        · exact fun q h1 h2 h3 => invF.frame q h1 h2 h3
        · exact fun _ q hq => invF.chain q hq
        · intro c2 hc2
          rw [hsrc] at hc2
          simp at hc2

theorem head_of_prefix_append {p : Path} {a b : String} {x y : Path}
    (h : p ++ a :: x <+: p ++ b :: y) : a = b := by
  have h2 := prefix_append_cancel.mp h
  exact (List.cons_prefix_cons.mp h2).1

/-- The length of the longest key (to produce an induction bound). -/
def maxKeyLen (fs : FS) : Nat := (fs.map (fun kv => kv.1.length)).foldr max 0

theorem le_foldr_max {a : Nat} {l : List Nat} (h : a ∈ l) :
    a ≤ l.foldr max 0 := by
  induction l with
  | nil => simp at h
  | cons b t ih =>
    rcases List.mem_cons.mp h with h | h
    · subst h
      exact Nat.le_max_left _ _
    · exact (ih h).trans (Nat.le_max_right _ _)

theorem length_le_maxKeyLen {fs : FS} {q : Path} (h : FS.get fs q ≠ none)
    (hq : q ≠ []) : q.length ≤ maxKeyLen fs := by
  cases hg : FS.get fs q with
  | none => exact absurd hg h
  | some e =>
    unfold FS.get at hg
    rw [if_neg hq] at hg
    cases hfind : fs.find? (fun kv => kv.1 == q) with
    | none => rw [hfind] at hg; simp at hg
    | some kv =>
      have hmem := List.mem_of_find?_eq_some hfind
      have hkey := List.find?_some hfind
      simp at hkey
      apply le_foldr_max
      rw [← hkey]
      exact List.mem_map_of_mem _ hmem

/-- The tag component of a save path's mirror location. -/
def mirrorTag (p : LPath) : String := if p.absolute then "absolute" else "relative"

theorem mirrorRoot_eq (cfg : Cfg) (p : LPath) :
    mirrorRoot cfg p = cfg.cache ++ mirrorTag p :: p.comps := by
  unfold mirrorRoot mirrorTag
  by_cases h : p.absolute <;> simp [h]

theorem mirrorTag_ne_lf (p : LPath) : mirrorTag p ≠ "large_files" := by
  unfold mirrorTag
  by_cases h : p.absolute <;> simp [h]

theorem lfroot_eq (cfg : Cfg) :
    cfg.cache ++ ["large_files"] = cfg.cache ++ "large_files" :: [] := rfl

/-- Top-level hypotheses for a whole `Cache::save` run: a directory
source, a fresh disjoint cache, and a source subtree without
pointer-shaped contents and without (large-content) hash collisions. -/
structure SaveRootHyps (cfg : Cfg) (fs : FS) (p : LPath) : Prop where
  hg : goodTree fs
  hsrcdir : FS.get fs (srcRoot cfg p) = some .dir
  hfresh : ∀ q, cfg.cache <+: q → FS.get fs q = none
  hcs : ¬ cfg.cache <+: srcRoot cfg p
  hsc : ¬ srcRoot cfg p <+: cfg.cache
  hcpref : ∀ q c, q <+: cfg.cache → FS.get fs q ≠ some (Entry.file c)
  hnoptr : ∀ r c, FS.get fs (srcRoot cfg p ++ r) = some (Entry.file c) →
    ¬ isPtrRecord c
  hinj : ∀ r1 r2 c1 c2,
    FS.get fs (srcRoot cfg p ++ r1) = some (Entry.file c1) →
    FS.get fs (srcRoot cfg p ++ r2) = some (Entry.file c2) →
    ¬ Bytes.len c1 < DEDUPLICATE_LARGER_THAN →
    ¬ Bytes.len c2 < DEDUPLICATE_LARGER_THAN →
    blake3Hex c1 = blake3Hex c2 → c1 = c2

/-- Characterisation of a whole `Cache::save` run on a fresh cache. -/
theorem save_spec (cfg : Cfg) (fs : FS) (p : LPath)
    (hyp : SaveRootHyps cfg fs p) :
    ∃ fs2 t k, (∀ fuel, k ≤ fuel → save cfg fuel fs p = .ok (fs2, t)) ∧
      goodTree fs2 ∧
      (∀ r, FS.get fs2 (mirrorRoot cfg p ++ r) =
        (FS.get fs (srcRoot cfg p ++ r)).map mirrorEntry) ∧
      (∀ r c, FS.get fs (srcRoot cfg p ++ r) = some (Entry.file c) →
        ¬ Bytes.len c < DEDUPLICATE_LARGER_THAN →
        FS.get fs2 (blobPath cfg c) = some (Entry.file c)) ∧
      (∀ h2, (∀ r c, FS.get fs (srcRoot cfg p ++ r) = some (Entry.file c) →
          ¬ Bytes.len c < DEDUPLICATE_LARGER_THAN → blake3Hex c ≠ h2) →
        FS.get fs2 (cfg.cache ++ ["large_files", h2]) =
          FS.get fs (cfg.cache ++ ["large_files", h2])) ∧
      (∀ q, ¬ mirrorRoot cfg p <+: q → ¬ q <+: mirrorRoot cfg p →
        (∀ h2, q ≠ cfg.cache ++ ["large_files", h2]) →
        ¬ q <+: cfg.cache ++ ["large_files"] →
        FS.get fs2 q = FS.get fs q) ∧
      (∀ q, q <+: mirrorRoot cfg p → FS.get fs2 q = some .dir) ∧
      FS.get fs2 (cfg.cache ++ ["large_files"]) = some .dir := by
  have hcd : cfg.cache <+: mirrorRoot cfg p := by
    rw [mirrorRoot_eq]
    exact ⟨_, rfl⟩
  have hsrc_ne : srcRoot cfg p ≠ [] := by
    intro h
    apply hyp.hsc
    rw [h]
    exact List.nil_prefix
  -- step 1: create {cache}/large_files
  obtain ⟨fs1, t1, hcda, hg1, hchar1, _⟩ :=
    createDirAll_spec fs (cfg.cache ++ ["large_files"]) hyp.hg
      (by
        intro q c hq
        rcases prefix_comparable hq (List.prefix_append cfg.cache _) with h | h
        · exact hyp.hcpref q c h
        · rw [hyp.hfresh q h]
          simp)
  have hnotchain : ∀ q, cfg.cache <+: q → ¬ q <+: cfg.cache ++ ["large_files"] →
      FS.get fs1 q = FS.get fs q := by
    intro q _ hq2
    rw [hchar1, if_neg]
    rintro ⟨h4, _⟩
    exact hq2 h4
  have hsrcpres1 : ∀ r, FS.get fs1 (srcRoot cfg p ++ r) =
      FS.get fs (srcRoot cfg p ++ r) := by
    intro r
    rw [hchar1, if_neg]
    rintro ⟨h4, _⟩
    have h5 : srcRoot cfg p <+: cfg.cache ++ ["large_files"] :=
      (List.prefix_append _ r).trans h4
    rcases prefix_comparable h5 (List.prefix_append cfg.cache _) with h | h
    · exact hyp.hsc h
    · exact hyp.hcs h
  have hdlf : ∀ q, mirrorRoot cfg p <+: q →
      ¬ (cfg.cache ++ ["large_files"] <+: q) := by
    intro q hq hlq
    rcases prefix_comparable hq hlq with h | h
    · rw [mirrorRoot_eq, lfroot_eq] at h
      exact mirrorTag_ne_lf p (head_of_prefix_append h)
    · rw [mirrorRoot_eq, lfroot_eq] at h
      exact mirrorTag_ne_lf p (head_of_prefix_append h).symm
  have hblob_short : ∀ h2 : String,
      ¬ (cfg.cache ++ ["large_files", h2] <+: cfg.cache ++ ["large_files"]) := by
    intro h2 h
    have := h.length_le
    simp at this
  have hyps1 : SaveHyps cfg fs1 (srcRoot cfg p) (mirrorRoot cfg p) := by
    refine ⟨hg1, ?_, ?_, ?_, hdlf, hyp.hcs, hyp.hsc, ?_, ?_, ?_, ?_, ?_, ?_, ?_⟩
    · have := hsrcpres1 []
      simp only [List.append_nil] at this
      rw [this, hyp.hsrcdir]
      simp
    · intro h
      rcases prefix_comparable h hcd with h4 | h4
      · exact hyp.hsc h4
      · exact hyp.hcs h4
    · intro h
      exact hyp.hcs (hcd.trans h)
    · intro q hq
      have hcq : cfg.cache <+: q := hcd.trans hq
      have hnl : ¬ q <+: cfg.cache ++ ["large_files"] := by
        intro h
        have h5 : mirrorRoot cfg p <+: cfg.cache ++ ["large_files"] :=
          hq.trans h
        rw [mirrorRoot_eq, lfroot_eq] at h5
        exact mirrorTag_ne_lf p (head_of_prefix_append h5)
      rw [hnotchain q hcq hnl]
      exact hyp.hfresh q hcq
    · intro q c hq
      by_cases hql : q <+: cfg.cache ++ ["large_files"] ∧ FS.get fs q = none
      · rw [hchar1, if_pos hql]
        simp
      · rw [hchar1, if_neg hql]
        rcases prefix_comparable hq hcd with h4 | h4
        · exact hyp.hcpref q c h4
        · rw [hyp.hfresh q h4]
          simp
    · rw [hchar1, if_pos ⟨List.prefix_refl _,
        hyp.hfresh _ (List.prefix_append _ _)⟩]
    · intro h2
      rw [hchar1, if_neg (by rintro ⟨h4, _⟩; exact hblob_short h2 h4)]
      have hcq : cfg.cache <+: cfg.cache ++ ["large_files", h2] :=
        List.prefix_append _ _
      rw [hyp.hfresh _ hcq]
      simp
    · intro r c hc
      rw [hsrcpres1 r] at hc
      exact hyp.hnoptr r c hc
    · intro r1 r2 c1 c2 h1 h2 hl1 hl2 hh
      rw [hsrcpres1 r1] at h1
      rw [hsrcpres1 r2] at h2
      exact hyp.hinj r1 r2 c1 c2 h1 h2 hl1 hl2 hh
    · left
      have := hsrcpres1 []
      simp only [List.append_nil] at this
      rw [this]
      exact hyp.hsrcdir
  have hH : ∀ r, FS.get fs1 (srcRoot cfg p ++ r) ≠ none →
      r.length < maxKeyLen fs1 + 1 := by
    intro r hr
    have hne : srcRoot cfg p ++ r ≠ [] := by
      simp [hsrc_ne]
    have := length_le_maxKeyLen hr hne
    rw [List.length_append] at this
    omega
  obtain ⟨fs2, t2, k2, conc⟩ := saveJob cfg (maxKeyLen fs1 + 1) fs1
    (srcRoot cfg p) (mirrorRoot cfg p) hH hyps1
  have hrun1 : ∀ fuel, k2 + 1 ≤ fuel →
      copyInto cfg fuel fs1 (srcRoot cfg p) (mirrorRoot cfg p) =
        .ok (fs2, t2) := by
    intro fuel hf
    have h0 := conc.kont 1 [] fs2 [] (copyIntoAux_nil cfg 0 fs2)
    unfold copyInto
    apply copyIntoAux_le (show 1 + k2 ≤ fuel by omega)
    simpa using h0
  have hlf1 : FS.get fs1 (cfg.cache ++ ["large_files"]) = some .dir := by
    rw [hchar1, if_pos ⟨List.prefix_refl _,
      hyp.hfresh _ (List.prefix_append _ _)⟩]
  have hsrcdir1 : FS.get fs1 (srcRoot cfg p) = some .dir := by
    have := hsrcpres1 []
    simp only [List.append_nil] at this
    rw [this]
    exact hyp.hsrcdir
  refine ⟨fs2, t1 ++ t2, k2 + 1, ?_, conc.hg2, ?_, ?_, ?_, ?_, ?_, ?_⟩
  · intro fuel hf
    unfold save
    rw [hcda]
    simp only [Bind.bind, Except.bind]
    rw [hrun1 fuel hf]
  · intro r
    rw [conc.mirror r, hsrcpres1 r]
  · intro r c hc hl
    rw [← hsrcpres1 r] at hc
    exact conc.blob r c hc hl
  · intro h2 hcond
    have hcond1 : ∀ r c, FS.get fs1 (srcRoot cfg p ++ r) = some (Entry.file c) →
        ¬ Bytes.len c < DEDUPLICATE_LARGER_THAN → blake3Hex c ≠ h2 := by
      intro r c hc hl
      rw [hsrcpres1 r] at hc
      exact hcond r c hc hl
    rw [conc.blobframe h2 hcond1, hchar1,
      if_neg (by rintro ⟨h4, _⟩; exact hblob_short h2 h4)]
  · intro q h1 h2 h3 h4
    rw [conc.frame q h1 h2 h3, hchar1, if_neg (by rintro ⟨h5, _⟩; exact h4 h5)]
  · intro q hq
    exact conc.chain hsrcdir1 q hq
  · have hnd : ¬ mirrorRoot cfg p <+: cfg.cache ++ ["large_files"] := by
      intro h
      rw [mirrorRoot_eq, lfroot_eq] at h
      exact mirrorTag_ne_lf p (head_of_prefix_append h)
    have hdn : ¬ cfg.cache ++ ["large_files"] <+: mirrorRoot cfg p := by
      intro h
      rw [mirrorRoot_eq, lfroot_eq] at h
      exact mirrorTag_ne_lf p (head_of_prefix_append h).symm
    rw [conc.frame _ hnd hdn (fun h2 h => hblob_short h2 (by rw [h]))]
    exact hlf1

theorem blake3Hex_length (c : Bytes) : (blake3Hex c).length = 64 := by
  show (toHex64 (hashAcc 1 c)).length = 64
  unfold toHex64
  rw [List.length_map, List.length_range]

theorem strBytes_length (s : String) : (strBytes s).length = s.length := by
  show (s.data.map Char.toNat).length = s.length
  rw [List.length_map]
  rfl

theorem ptrRecord_len (c : Bytes) : Bytes.len (ptrRecord c) = 77 := by
  rw [len_eq_length]
  unfold ptrRecord
  rw [List.length_append, strBytes_length, blake3Hex_length, prefix_length]

theorem foldr_add_eq_sum (l : List Nat) : l.foldr (· + ·) 0 = l.sum := by
  induction l with
  | nil => simp
  | cons a t ih => simp [ih]

theorem filterMap_skip_filter {α β : Type} (F : α → Option β)
    (pred : α → Bool) (hF : ∀ a, pred a = false → F a = none) :
    ∀ l : List α, l.filterMap F = (l.filter pred).filterMap F := by
  intro l
  induction l with
  | nil => simp
  | cons a t ih =>
    cases hp : pred a with
    | false =>
      rw [List.filter_cons_of_neg (by simp [hp]), List.filterMap_cons,
        hF a hp, ih]
    | true =>
      rw [List.filter_cons_of_pos (by simp [hp]), List.filterMap_cons,
        List.filterMap_cons, ih]

/-- `totalSize` below a nonempty root only depends on the map the
filesystem denotes. -/
theorem totalSize_eq_of_get {fs1 fs2 : FS} {root : Path} (hroot : root ≠ [])
    (hn1 : keysNodup fs1) (hn2 : keysNodup fs2)
    (h : ∀ q, root <+: q → FS.get fs1 q = FS.get fs2 q) :
    totalSize fs1 root = totalSize fs2 root := by
  have hpairs1 : fs1.Nodup := List.Nodup.of_map _ hn1
  have hpairs2 : fs2.Nodup := List.Nodup.of_map _ hn2
  have hkey_ne : ∀ kv : Path × Entry, root.isPrefixOf kv.1 = true →
      kv.1 ≠ [] := by
    intro kv hkv he
    rw [List.isPrefixOf_iff_prefix] at hkv
    rw [he] at hkv
    exact hroot (List.prefix_nil.mp hkv)
  have hmem : ∀ kv : Path × Entry,
      kv ∈ fs1.filter (fun kv => root.isPrefixOf kv.1) ↔
      kv ∈ fs2.filter (fun kv => root.isPrefixOf kv.1) := by
    intro kv
    rw [List.mem_filter, List.mem_filter]
    constructor
    · rintro ⟨hm, hp⟩
      refine ⟨?_, hp⟩
      have hne := hkey_ne kv hp
      have hpre : root <+: kv.1 := List.isPrefixOf_iff_prefix.mp hp
      have hg1 : FS.get fs1 kv.1 = some kv.2 :=
        (get_eq_some_iff hn1 hne).mpr (by simpa using hm)
      rw [h kv.1 hpre] at hg1
      have := (get_eq_some_iff hn2 hne).mp hg1
      simpa using this
    · rintro ⟨hm, hp⟩
      refine ⟨?_, hp⟩
      have hne := hkey_ne kv hp
      have hpre : root <+: kv.1 := List.isPrefixOf_iff_prefix.mp hp
      have hg2 : FS.get fs2 kv.1 = some kv.2 :=
        (get_eq_some_iff hn2 hne).mpr (by simpa using hm)
      rw [← h kv.1 hpre] at hg2
      have := (get_eq_some_iff hn1 hne).mp hg2
      simpa using this
  have hperm : List.Perm (fs1.filter (fun kv => root.isPrefixOf kv.1))
      (fs2.filter (fun kv => root.isPrefixOf kv.1)) := by
    rw [List.perm_ext_iff_of_nodup (hpairs1.filter _) (hpairs2.filter _)]
    exact hmem
  unfold totalSize
  rw [filterMap_skip_filter _ (fun kv => root.isPrefixOf kv.1)
      (by intro kv hkv; simp [hkv]) fs1,
    filterMap_skip_filter _ (fun kv => root.isPrefixOf kv.1)
      (by intro kv hkv; simp [hkv]) fs2,
    foldr_add_eq_sum, foldr_add_eq_sum]
  exact (hperm.filterMap _).sum_eq

/-- The expected cache contents after saving a directory of `names`
identical large files: the directory chain down the mirror, the
`large_files` directory, one blob, and one pointer record per name. -/
def c2chain (cfg : Cfg) (p : LPath) : FS :=
  (List.range ((mirrorTag p :: p.comps).length + 1)).map
    (fun i => (cfg.cache ++ (mirrorTag p :: p.comps).take i, Entry.dir))

def c2model (cfg : Cfg) (p : LPath) (c : Bytes) (names : List String) : FS :=
  c2chain cfg p
    ++ [(cfg.cache ++ ["large_files"], Entry.dir),
        (blobPath cfg c, Entry.file c)]
    ++ names.map (fun n => (mirrorRoot cfg p ++ [n], Entry.file (ptrRecord c)))

theorem c2chain_mem {cfg : Cfg} {p : LPath} {kv : Path × Entry} :
    kv ∈ c2chain cfg p ↔
      (cfg.cache <+: kv.1 ∧ kv.1 <+: mirrorRoot cfg p ∧ kv.2 = Entry.dir) := by
  unfold c2chain
  rw [List.mem_map]
  constructor
  · rintro ⟨i, hi, he⟩
    rw [← he]
    refine ⟨List.prefix_append _ _, ?_, rfl⟩
    rw [mirrorRoot_eq]
    exact prefix_append_cancel.mpr (List.take_prefix i _)
  · rintro ⟨h1, h2, h3⟩
    obtain ⟨w, hw⟩ := h1
    rw [mirrorRoot_eq] at h2
    rw [← hw] at h2
    have hwp : w <+: mirrorTag p :: p.comps := prefix_append_cancel.mp h2
    refine ⟨w.length, ?_, ?_⟩
    · rw [List.mem_range]
      have := hwp.length_le
      omega
    · rw [← List.prefix_iff_eq_take.mp hwp, hw]
      cases kv with
      | mk k v =>
        simp only at h3
        rw [h3]

theorem sum_filterMap_of_const {α : Type} (F : α → Option Nat) (w : Nat) :
    ∀ L : List α, (∀ a ∈ L, F a = some w) →
      (L.filterMap F).sum = L.length * w := by
  intro L
  induction L with
  | nil => simp
  | cons a t ih =>
    intro h
    rw [List.filterMap_cons, h a (by simp)]
    simp only [List.sum_cons, List.length_cons]
    rw [ih (fun b hb => h b (by simp [hb]))]
    ring

theorem take_chain_ne_lf_chain {cfg : Cfg} {p : LPath} {i : Nat} {w : Path}
    (h : cfg.cache ++ (mirrorTag p :: p.comps).take i =
      cfg.cache ++ "large_files" :: w) : False := by
  have h2 := List.append_cancel_left h
  cases i with
  | zero => simp at h2
  | succ j =>
    rw [List.take_succ_cons] at h2
    have := (List.cons.injEq _ _ _ _).mp h2
    exact mirrorTag_ne_lf p this.1

theorem mirror_ext_ne_lf_cons {cfg : Cfg} {p : LPath} {n : String}
    {w : Path} : mirrorRoot cfg p ++ [n] ≠ cfg.cache ++ "large_files" :: w := by
  intro h
  rw [mirrorRoot_eq, List.append_assoc] at h
  have h2 := List.append_cancel_left h
  rw [List.cons_append] at h2
  have h3 := (List.cons.injEq _ _ _ _).mp h2
  exact mirrorTag_ne_lf p h3.1

theorem prefix_antisymm {p q : Path} (h1 : p <+: q) (h2 : q <+: p) :
    p = q :=
  List.IsPrefix.eq_of_length h1 (le_antisymm h1.length_le h2.length_le)

theorem c2model_keysNodup {cfg : Cfg} {p : LPath} {c : Bytes}
    {names : List String} (hnd : names.Nodup) :
    keysNodup (c2model cfg p c names) := by
  unfold keysNodup c2model c2chain
  rw [List.map_append, List.map_append, List.map_map, List.map_map]
  apply List.Nodup.append
  · apply List.Nodup.append
    · apply List.Nodup.map_on
      · intro i hi j hj he
        simp only [Function.comp] at he
        have h2 := List.append_cancel_left he
        have hle : i ≤ (mirrorTag p :: p.comps).length := by
          rw [List.mem_range] at hi; omega
        have hle2 : j ≤ (mirrorTag p :: p.comps).length := by
          rw [List.mem_range] at hj; omega
        have := congrArg List.length h2
        rw [List.length_take, List.length_take] at this
        omega
      · exact List.nodup_range _
    · simp only [List.map_cons, List.map_nil, List.nodup_cons,
        List.mem_singleton, List.not_mem_nil, not_false_iff,
        List.nodup_nil, and_true]
      intro h
      unfold blobPath at h
      have h2 := List.append_cancel_left h
      simp at h2
    · intro q h1 h2
      simp only [List.mem_map, Function.comp] at h1
      obtain ⟨i, _, he⟩ := h1
      simp only [List.map_cons, List.map_nil, List.mem_cons,
        List.mem_singleton, List.not_mem_nil, or_false] at h2
      rcases h2 with h2 | h2
      · rw [h2] at he
        exact take_chain_ne_lf_chain (w := []) he
      · rw [h2] at he
        exact take_chain_ne_lf_chain (w := [blake3Hex c]) he
  · apply List.Nodup.map_on
    · intro n hn m hm he
      simp only [Function.comp] at he
      have := List.append_cancel_left he
      simpa using this
    · exact hnd
  · intro q h1 h2
    simp only [List.mem_map, Function.comp] at h2
    obtain ⟨n, _, he⟩ := h2
    rw [← he] at h1
    rcases List.mem_append.mp h1 with h3 | h3
    · simp only [List.mem_map, Function.comp] at h3
      obtain ⟨i, _, hi⟩ := h3
      have h4 : mirrorRoot cfg p ++ [n] =
          cfg.cache ++ (mirrorTag p :: p.comps).take i := hi.symm
      rw [mirrorRoot_eq, List.append_assoc] at h4
      have h5 := List.append_cancel_left h4
      have := congrArg List.length h5
      rw [List.length_take] at this
      simp only [List.length_append, List.length_cons] at this
      omega
    · simp only [List.map_cons, List.map_nil, List.mem_cons,
        List.mem_singleton, List.not_mem_nil, or_false] at h3
      rcases h3 with h3 | h3
      · exact mirror_ext_ne_lf_cons (w := []) h3
      · exact mirror_ext_ne_lf_cons (w := [blake3Hex c]) h3

theorem cache_prefix_model_key (cfg : Cfg) (p : LPath) (n : String) :
    cfg.cache <+: mirrorRoot cfg p ++ [n] := by
  rw [mirrorRoot_eq]
  exact (List.prefix_append _ _).trans (List.prefix_append _ _)

theorem c2model_size (cfg : Cfg) (p : LPath) (c : Bytes)
    (names : List String) :
    totalSize (c2model cfg p c names) cfg.cache =
      Bytes.len c + names.length * (HASHED_FILE_PREFIX.length + 64) := by
  unfold totalSize c2model
  rw [List.filterMap_append, List.filterMap_append, foldr_add_eq_sum,
    List.sum_append, List.sum_append]
  have hchain : ((c2chain cfg p).filterMap (fun kv =>
      if cfg.cache.isPrefixOf kv.1 then
        match kv.2 with
        | .file c2 => some (Bytes.len c2)
        | .dir => some 0
      else none)).sum = 0 := by
    rw [sum_filterMap_of_const _ 0]
    · simp
    · intro kv hkv
      obtain ⟨h1, _, h3⟩ := c2chain_mem.mp hkv
      rw [if_pos (List.isPrefixOf_iff_prefix.mpr h1), h3]
  have hnames : ((names.map (fun n =>
      (mirrorRoot cfg p ++ [n], Entry.file (ptrRecord c)))).filterMap
      (fun kv =>
        if cfg.cache.isPrefixOf kv.1 then
          match kv.2 with
          | .file c2 => some (Bytes.len c2)
          | .dir => some 0
        else none)).sum = names.length * 77 := by
    rw [sum_filterMap_of_const _ 77]
    · simp
    · intro kv hkv
      obtain ⟨n, _, he⟩ := List.mem_map.mp hkv
      rw [← he]
      simp only
      rw [if_pos (List.isPrefixOf_iff_prefix.mpr (cache_prefix_model_key cfg p n))]
      show some (Bytes.len (ptrRecord c)) = some 77
      rw [ptrRecord_len]
  rw [hchain, hnames]
  have hmid : (([(cfg.cache ++ ["large_files"], Entry.dir),
      (blobPath cfg c, Entry.file c)] : FS).filterMap (fun kv =>
        if cfg.cache.isPrefixOf kv.1 then
          match kv.2 with
          | .file c2 => some (Bytes.len c2)
          | .dir => some 0
        else none)).sum = Bytes.len c := by
    rw [List.filterMap_cons, List.filterMap_cons, List.filterMap_nil]
    rw [if_pos (List.isPrefixOf_iff_prefix.mpr (List.prefix_append _ _))]
    simp only
    rw [if_pos (List.isPrefixOf_iff_prefix.mpr
      (by unfold blobPath; exact List.prefix_append _ _))]
    simp
  rw [hmid, prefix_length]
  ring

/-! ### Claim C2 -/

/-- C2: saving a directory of `N ≥ 1` byte-identical files, each at
least `DEDUPLICATE_LARGER_THAN` bytes, into a fresh cache succeeds and
results in *exactly one* blob under `large_files/`, named by the
lowercase-hex BLAKE3 digest of the shared content and holding exactly
that content; the total on-disk bytes below the cache root equal the
blob size plus `N * (len(HASHED_FILE_PREFIX) + 64)`. -/
theorem dedup_identical_contents (cfg : Cfg) (fs : FS) (p : LPath)
    (c : Bytes) (names : List String)
    (hg : goodTree fs)
    (hfresh : ∀ q, cfg.cache <+: q → FS.get fs q = none)
    (hcs : ¬ cfg.cache <+: srcRoot cfg p)
    (hsc : ¬ srcRoot cfg p <+: cfg.cache)
    (hcpref : ∀ q c2, q <+: cfg.cache → FS.get fs q ≠ some (Entry.file c2))
    (hsub : ∀ r, FS.get fs (srcRoot cfg p ++ r) =
      if r = [] then some Entry.dir
      else if ∃ n ∈ names, r = [n] then some (Entry.file c) else none)
    (hlarge : ¬ Bytes.len c < DEDUPLICATE_LARGER_THAN)
    (hnd : names.Nodup)
    (hN : 1 ≤ names.length) :
    ∃ fs2 t k, (∀ fuel, k ≤ fuel → save cfg fuel fs p = .ok (fs2, t)) ∧
      (∀ h2, FS.get fs2 (cfg.cache ++ ["large_files", h2]) ≠ none ↔
        h2 = blake3Hex c) ∧
      FS.get fs2 (cfg.cache ++ ["large_files", blake3Hex c]) =
        some (Entry.file c) ∧
      totalSize fs2 cfg.cache =
        Bytes.len c + names.length * (HASHED_FILE_PREFIX.length + 64) := by
  have hcne : cfg.cache ≠ [] := by
    intro h
    have := hfresh [] (by rw [h])
    rw [get_nil] at this
    simp at this
  have hsrcdir : FS.get fs (srcRoot cfg p) = some Entry.dir := by
    have := hsub []
    simpa using this
  have hfile_c : ∀ r c2, FS.get fs (srcRoot cfg p ++ r) =
      some (Entry.file c2) → c2 = c := by
    intro r c2 hr
    rw [hsub r] at hr
    by_cases h1 : r = []
    · rw [if_pos h1] at hr; simp at hr
    · rw [if_neg h1] at hr
      by_cases h2 : ∃ n ∈ names, r = [n]
      · rw [if_pos h2] at hr
        simpa using hr.symm
      · rw [if_neg h2] at hr; simp at hr
  have hroot : SaveRootHyps cfg fs p := by
    refine ⟨hg, hsrcdir, hfresh, hcs, hsc, hcpref, ?_, ?_⟩
    · intro r c2 hr
      rw [hfile_c r c2 hr]
      exact not_isPtrRecord_of_large hlarge
    · intro r1 r2 c1 c2 h1 h2 _ _ _
      rw [hfile_c r1 c1 h1, hfile_c r2 c2 h2]
  obtain ⟨fs2, t, k, hsave, hg2, M1, M2, M3, M5, M6, M7⟩ := save_spec cfg fs p hroot
  obtain ⟨n0, hn0⟩ := List.exists_mem_of_length_pos (by omega : 0 < names.length)
  have hsub_n : ∀ n, n ∈ names → FS.get fs (srcRoot cfg p ++ [n]) =
      some (Entry.file c) := by
    intro n hn
    rw [hsub [n], if_neg (by simp), if_pos ⟨n, hn, rfl⟩]
  have hblob : FS.get fs2 (blobPath cfg c) = some (Entry.file c) :=
    M2 [n0] c (hsub_n n0 hn0) hlarge
  have hcond_all : ∀ h2, h2 ≠ blake3Hex c →
      ∀ r c2, FS.get fs (srcRoot cfg p ++ r) = some (Entry.file c2) →
      ¬ Bytes.len c2 < DEDUPLICATE_LARGER_THAN → blake3Hex c2 ≠ h2 := by
    intro h2 hne r c2 hr _
    rw [hfile_c r c2 hr]
    exact fun h => hne h.symm
  refine ⟨fs2, t, k, hsave, ?_, hblob, ?_⟩
  · intro h2
    constructor
    · intro hne
      by_contra hneq
      rw [M3 h2 (hcond_all h2 hneq), hfresh _ (List.prefix_append _ _)] at hne
      exact hne rfl
    · intro he
      rw [he]
      have : cfg.cache ++ ["large_files", blake3Hex c] = blobPath cfg c := rfl
      rw [this, hblob]
      simp
  · have hagree : ∀ q, cfg.cache <+: q →
        FS.get fs2 q = FS.get (c2model cfg p c names) q := by
      intro q hcq
      have hqne : q ≠ [] := by
        intro h
        rw [h] at hcq
        exact hcne (List.prefix_nil.mp hcq)
      have hmn := @c2model_keysNodup cfg p c _ hnd
      by_cases h1 : q <+: mirrorRoot cfg p
      · rw [M6 q h1]
        symm
        rw [get_eq_some_iff hmn hqne]
        unfold c2model
        exact List.mem_append.mpr (Or.inl (List.mem_append.mpr
          (Or.inl (c2chain_mem.mpr ⟨hcq, h1, rfl⟩))))
      · by_cases h2 : q = cfg.cache ++ ["large_files"]
        · rw [h2, M7]
          symm
          rw [get_eq_some_iff hmn (by rw [← h2]; exact hqne)]
          unfold c2model
          exact List.mem_append.mpr (Or.inl (List.mem_append.mpr
            (Or.inr (by simp))))
        · by_cases h3 : q = blobPath cfg c
          · rw [h3, hblob]
            symm
            rw [get_eq_some_iff hmn (by rw [← h3]; exact hqne)]
            unfold c2model
            exact List.mem_append.mpr (Or.inl (List.mem_append.mpr
              (Or.inr (by simp))))
          · by_cases h4 : ∃ n ∈ names, q = mirrorRoot cfg p ++ [n]
            · obtain ⟨n, hn, he⟩ := h4
              subst he
              have := M1 [n]
              rw [hsub_n n hn] at this
              rw [this]
              have hmv : mirrorEntry (Entry.file c) =
                  Entry.file (ptrRecord c) := by
                simp only [mirrorEntry]
                rw [if_neg hlarge]
              rw [show Option.map mirrorEntry (some (Entry.file c)) =
                some (mirrorEntry (Entry.file c)) from rfl, hmv]
              symm
              rw [get_eq_some_iff hmn (by simp)]
              unfold c2model
              exact List.mem_append.mpr (Or.inr
                (List.mem_map.mpr ⟨n, hn, rfl⟩))
            · have hfs2none : FS.get fs2 q = none := by
                by_cases h5 : mirrorRoot cfg p <+: q
                · rcases subtree_decomp h5 with he | ⟨b, r, he⟩
                  · exact absurd (he ▸ List.prefix_refl _) h1
                  · subst he
                    have := M1 (b :: r)
                    rw [hsub (b :: r), if_neg (by simp)] at this
                    rw [if_neg ?hno] at this
                    · rw [this]
                      rfl
                    case hno =>
                      rintro ⟨n, hn, he2⟩
                      apply h4
                      refine ⟨n, hn, ?_⟩
                      rw [he2]
                · by_cases h6 : ∃ h7, q = cfg.cache ++ ["large_files", h7]
                  · obtain ⟨h7, he⟩ := h6
                    subst he
                    have hne7 : h7 ≠ blake3Hex c := by
                      intro h
                      exact h3 (by rw [h]; rfl)
                    rw [M3 h7 (hcond_all h7 hne7)]
                    exact hfresh _ (List.prefix_append _ _)
                  · have hnl : ¬ q <+: cfg.cache ++ ["large_files"] := by
                      intro h
                      rcases prefix_concat_cases h with h8 | h8
                      · have heq : q = cfg.cache := prefix_antisymm h8 hcq
                        apply h1
                        rw [heq]
                        rw [mirrorRoot_eq]
                        exact List.prefix_append _ _
                      · exact h2 h8
                    rw [M5 q h5 h1 (fun h7 he => h6 ⟨h7, he⟩) hnl]
                    exact hfresh q hcq
              rw [hfs2none]
              symm
              rw [get_eq_none_iff hqne]
              intro e hmem
              unfold c2model at hmem
              rcases List.mem_append.mp hmem with hm | hm
              · rcases List.mem_append.mp hm with hm | hm
                · obtain ⟨_, hq2, _⟩ := c2chain_mem.mp hm
                  exact h1 hq2
                · simp only [List.mem_cons, List.mem_singleton,
                    List.not_mem_nil, or_false] at hm
                  rcases hm with hm | hm
                  · exact h2 (congrArg Prod.fst hm)
                  · exact h3 (congrArg Prod.fst hm)
              · obtain ⟨n, hn, he⟩ := List.mem_map.mp hm
                apply h4
                exact ⟨n, hn, (congrArg Prod.fst he).symm⟩
    rw [totalSize_eq_of_get hcne hg2.1
      (c2model_keysNodup hnd) hagree]
    exact c2model_size cfg p c names

/-! ### Decidable sufficient conditions for the root hypotheses -/

theorem goodTree_of_inits (fs : FS) (h1 : keysNodup fs)
    (h2 : ∀ kv ∈ fs, ∀ w ∈ kv.1.inits, w ≠ kv.1 →
      w = [] ∨ (w, Entry.dir) ∈ fs) :
    goodTree fs := by
  refine ⟨h1, ?_⟩
  intro p e hget q hq hqe
  by_cases hp : p = []
  · subst hp
    exact absurd (List.prefix_nil.mp hq) hqe
  · have hmem := (get_eq_some_iff h1 hp).mp hget
    rcases h2 (p, e) hmem q ((List.mem_inits _ _).mpr hq) hqe with h3 | h3
    · rw [h3, get_nil]
    · by_cases hq0 : q = []
      · rw [hq0, get_nil]
      · exact (get_eq_some_iff h1 hq0).mpr h3

theorem fresh_of_not_under (fs : FS) (root : Path) (hroot : root ≠ [])
    (h : ∀ kv ∈ fs, ¬ root.isPrefixOf kv.1) :
    ∀ q, root <+: q → FS.get fs q = none := by
  intro q hq
  have hqne : q ≠ [] := by
    intro he
    rw [he] at hq
    exact hroot (List.prefix_nil.mp hq)
  rw [get_eq_none_iff hqne]
  intro e hmem
  exact h (q, e) hmem (List.isPrefixOf_iff_prefix.mpr hq)

/-- No file entry at this path. -/
def noFileAt (fs : FS) (w : Path) : Prop :=
  ∀ c2, FS.get fs w ≠ some (Entry.file c2)

instance (fs : FS) (w : Path) : Decidable (noFileAt fs w) :=
  match hg : FS.get fs w with
  | some (Entry.file c) => .isFalse (by intro h; exact h c hg)
  | some Entry.dir => .isTrue (by intro c2 h; rw [hg] at h; simp at h)
  | none => .isTrue (by intro c2 h; rw [hg] at h; simp at h)

theorem nofile_of_inits (fs : FS) (root : Path)
    (h : ∀ w ∈ root.inits, noFileAt fs w) :
    ∀ q c2, q <+: root → FS.get fs q ≠ some (Entry.file c2) := by
  intro q c2 hq
  exact h q ((List.mem_inits _ _).mpr hq) c2

theorem subtree_shape (fs : FS) (src : Path) (names : List String)
    (c : Bytes) (hn : keysNodup fs) (hsrcne : src ≠ [])
    (hdir : FS.get fs src = some Entry.dir)
    (hfiles : ∀ n ∈ names, FS.get fs (src ++ [n]) = some (Entry.file c))
    (honly : ∀ kv ∈ fs, src.isPrefixOf kv.1 →
      kv.1 = src ∨ ∃ n ∈ names, kv.1 = src ++ [n]) :
    ∀ r, FS.get fs (src ++ r) = if r = [] then some Entry.dir
      else if ∃ n ∈ names, r = [n] then some (Entry.file c) else none := by
  intro r
  by_cases h1 : r = []
  · rw [if_pos h1, h1, List.append_nil]
    exact hdir
  · rw [if_neg h1]
    by_cases h2 : ∃ n ∈ names, r = [n]
    · rw [if_pos h2]
      obtain ⟨n, hn2, he⟩ := h2
      rw [he]
      exact hfiles n hn2
    · rw [if_neg h2]
      have hne : src ++ r ≠ [] := by simp [hsrcne]
      rw [get_eq_none_iff hne]
      intro e hmem
      have := honly (src ++ r, e) hmem
        (List.isPrefixOf_iff_prefix.mpr (List.prefix_append _ _))
      simp only at this
      rcases this with h3 | ⟨n, hn3, h3⟩
      · apply h1
        have : src ++ r = src ++ [] := by rw [List.append_nil]; exact h3
        exact List.append_cancel_left this
      · apply h2
        exact ⟨n, hn3, List.append_cancel_left h3⟩

/-- 1024 zero bytes. -/
def bigz : Bytes := List.replicate 1024 0

/-- Two identical 1024-byte files in a directory. -/
def fsC2 : FS := [(["src"], .dir), (["src", "a"], .file bigz),
  (["src", "b"], .file bigz)]

set_option maxRecDepth 6000 in
theorem dedup_identical_contents_witness :
    ∃ fs2 t k,
      (∀ fuel, k ≤ fuel → save cfg0 fuel fsC2 ⟨true, ["src"]⟩ =
        .ok (fs2, t)) ∧
      (∀ h2, FS.get fs2 (cfg0.cache ++ ["large_files", h2]) ≠ none ↔
        h2 = blake3Hex bigz) ∧
      FS.get fs2 (cfg0.cache ++ ["large_files", blake3Hex bigz]) =
        some (Entry.file bigz) ∧
      totalSize fs2 cfg0.cache =
        Bytes.len bigz +
          (["a", "b"] : List String).length *
            (HASHED_FILE_PREFIX.length + 64) :=
  dedup_identical_contents cfg0 fsC2 ⟨true, ["src"]⟩ bigz ["a", "b"]
    (goodTree_of_inits fsC2 (by decide) (by decide))
    (fresh_of_not_under fsC2 cfg0.cache (by decide) (by decide))
    (by decide) (by decide)
    (nofile_of_inits fsC2 cfg0.cache (by decide))
    (subtree_shape fsC2 (srcRoot cfg0 ⟨true, ["src"]⟩) ["a", "b"] bigz
      (by decide) (by decide) (by decide) (by decide) (by decide))
    (by decide) (by decide) (by decide)

/-! ### Pointer records round-trip through `from_hex` -/

theorem hexChar_good : ∀ m < 16,
    isHexByte (hexChar m).toNat = true ∧
    lowerHexByte (hexChar m).toNat = (hexChar m).toNat ∧
    Char.ofNat (hexChar m).toNat = hexChar m := by decide

theorem toHex64_mem {n : Nat} {ch : Char} (h : ch ∈ toHex64 n) :
    ∃ m, m < 16 ∧ ch = hexChar m := by
  unfold toHex64 at h
  rw [List.mem_map] at h
  obtain ⟨i, _, hi⟩ := h
  exact ⟨_, Nat.mod_lt _ (by norm_num), hi.symm⟩

/-- The hex digest written into a pointer record parses back
(`blake3::Hash::from_hex`) and redisplays as itself. -/
theorem hexNormalize_blake3 (c : Bytes) :
    hexNormalize (strBytes (blake3Hex c)) = some (blake3Hex c) := by
  have hdata : (blake3Hex c).data = toHex64 (hashAcc 1 c) := rfl
  have hmem : ∀ ch ∈ (blake3Hex c).data, ∃ m, m < 16 ∧ ch = hexChar m := by
    rw [hdata]
    exact fun ch hch => toHex64_mem hch
  unfold hexNormalize
  rw [if_pos]
  · congr 1
    show String.mk _ = String.mk (toHex64 (hashAcc 1 c))
    congr 1
    unfold strBytes
    rw [List.map_map, ← hdata]
    have : ∀ ch ∈ (blake3Hex c).data,
        ((fun b => Char.ofNat (lowerHexByte b)) ∘ Char.toNat) ch = id ch := by
      intro ch hch
      obtain ⟨m, hm, rfl⟩ := hmem ch hch
      have h2 := hexChar_good m hm
      show Char.ofNat (lowerHexByte (hexChar m).toNat) = hexChar m
      rw [h2.2.1, h2.2.2]
    rw [List.map_congr_left this, List.map_id]
  · constructor
    · rw [strBytes_length, blake3Hex_length]
    · rw [List.all_eq_true]
      intro b hb
      unfold strBytes at hb
      rw [List.mem_map] at hb
      obtain ⟨ch, hch, hbe⟩ := hb
      obtain ⟨m, hm, rfl⟩ := hmem ch hch
      rw [← hbe]
      exact (hexChar_good m hm).1

theorem ptrRecord_drop (c : Bytes) :
    (ptrRecord c).drop HASHED_FILE_PREFIX.length = strBytes (blake3Hex c) := by
  unfold ptrRecord
  exact List.drop_left _ _

theorem isPtrRecord_ptrRecord (c : Bytes) : isPtrRecord (ptrRecord c) := by
  constructor
  · rw [ptrRecord_len, prefix_length]
  · rw [List.isPrefixOf_iff_prefix]
    exact List.prefix_append _ _

theorem ptrRecord_small (c : Bytes) :
    Bytes.len (ptrRecord c) < DEDUPLICATE_LARGER_THAN := by
  rw [ptrRecord_len]
  norm_num [DEDUPLICATE_LARGER_THAN]

/-! ### Deleting the original tree -/

theorem deleteTree_cons (kv : Path × Entry) (t : FS) (p : Path) :
    deleteTree (kv :: t) p =
      if p <+: kv.1 then deleteTree t p else kv :: deleteTree t p := by
  unfold deleteTree
  by_cases h : p <+: kv.1
  · rw [if_pos h, List.filter_cons_of_neg]
    simp [List.isPrefixOf_iff_prefix, h]
  · rw [if_neg h, List.filter_cons_of_pos]
    simp [List.isPrefixOf_iff_prefix, h]

theorem get_deleteTree (fs : FS) (p q : Path) (hp : p ≠ []) :
    FS.get (deleteTree fs p) q = if p <+: q then none else FS.get fs q := by
  by_cases hq : q = []
  · subst hq
    rw [if_neg (fun h => hp (List.prefix_nil.mp h)), get_nil, get_nil]
  · induction fs with
    | nil =>
      show FS.get [] q = _
      by_cases h : p <+: q
      · rw [if_pos h]
        simp [FS.get, if_neg hq, List.find?]
      · rw [if_neg h]
    | cons kv t ih =>
      rw [deleteTree_cons]
      by_cases h1 : p <+: kv.1
      · rw [if_pos h1, ih, get_cons kv t q hq]
        by_cases h2 : p <+: q
        · rw [if_pos h2, if_pos h2]
        · rw [if_neg h2, if_neg h2, if_neg]
          intro he
          exact h2 (he ▸ h1)
      · rw [if_neg h1, get_cons _ _ q hq, get_cons kv t q hq]
        by_cases h2 : kv.1 = q
        · rw [if_pos h2, if_pos h2, if_neg]
          intro h3
          exact h1 (h2 ▸ h3)
        · rw [if_neg h2, if_neg h2, ih]

theorem goodTree_deleteTree {fs : FS} (hg : goodTree fs) {p : Path}
    (hp : p ≠ []) : goodTree (deleteTree fs p) := by
  constructor
  · exact ((List.filter_sublist fs).map Prod.fst).nodup hg.1
  · intro q e hget w hw hwe
    rw [get_deleteTree fs p q hp] at hget
    by_cases h1 : p <+: q
    · rw [if_pos h1] at hget
      simp at hget
    · rw [if_neg h1] at hget
      rw [get_deleteTree fs p w hp, if_neg, hg.2 q e hget w hw hwe]
      intro h2
      exact h1 (h2.trans hw)

/-- The filesystem location `load` writes a mirror zone back onto
(`/` for `{cache}/absolute`, the working directory for
`{cache}/relative`). -/
def dstRoot (cfg : Cfg) (p : LPath) : Path :=
  if p.absolute then [] else cfg.pwd

theorem srcRoot_eq_dst (cfg : Cfg) (p : LPath) :
    srcRoot cfg p = dstRoot cfg p ++ p.comps := by
  unfold srcRoot dstRoot
  by_cases h : p.absolute <;> simp [h]

theorem mirrorRoot_tag (cfg : Cfg) (p : LPath) :
    mirrorRoot cfg p = (cfg.cache ++ [mirrorTag p]) ++ p.comps := by
  rw [mirrorRoot_eq]
  simp

/-! ### The load side: copying out of the cache -/

/-- Hypotheses under which one `copy_into` job out of the cache
faithfully materialises a mirror subtree: the source lies inside the
cache, every write target lies outside it, all mirror files are below
the threshold, pointer records resolve, and the destination is
image-compatible (no directory where a file must go and vice versa). -/
structure LoadHyps (cfg : Cfg) (fs : FS) (src dst : Path) : Prop where
  hg : goodTree fs
  hsome : FS.get fs src ≠ none
  hsrccache : cfg.cache <+: src
  hcne : cfg.cache ≠ []
  himg : ∀ r, FS.get fs (src ++ r) ≠ none → r ≠ [] →
    ¬ cfg.cache <+: dst ++ r
  hdstchain : ∀ q, q <+: dst → ¬ cfg.cache <+: q
  hdstpref : FS.get fs src = some .dir →
    ∀ q c, q <+: dst → FS.get fs q ≠ some (Entry.file c)
  hsmallf : ∀ r m, FS.get fs (src ++ r) = some (Entry.file m) →
    Bytes.len m < DEDUPLICATE_LARGER_THAN
  hres : ∀ r m, FS.get fs (src ++ r) = some (Entry.file m) → isPtrRecord m →
    ∃ hstr bc, hexNormalize (m.drop HASHED_FILE_PREFIX.length) = some hstr ∧
      FS.get fs (cfg.cache ++ ["large_files", hstr]) = some (Entry.file bc)
  hdirok : ∀ r, FS.get fs (src ++ r) = some Entry.dir →
    FS.get fs (dst ++ r) = none ∨ FS.get fs (dst ++ r) = some Entry.dir
  hfileok : ∀ r m, FS.get fs (src ++ r) = some (Entry.file m) →
    FS.get fs (dst ++ r) ≠ some Entry.dir
  hparent : FS.get fs src = some .dir ∨
    (dst ≠ [] ∧ FS.get fs dst.dropLast = some .dir)

/-- What one load job produces. -/
structure LoadConc (cfg : Cfg) (fs : FS) (src dst : Path) (fs2 : FS)
    (t : List WEvent) (k : Nat) : Prop where
  kont : ∀ fuel rest fsr tr, copyIntoAux cfg fuel fs2 rest = .ok (fsr, tr) →
    copyIntoAux cfg (fuel + k) fs ((src, dst) :: rest) = .ok (fsr, t ++ tr)
  hg2 : goodTree fs2
  rdir : ∀ r, FS.get fs (src ++ r) = some Entry.dir →
    FS.get fs2 (dst ++ r) = some Entry.dir
  rfile : ∀ r m, FS.get fs (src ++ r) = some (Entry.file m) →
    (¬ isPtrRecord m → FS.get fs2 (dst ++ r) = some (Entry.file m)) ∧
    (∀ hstr bc, isPtrRecord m →
      hexNormalize (m.drop HASHED_FILE_PREFIX.length) = some hstr →
      FS.get fs (cfg.cache ++ ["large_files", hstr]) = some (Entry.file bc) →
      FS.get fs2 (dst ++ r) = some (Entry.file bc))
  frame : ∀ q, (∀ r, ¬ (FS.get fs (src ++ r) ≠ none ∧ q = dst ++ r)) →
    ¬ q <+: dst → FS.get fs2 q = FS.get fs q
  chain : ∀ q, q <+: dst → q ≠ dst →
    FS.get fs2 q = some .dir ∨ FS.get fs2 q = FS.get fs q
  chaindir : FS.get fs src = some .dir → ∀ q, q <+: dst →
    FS.get fs2 q = some .dir

/-- Invariant of a load directory job's child loop. -/
structure LoadInv (cfg : Cfg) (fs : FS) (src dst : Path) (P : List String)
    (g : FS) : Prop where
  good : goodTree g
  dir1 : ∀ n ∈ P, ∀ r, FS.get fs (src ++ n :: r) = some Entry.dir →
    FS.get g (dst ++ n :: r) = some Entry.dir
  file1 : ∀ n ∈ P, ∀ r m, FS.get fs (src ++ n :: r) = some (Entry.file m) →
    (¬ isPtrRecord m → FS.get g (dst ++ n :: r) = some (Entry.file m)) ∧
    (∀ hstr bc, isPtrRecord m →
      hexNormalize (m.drop HASHED_FILE_PREFIX.length) = some hstr →
      FS.get fs (cfg.cache ++ ["large_files", hstr]) = some (Entry.file bc) →
      FS.get g (dst ++ n :: r) = some (Entry.file bc))
  none1 : ∀ n ∈ P, ∀ r, FS.get fs (src ++ n :: r) = none → r ≠ [] →
    FS.get g (dst ++ n :: r) = FS.get fs (dst ++ n :: r)
  todo : ∀ n, n ∉ P → ∀ r,
    FS.get g (dst ++ n :: r) = FS.get fs (dst ++ n :: r)
  frame : ∀ q, (∀ r, ¬ (FS.get fs (src ++ r) ≠ none ∧ r ≠ [] ∧ q = dst ++ r)) →
    ¬ q <+: dst → FS.get g q = FS.get fs q
  chain : ∀ q, q <+: dst → FS.get g q = some .dir

theorem load_cachepres {cfg : Cfg} {fs : FS} {src dst : Path}
    {P : List String} {g : FS} (hyp : LoadHyps cfg fs src dst)
    (inv : LoadInv cfg fs src dst P g) :
    ∀ q, cfg.cache <+: q → FS.get g q = FS.get fs q := by
  intro q hq
  apply inv.frame
  · rintro r ⟨hr1, hr2, hr3⟩
    exact hyp.himg r hr1 hr2 (hr3 ▸ hq)
  · intro h
    exact hyp.hdstchain q h hq

theorem load_srcpres {cfg : Cfg} {fs : FS} {src dst : Path}
    {P : List String} {g : FS} (hyp : LoadHyps cfg fs src dst)
    (inv : LoadInv cfg fs src dst P g) :
    ∀ r, FS.get g (src ++ r) = FS.get fs (src ++ r) := by
  intro r
  exact load_cachepres hyp inv _ (hyp.hsrccache.trans (List.prefix_append _ _))

theorem load_child_hyps {cfg : Cfg} {fs : FS} {src dst : Path}
    {P : List String} {g : FS} (hyp : LoadHyps cfg fs src dst)
    (inv : LoadInv cfg fs src dst P g) {n : String} (hnP : n ∉ P)
    (hn : FS.get fs (src ++ [n]) ≠ none) :
    LoadHyps cfg g (src ++ [n]) (dst ++ [n]) := by
  have hpres := load_srcpres hyp inv
  have hcp := load_cachepres hyp inv
  have htodo0 : FS.get g (dst ++ [n]) = FS.get fs (dst ++ [n]) := by
    have := inv.todo n hnP []
    simpa using this
  refine ⟨inv.good, ?_, ?_, hyp.hcne, ?_, ?_, ?_, ?_, ?_, ?_, ?_, ?_⟩
  · rw [hpres [n]]
    exact hn
  · exact hyp.hsrccache.trans (List.prefix_append _ _)
  · intro r hr hrne
    rw [← append_cons_eq, hpres (n :: r)] at hr
    rw [← append_cons_eq]
    exact hyp.himg (n :: r) hr (by simp)
  · intro q hq
    rcases prefix_concat_cases hq with h3 | h3
    · exact hyp.hdstchain q h3
    · rw [h3]
      exact hyp.himg [n] hn (by simp)
  · intro hdirg q c hq
    rw [hpres [n]] at hdirg
    rcases prefix_concat_cases hq with h3 | h3
    · rw [inv.chain q h3]
      simp
    · rw [h3, htodo0]
      rcases hyp.hdirok [n] hdirg with h4 | h4 <;> rw [h4] <;> simp
  · intro r m hm
    rw [← append_cons_eq, hpres (n :: r)] at hm
    exact hyp.hsmallf (n :: r) m hm
  · intro r m hm hptr
    rw [← append_cons_eq, hpres (n :: r)] at hm
    obtain ⟨hstr, bc, hhex, hblob⟩ := hyp.hres (n :: r) m hm hptr
    exact ⟨hstr, bc, hhex, by
      rw [hcp _ (List.prefix_append _ _)]
      exact hblob⟩
  · intro r hr
    rw [← append_cons_eq, hpres (n :: r)] at hr
    rw [← append_cons_eq, inv.todo n hnP r]
    exact hyp.hdirok (n :: r) hr
  · intro r m hm
    rw [← append_cons_eq, hpres (n :: r)] at hm
    rw [← append_cons_eq, inv.todo n hnP r]
    exact hyp.hfileok (n :: r) m hm
  · right
    refine ⟨by simp, ?_⟩
    rw [List.dropLast_concat]
    exact inv.chain dst (List.prefix_refl dst)

theorem load_inv_step {cfg : Cfg} {fs : FS} {src dst : Path}
    {P : List String} {g g2 : FS} {tc : List WEvent} {kc : Nat} {n : String}
    (hyp : LoadHyps cfg fs src dst)
    (inv : LoadInv cfg fs src dst P g)
    (hnP : n ∉ P)
    (hn : FS.get fs (src ++ [n]) ≠ none)
    (cc : LoadConc cfg g (src ++ [n]) (dst ++ [n]) g2 tc kc) :
    LoadInv cfg fs src dst (P ++ [n]) g2 := by
  have hpres := load_srcpres hyp inv
  have hcp := load_cachepres hyp inv
  have hframe_sub : ∀ (m : String) (r : Path), m ≠ n →
      FS.get g2 (dst ++ m :: r) = FS.get g (dst ++ m :: r) := by
    intro m r hmn
    apply cc.frame
    · rintro r2 ⟨_, he⟩
      simp only [List.append_assoc, List.cons_append, List.nil_append] at he
      have h4 := List.append_cancel_left (he : dst ++ m :: r = dst ++ n :: r2)
      simp at h4
      exact hmn h4.1
    · intro h
      have h4 : m :: r <+: [n] := by
        have h5 : dst ++ m :: r <+: dst ++ [n] := h
        exact prefix_append_cancel.mp h5
      exact hmn (cons_prefix_singleton h4).1
  refine ⟨cc.hg2, ?_, ?_, ?_, ?_, ?_, ?_⟩
  · intro m hm r hdir
    rcases List.mem_append.mp hm with hm2 | hm2
    · by_cases hmn : m = n
      · exact absurd (hmn ▸ hm2) hnP
      · rw [hframe_sub m r hmn]
        exact inv.dir1 m hm2 r hdir
    · simp at hm2
      subst hm2
      rw [append_cons_eq]
      apply cc.rdir
      rw [← append_cons_eq, hpres (m :: r)]
      exact hdir
  · intro m hm r mm hfile
    rcases List.mem_append.mp hm with hm2 | hm2
    · by_cases hmn : m = n
      · exact absurd (hmn ▸ hm2) hnP
      · rw [hframe_sub m r hmn]
        exact inv.file1 m hm2 r mm hfile
    · simp at hm2
      subst hm2
      have hgm : FS.get g ((src ++ [m]) ++ r) = some (Entry.file mm) := by
        rw [← append_cons_eq, hpres (m :: r)]
        exact hfile
      constructor
      · intro hnp
        rw [append_cons_eq]
        exact (cc.rfile r mm hgm).1 hnp
      · intro hstr bc hptr hhex hblob
        rw [append_cons_eq]
        apply (cc.rfile r mm hgm).2 hstr bc hptr hhex
        rw [hcp _ (List.prefix_append _ _)]
        exact hblob
  · intro m hm r hnone hrne
    rcases List.mem_append.mp hm with hm2 | hm2
    · by_cases hmn : m = n
      · exact absurd (hmn ▸ hm2) hnP
      · rw [hframe_sub m r hmn]
        exact inv.none1 m hm2 r hnone hrne
    · simp at hm2
      subst hm2
      have hg2e : FS.get g2 (dst ++ m :: r) = FS.get g (dst ++ m :: r) := by
        apply cc.frame
        · rintro r2 ⟨hr1, he⟩
          simp only [List.append_assoc, List.cons_append, List.nil_append] at he
          have h4 := List.append_cancel_left (he : dst ++ m :: r = dst ++ m :: r2)
          simp at h4
          subst h4
          rw [← append_cons_eq, hpres (m :: r), hnone] at hr1
          exact hr1 rfl
        · intro h
          have h4 : m :: r <+: [m] := prefix_append_cancel.mp h
          exact hrne (cons_prefix_singleton h4).2
      rw [hg2e]
      exact inv.todo m hnP r
  · intro m hm r
    have hmn : m ≠ n := by
      intro he
      exact hm (by rw [he]; exact List.mem_append.mpr (Or.inr (by simp)))
    have hmP : m ∉ P := fun h => hm (List.mem_append.mpr (Or.inl h))
    rw [hframe_sub m r hmn]
    exact inv.todo m hmP r
  · intro q h1 h2
    have hg2e : FS.get g2 q = FS.get g q := by
      apply cc.frame
      · rintro r2 ⟨hr1, he⟩
        rw [← append_cons_eq, hpres (n :: r2)] at hr1
        exact h1 (n :: r2) ⟨hr1, by simp, by simpa using he⟩
      · intro h
        rcases prefix_concat_cases h with h3 | h3
        · exact h2 h3
        · exact h1 [n] ⟨hn, by simp, h3⟩
    rw [hg2e]
    exact inv.frame q h1 h2
  · intro q hq
    cases hs : FS.get g (src ++ [n]) with
    | none =>
      rw [hpres [n]] at hs
      exact absurd hs hn
    | some e =>
      cases e with
      | dir =>
        exact cc.chaindir hs q (hq.trans (prefix_concat_self dst n))
      | file c =>
        have hne : q ≠ dst ++ [n] := by
          intro he
          have hlen := hq.length_le
          rw [he] at hlen
          simp at hlen
        rcases cc.chain q (hq.trans (prefix_concat_self dst n)) hne with h3 | h3
        · exact h3
        · rw [h3]
          exact inv.chain q hq

theorem loadChildren (cfg : Cfg) (H : Nat)
    (ihOuter : ∀ fs2 src2 dst2,
      (∀ r, FS.get fs2 (src2 ++ r) ≠ none → r.length < H) →
      LoadHyps cfg fs2 src2 dst2 →
      ∃ g2 t k, LoadConc cfg fs2 src2 dst2 g2 t k)
    (fs : FS) (src dst : Path) (hyp : LoadHyps cfg fs src dst)
    (hH : ∀ r, FS.get fs (src ++ r) ≠ none → r.length < H + 1) :
    ∀ (R P : List String) (g : FS),
      (P ++ R).Nodup →
      (∀ n ∈ R, FS.get fs (src ++ [n]) ≠ none) →
      LoadInv cfg fs src dst P g →
      ∃ g2 t k, LoadInv cfg fs src dst (P ++ R) g2 ∧
        (∀ fuel rest fsr tr, copyIntoAux cfg fuel g2 rest = .ok (fsr, tr) →
          copyIntoAux cfg (fuel + k) g
            (R.map (fun n => (src ++ [n], dst ++ [n])) ++ rest) =
            .ok (fsr, t ++ tr)) := by
  intro R
  induction R with
  | nil =>
    intro P g hnd hmem inv
    exact ⟨g, [], 0, by simpa using inv,
      fun fuel rest fsr tr h => by simpa using h⟩
  | cons n R ih =>
    intro P g hnd hmem inv
    have hnP : n ∉ P := by
      have hdisj := List.disjoint_of_nodup_append hnd
      intro h
      exact hdisj h (by simp)
    have hn : FS.get fs (src ++ [n]) ≠ none := hmem n (by simp)
    have hchyps := load_child_hyps hyp inv hnP hn
    have hHc : ∀ r, FS.get g ((src ++ [n]) ++ r) ≠ none → r.length < H := by
      intro r hr
      rw [← append_cons_eq, load_srcpres hyp inv (n :: r)] at hr
      have := hH (n :: r) hr
      simp at this
      omega
    obtain ⟨g1, tc, kc, cc⟩ := ihOuter g (src ++ [n]) (dst ++ [n]) hHc hchyps
    have inv1 := load_inv_step hyp inv hnP hn cc
    have hnd1 : ((P ++ [n]) ++ R).Nodup := by
      rw [List.append_assoc]
      exact hnd
    have hmem1 : ∀ m ∈ R, FS.get fs (src ++ [m]) ≠ none :=
      fun m hm => hmem m (by simp [hm])
    obtain ⟨g2, t2, k2, invF, KONT2⟩ := ih (P ++ [n]) g1 hnd1 hmem1 inv1
    refine ⟨g2, tc ++ t2, kc + k2, ?_, ?_⟩
    · rw [List.append_assoc] at invF
      exact invF
    · intro fuel rest fsr tr hrun
      have h2 := KONT2 fuel rest fsr tr hrun
      have h1 := cc.kont (fuel + k2)
        (R.map (fun m => (src ++ [m], dst ++ [m])) ++ rest) fsr (t2 ++ tr) h2
      have he : fuel + (kc + k2) = fuel + k2 + kc := by omega
      rw [he]
      simpa [List.append_assoc] using h1

/-- Main characterisation of one `copy_into` job out of the cache. -/
theorem loadJob (cfg : Cfg) : ∀ (H : Nat) (fs : FS) (src dst : Path),
    (∀ r, FS.get fs (src ++ r) ≠ none → r.length < H) →
    LoadHyps cfg fs src dst →
    ∃ fs2 t k, LoadConc cfg fs src dst fs2 t k := by
  intro H
  induction H with
  | zero =>
    intro fs src dst hH hyp
    exact absurd (hH [] (by simpa using hyp.hsome)) (by omega)
  | succ H ih =>
    intro fs src dst hH hyp
    cases hsrc : FS.get fs src with
    | none => exact absurd hsrc hyp.hsome
    | some e =>
      cases e with
      | file m =>
        have hpd : dst ≠ [] ∧ FS.get fs dst.dropLast = some .dir := by
          rcases hyp.hparent with h | h
          · rw [hsrc] at h; simp at h
          · exact h
        obtain ⟨hdne, hpar⟩ := hpd
        have hnd : FS.get fs dst ≠ some .dir := by
          have := hyp.hfileok [] m (by simpa using hsrc)
          simpa using this
        have hdeep : ∀ r, r ≠ [] → FS.get fs (src ++ r) = none :=
          fun r hr => goodTree_file_no_deep hyp.hg hsrc hr
        by_cases hptr : isPtrRecord m
        · obtain ⟨hstr, bc, hhex, hblob⟩ :=
            hyp.hres [] m (by simpa using hsrc) hptr
          have hstep := @copyFileStep_ptr cfg fs src dst m hstr bc
            hptr hhex hblob hdne hpar hnd
          refine ⟨FS.set fs dst (.file bc),
            [WEvent.copy (cfg.cache ++ ["large_files", hstr]) dst], 1,
            ?_, ?_, ?_, ?_, ?_, ?_, ?_⟩
          · intro fuel rest fsr tr hrun
            rw [copyIntoAux_cons_file hsrc, hstep]
            simp only
            rw [hrun]
          · exact goodTree_set hyp.hg hdne hpar (Or.inr hnd)
          · intro r hr
            cases r with
            | nil =>
              rw [List.append_nil, hsrc] at hr
              simp at hr
            | cons a r2 =>
              rw [hdeep (a :: r2) (by simp)] at hr
              simp at hr
          · intro r m2 hm2
            cases r with
            | nil =>
              rw [List.append_nil, hsrc] at hm2
              simp at hm2
              subst hm2
              constructor
              · intro hnp
                exact absurd hptr hnp
              · intro hstr2 bc2 _ hhex2 hblob2
                rw [hhex] at hhex2
                have hse : hstr = hstr2 := by simpa using hhex2
                subst hse
                rw [hblob] at hblob2
                have hbe : bc = bc2 := by simpa using hblob2
                subst hbe
                simp only [List.append_nil]
                exact get_set_self fs dst _ hdne
            | cons a r2 =>
              rw [hdeep (a :: r2) (by simp)] at hm2
              simp at hm2
          · intro q hq1 hq2
            apply get_set_ne
            intro he
            exact hq1 [] ⟨by rw [List.append_nil, hsrc]; simp,
              by rw [he, List.append_nil]⟩
          · intro q hq hqne
            right
            exact get_set_ne fs dst q _ hqne
          · intro hdir
            rw [hsrc] at hdir
            simp at hdir
        · have hsmall : Bytes.len m < DEDUPLICATE_LARGER_THAN :=
            hyp.hsmallf [] m (by simpa using hsrc)
          have hstep := @copyFileStep_small cfg fs src dst m
            hptr hsmall hsrc hdne hpar hnd
          refine ⟨FS.set fs dst (.file m), [WEvent.copy src dst], 1,
            ?_, ?_, ?_, ?_, ?_, ?_, ?_⟩
          · intro fuel rest fsr tr hrun
            rw [copyIntoAux_cons_file hsrc, hstep]
            simp only
            rw [hrun]
          · exact goodTree_set hyp.hg hdne hpar (Or.inr hnd)
          · intro r hr
            cases r with
            | nil =>
              rw [List.append_nil, hsrc] at hr
              simp at hr
            | cons a r2 =>
              rw [hdeep (a :: r2) (by simp)] at hr
              simp at hr
          · intro r m2 hm2
            cases r with
            | nil =>
              rw [List.append_nil, hsrc] at hm2
              simp at hm2
              subst hm2
              constructor
              · intro _
                simp only [List.append_nil]
                exact get_set_self fs dst _ hdne
              · intro hstr2 bc2 hptr2 _ _
                exact absurd hptr2 hptr
            | cons a r2 =>
              rw [hdeep (a :: r2) (by simp)] at hm2
              simp at hm2
          · intro q hq1 hq2
            apply get_set_ne
            intro he
            exact hq1 [] ⟨by rw [List.append_nil, hsrc]; simp,
              by rw [he, List.append_nil]⟩
          · intro q hq hqne
            right
            exact get_set_ne fs dst q _ hqne
          · intro hdir
            rw [hsrc] at hdir
            simp at hdir
      | dir =>
        obtain ⟨fs1, t1, hcd, hg1, hchar1, htr1⟩ :=
          createDirAll_spec fs dst hyp.hg (hyp.hdstpref hsrc)
        have hsrcpres1 : ∀ r, FS.get fs1 (src ++ r) = FS.get fs (src ++ r) := by
          intro r
          rw [hchar1, if_neg]
          rintro ⟨h4, _⟩
          apply hyp.hdstchain (src ++ r) h4
          exact hyp.hsrccache.trans (List.prefix_append _ _)
        have hbase : LoadInv cfg fs src dst [] fs1 := by
          refine ⟨hg1, by simp, by simp, by simp, ?_, ?_, ?_⟩
          · intro n _ r
            rw [hchar1, if_neg]
            rintro ⟨h4, _⟩
            have := h4.length_le
            simp at this
          · intro q h1 h2
            rw [hchar1, if_neg]
            rintro ⟨h4, _⟩
            exact h2 h4
          · intro q hq
            rw [hchar1]
            by_cases hmiss : FS.get fs q = none
            · rw [if_pos ⟨hq, hmiss⟩]
            · rw [if_neg (by rintro ⟨_, h⟩; exact hmiss h)]
              cases hgq : FS.get fs q with
              | none => exact absurd hgq hmiss
              | some e2 =>
                cases e2 with
                | dir => rfl
                | file c2 => exact absurd hgq (hyp.hdstpref hsrc q c2 hq)
        have hkn : keysNodup fs1 := hg1.1
        have hmemchild : ∀ n, n ∈ FS.readDir fs1 src ↔
            FS.get fs (src ++ [n]) ≠ none := by
          intro n
          rw [← get_child_iff_mem_readDir hkn, hsrcpres1 [n]]
        obtain ⟨g2, t2, k2, invF, KONT2⟩ := loadChildren cfg H ih fs src dst
          hyp hH (FS.readDir fs1 src) [] fs1
          (by simpa using readDir_nodup hkn src)
          (fun n hn => (hmemchild n).mp hn) hbase
        refine ⟨g2, t1 ++ t2, k2 + 1, ?_, invF.good, ?_, ?_, ?_, ?_, ?_⟩
        · intro fuel rest fsr tr hrun
          have h2 := KONT2 fuel rest fsr tr hrun
          have he : fuel + (k2 + 1) = (fuel + k2) + 1 := by omega
          rw [he, copyIntoAux_cons_dir hsrc, hcd]
          simp only
          rw [h2]
          simp
        · intro r hr
          cases r with
          | nil =>
            simp only [List.append_nil]
            exact invF.chain dst (List.prefix_refl dst)
          | cons n r2 =>
            by_cases hn : n ∈ FS.readDir fs1 src
            · exact invF.dir1 n (by simpa using hn) r2 hr
            · exfalso
              have hfsn : FS.get fs (src ++ [n]) = none := by
                by_contra h
                exact hn ((hmemchild n).mpr h)
              cases r2 with
              | nil =>
                rw [hfsn] at hr
                simp at hr
              | cons b r3 =>
                rw [append_cons_eq,
                  goodTree_no_deep_entry hyp.hg hfsn (by simp)] at hr
                simp at hr
        · intro r m2 hm2
          cases r with
          | nil =>
            rw [List.append_nil, hsrc] at hm2
            simp at hm2
          | cons n r2 =>
            have hmemn : n ∈ FS.readDir fs1 src := by
              apply (hmemchild n).mpr
              intro h
              cases r2 with
              | nil =>
                rw [h] at hm2
                simp at hm2
              | cons b r3 =>
                rw [append_cons_eq,
                  goodTree_no_deep_entry hyp.hg h (by simp)] at hm2
                simp at hm2
            exact invF.file1 n (by simpa using hmemn) r2 m2 hm2
        · intro q h1 h2
          apply invF.frame q
          · rintro r ⟨hr1, _, hr3⟩
            exact h1 r ⟨hr1, hr3⟩
          · exact h2
        · intro q hq _
          left
          exact invF.chain q hq
        · intro _ q hq
          exact invF.chain q hq

/-- Core of the save/delete/load round trip for a directory tree: the
save succeeds, the load over the deleted original succeeds, and the
loaded filesystem agrees with the original below the saved root. -/
theorem roundTripCore (cfg : Cfg) (fs : FS) (p : LPath)
    (hg : goodTree fs)
    (hsrcdir : FS.get fs (srcRoot cfg p) = some Entry.dir)
    (hfresh : ∀ q, cfg.cache <+: q → FS.get fs q = none)
    (hcs : ¬ cfg.cache <+: srcRoot cfg p)
    (hsc : ¬ srcRoot cfg p <+: cfg.cache)
    (hcpref : ∀ q c, q <+: cfg.cache → FS.get fs q ≠ some (Entry.file c))
    (hnoptr : ∀ r c, FS.get fs (srcRoot cfg p ++ r) = some (Entry.file c) →
      ¬ isPtrRecord c)
    (hinj : ∀ r1 r2 c1 c2,
      FS.get fs (srcRoot cfg p ++ r1) = some (Entry.file c1) →
      FS.get fs (srcRoot cfg p ++ r2) = some (Entry.file c2) →
      ¬ Bytes.len c1 < DEDUPLICATE_LARGER_THAN →
      ¬ Bytes.len c2 < DEDUPLICATE_LARGER_THAN →
      blake3Hex c1 = blake3Hex c2 → c1 = c2) :
    ∃ fs2 t1 fs3 t2 k,
      (∀ fuel, k ≤ fuel → save cfg fuel fs p = .ok (fs2, t1)) ∧
      (∀ fuel, k ≤ fuel →
        load cfg fuel (deleteTree fs2 (srcRoot cfg p)) = .ok (fs3, t2)) ∧
      (∀ r, FS.get fs3 (srcRoot cfg p ++ r) =
        FS.get fs (srcRoot cfg p ++ r)) := by
  have hcne : cfg.cache ≠ [] := by
    intro h
    have := hfresh (srcRoot cfg p) (by rw [h]; exact List.nil_prefix)
    rw [hsrcdir] at this
    simp at this
  have hSne : srcRoot cfg p ≠ [] := by
    intro h
    apply hsc
    rw [h]
    exact List.nil_prefix
  obtain ⟨fs2, t1, k1, hsave, hg2, M1, M2, M3, M5, M6, M7⟩ :=
    save_spec cfg fs p ⟨hg, hsrcdir, hfresh, hcs, hsc, hcpref, hnoptr, hinj⟩
  have hDS : dstRoot cfg p ++ p.comps = srcRoot cfg p :=
    (srcRoot_eq_dst cfg p).symm
  have hMsrc : mirrorRoot cfg p = (cfg.cache ++ [mirrorTag p]) ++ p.comps :=
    mirrorRoot_tag cfg p
  have hDsub : dstRoot cfg p <+: srcRoot cfg p := ⟨p.comps, hDS⟩
  have hcm : cfg.cache <+: mirrorRoot cfg p := by
    rw [mirrorRoot_eq]
    exact ⟨_, rfl⟩
  have hdisj : ∀ q, cfg.cache <+: q → srcRoot cfg p <+: q → False := by
    intro q h1 h2
    rcases prefix_comparable h1 h2 with h | h
    · exact hcs h
    · exact hsc h
  have hgD : goodTree (deleteTree fs2 (srcRoot cfg p)) :=
    goodTree_deleteTree hg2 hSne
  have hgetD : ∀ q, FS.get (deleteTree fs2 (srcRoot cfg p)) q =
      if srcRoot cfg p <+: q then none else FS.get fs2 q :=
    fun q => get_deleteTree fs2 (srcRoot cfg p) q hSne
  have hcachepres : ∀ q, cfg.cache <+: q →
      FS.get (deleteTree fs2 (srcRoot cfg p)) q = FS.get fs2 q := by
    intro q h1
    rw [hgetD q, if_neg (fun h2 => hdisj q h1 h2)]
  have houtside : ∀ q, cfg.cache ++ [mirrorTag p] <+: q →
      ¬ q <+: mirrorRoot cfg p → ¬ mirrorRoot cfg p <+: q →
      FS.get fs2 q = none := by
    intro q h1 h2 h3
    rw [M5 q h3 h2 ?f3 ?f4]
    · exact hfresh q ((List.prefix_append _ _).trans h1)
    case f3 =>
      intro h2s he
      rw [he, lf_concat_eq] at h1
      exact mirrorTag_ne_lf p (concat_head_eq h1)
    case f4 =>
      intro h4
      have h5 : cfg.cache ++ [mirrorTag p] <+:
          (cfg.cache ++ ["large_files"]) ++ [] := by
        simpa using h1.trans h4
      exact mirrorTag_ne_lf p (concat_head_eq h5)
  have hmirrorD : ∀ r', FS.get (deleteTree fs2 (srcRoot cfg p))
      ((cfg.cache ++ [mirrorTag p]) ++ (p.comps ++ r')) =
      (FS.get fs (srcRoot cfg p ++ r')).map mirrorEntry := by
    intro r'
    rw [hcachepres _ ((List.prefix_append _ _).trans (List.prefix_append _ _)),
      ← List.append_assoc, ← hMsrc, M1 r']
  have hchainD : ∀ r, r <+: p.comps →
      FS.get (deleteTree fs2 (srcRoot cfg p))
        ((cfg.cache ++ [mirrorTag p]) ++ r) = some Entry.dir := by
    intro r h
    rw [hcachepres _ ((List.prefix_append _ _).trans (List.prefix_append _ _))]
    exact M6 _ (by rw [hMsrc]; exact prefix_append_cancel.mpr h)
  have hshape : ∀ r,
      FS.get (deleteTree fs2 (srcRoot cfg p))
        ((cfg.cache ++ [mirrorTag p]) ++ r) ≠ none →
      r <+: p.comps ∨ ∃ r', r = p.comps ++ r' ∧
        FS.get fs (srcRoot cfg p ++ r') ≠ none := by
    intro r hr
    have h1 : cfg.cache ++ [mirrorTag p] <+:
        (cfg.cache ++ [mirrorTag p]) ++ r := List.prefix_append _ _
    rw [hcachepres _ ((List.prefix_append _ _).trans h1)] at hr
    by_cases h2 : (cfg.cache ++ [mirrorTag p]) ++ r <+: mirrorRoot cfg p
    · left
      rw [hMsrc] at h2
      exact prefix_append_cancel.mp h2
    · by_cases h3 : mirrorRoot cfg p <+: (cfg.cache ++ [mirrorTag p]) ++ r
      · right
        obtain ⟨r', hr'⟩ := h3
        rw [hMsrc, List.append_assoc] at hr'
        have hre : r = p.comps ++ r' := (List.append_cancel_left hr').symm
        refine ⟨r', hre, ?_⟩
        intro h4
        apply hr
        rw [hre, ← List.append_assoc, ← hMsrc, M1 r', h4]
        rfl
      · exact absurd (houtside _ h1 h2 h3) hr
  have hframe_user : ∀ q, q <+: srcRoot cfg p → ¬ q <+: cfg.cache →
      FS.get fs2 q = FS.get fs q := by
    intro q hqS h2
    apply M5
    · intro h4
      exact hcs ((hcm.trans h4).trans hqS)
    · intro h4
      rcases prefix_comparable h4 hcm with h | h
      · exact h2 h
      · exact hcs (h.trans hqS)
    · intro h2s he
      have h5 : cfg.cache <+: q := by
        rw [he]
        exact List.prefix_append _ _
      exact hcs (h5.trans hqS)
    · intro h4
      rcases prefix_comparable h4 (List.prefix_append cfg.cache _) with h | h
      · exact h2 h
      · exact hcs (h.trans hqS)
  have hsrcD : FS.get (deleteTree fs2 (srcRoot cfg p))
      (cfg.cache ++ [mirrorTag p]) = some Entry.dir := by
    rw [hcachepres _ (List.prefix_append _ _)]
    exact M6 _ (by rw [hMsrc]; exact List.prefix_append _ _)
  have hyps : LoadHyps cfg (deleteTree fs2 (srcRoot cfg p))
      (cfg.cache ++ [mirrorTag p]) (dstRoot cfg p) := by
    refine ⟨hgD, ?_, List.prefix_append _ _, hcne, ?_, ?_, ?_, ?_, ?_, ?_, ?_,
      Or.inl hsrcD⟩
    · rw [hsrcD]
      simp
    · intro r hr _ hcq
      rcases hshape r hr with h | ⟨r', hre, _⟩
      · have h5 : dstRoot cfg p ++ r <+: srcRoot cfg p := by
          rw [← hDS]
          exact prefix_append_cancel.mpr h
        exact hcs (hcq.trans h5)
      · rw [hre, ← List.append_assoc, hDS] at hcq
        rcases prefix_comparable hcq
            (List.prefix_append (srcRoot cfg p) r') with h | h
        · exact hcs h
        · exact hsc h
    · intro q hq hcq
      exact hcs (hcq.trans (hq.trans hDsub))
    · intro _ q c hq
      rw [hgetD q]
      by_cases h1 : srcRoot cfg p <+: q
      · rw [if_pos h1]
        simp
      · rw [if_neg h1]
        have hqS : q <+: srcRoot cfg p := hq.trans hDsub
        by_cases h2 : q <+: cfg.cache
        · rw [M6 q (h2.trans hcm)]
          simp
        · rw [hframe_user q hqS h2]
          have hqne : q ≠ srcRoot cfg p := fun he => h1 (he ▸ List.prefix_refl _)
          rw [hg.2 (srcRoot cfg p) .dir hsrcdir q hqS hqne]
          simp
    · intro r m hm
      rcases hshape r (by rw [hm]; simp) with h | ⟨r', hre, _⟩
      · rw [hchainD r h] at hm
        simp at hm
      · rw [hre, hmirrorD r'] at hm
        cases he : FS.get fs (srcRoot cfg p ++ r') with
        | none =>
          rw [he] at hm
          simp at hm
        | some e =>
          rw [he] at hm
          cases e with
          | dir => simp [mirrorEntry] at hm
          | file c =>
            have hme : mirrorEntry (Entry.file c) = Entry.file m := by
              simpa using hm
            by_cases hlen : Bytes.len c < DEDUPLICATE_LARGER_THAN
            · simp only [mirrorEntry] at hme
              rw [if_pos hlen] at hme
              simp at hme
              rw [← hme]
              exact hlen
            · simp only [mirrorEntry] at hme
              rw [if_neg hlen] at hme
              simp at hme
              rw [← hme]
              exact ptrRecord_small c
    · intro r m hm hptr
      rcases hshape r (by rw [hm]; simp) with h | ⟨r', hre, _⟩
      · rw [hchainD r h] at hm
        simp at hm
      · rw [hre, hmirrorD r'] at hm
        cases he : FS.get fs (srcRoot cfg p ++ r') with
        | none =>
          rw [he] at hm
          simp at hm
        | some e =>
          rw [he] at hm
          cases e with
          | dir => simp [mirrorEntry] at hm
          | file c =>
            have hme : mirrorEntry (Entry.file c) = Entry.file m := by
              simpa using hm
            by_cases hlen : Bytes.len c < DEDUPLICATE_LARGER_THAN
            · simp only [mirrorEntry] at hme
              rw [if_pos hlen] at hme
              simp at hme
              rw [← hme] at hptr
              exact absurd hptr (hnoptr r' c he)
            · simp only [mirrorEntry] at hme
              rw [if_neg hlen] at hme
              simp at hme
              refine ⟨blake3Hex c, c, ?_, ?_⟩
              · rw [← hme, ptrRecord_drop, hexNormalize_blake3]
              · rw [hcachepres _ (List.prefix_append _ _)]
                exact M2 r' c he hlen
    · intro r hm
      rcases hshape r (by rw [hm]; simp) with h | ⟨r', hre, _⟩
      · have hq : dstRoot cfg p ++ r <+: srcRoot cfg p := by
          rw [← hDS]
          exact prefix_append_cancel.mpr h
        by_cases hSq : srcRoot cfg p <+: dstRoot cfg p ++ r
        · left
          rw [hgetD, if_pos hSq]
        · right
          rw [hgetD, if_neg hSq]
          by_cases h2 : dstRoot cfg p ++ r <+: cfg.cache
          · exact M6 _ (h2.trans hcm)
          · rw [hframe_user _ hq h2]
            have hqne : dstRoot cfg p ++ r ≠ srcRoot cfg p :=
              fun he => hSq (he ▸ List.prefix_refl _)
            exact hg.2 _ .dir hsrcdir _ hq hqne
      · left
        rw [hre, ← List.append_assoc, hDS, hgetD,
          if_pos (List.prefix_append _ _)]
    · intro r m hm
      rcases hshape r (by rw [hm]; simp) with h | ⟨r', hre, _⟩
      · rw [hchainD r h] at hm
        simp at hm
      · rw [hre, ← List.append_assoc, hDS, hgetD,
          if_pos (List.prefix_append _ _)]
        simp
  have hHD : ∀ r, FS.get (deleteTree fs2 (srcRoot cfg p))
      ((cfg.cache ++ [mirrorTag p]) ++ r) ≠ none →
      r.length < maxKeyLen (deleteTree fs2 (srcRoot cfg p)) + 1 := by
    intro r hr
    have hne : (cfg.cache ++ [mirrorTag p]) ++ r ≠ [] := by simp
    have := length_le_maxKeyLen hr hne
    rw [List.length_append] at this
    omega
  obtain ⟨fsF, tL, kL, conc⟩ := loadJob cfg
    (maxKeyLen (deleteTree fs2 (srcRoot cfg p)) + 1)
    (deleteTree fs2 (srcRoot cfg p)) _ _ hHD hyps
  have hrestore : ∀ r, FS.get fsF (srcRoot cfg p ++ r) =
      FS.get fs (srcRoot cfg p ++ r) := by
    intro r
    cases he : FS.get fs (srcRoot cfg p ++ r) with
    | some e =>
      cases e with
      | dir =>
        have h1 : FS.get (deleteTree fs2 (srcRoot cfg p))
            ((cfg.cache ++ [mirrorTag p]) ++ (p.comps ++ r)) =
            some Entry.dir := by
          rw [hmirrorD r, he]
          rfl
        have h2 := conc.rdir (p.comps ++ r) h1
        rw [← List.append_assoc, hDS] at h2
        exact h2
      | file c =>
        have hmir : FS.get (deleteTree fs2 (srcRoot cfg p))
            ((cfg.cache ++ [mirrorTag p]) ++ (p.comps ++ r)) =
            some (mirrorEntry (Entry.file c)) := by
          rw [hmirrorD r, he]
          rfl
        by_cases hlen : Bytes.len c < DEDUPLICATE_LARGER_THAN
        · have hm2 : FS.get (deleteTree fs2 (srcRoot cfg p))
              ((cfg.cache ++ [mirrorTag p]) ++ (p.comps ++ r)) =
              some (Entry.file c) := by
            rw [hmir]
            simp only [mirrorEntry]
            rw [if_pos hlen]
          have h2 := (conc.rfile (p.comps ++ r) c hm2).1 (hnoptr r c he)
          rw [← List.append_assoc, hDS] at h2
          exact h2
        · have hm2 : FS.get (deleteTree fs2 (srcRoot cfg p))
              ((cfg.cache ++ [mirrorTag p]) ++ (p.comps ++ r)) =
              some (Entry.file (ptrRecord c)) := by
            rw [hmir]
            simp only [mirrorEntry]
            rw [if_neg hlen]
          have hblobD : FS.get (deleteTree fs2 (srcRoot cfg p))
              (cfg.cache ++ ["large_files", blake3Hex c]) =
              some (Entry.file c) := by
            rw [hcachepres _ (List.prefix_append _ _)]
            exact M2 r c he hlen
          have h2 := (conc.rfile (p.comps ++ r) (ptrRecord c) hm2).2
            (blake3Hex c) c (isPtrRecord_ptrRecord c)
            (by rw [ptrRecord_drop, hexNormalize_blake3]) hblobD
          rw [← List.append_assoc, hDS] at h2
          exact h2
    | none =>
      have hq1 : ∀ rr, ¬ (FS.get (deleteTree fs2 (srcRoot cfg p))
          ((cfg.cache ++ [mirrorTag p]) ++ rr) ≠ none ∧
          srcRoot cfg p ++ r = dstRoot cfg p ++ rr) := by
        rintro rr ⟨hne2, heq⟩
        rw [← hDS, List.append_assoc] at heq
        have hrr : rr = p.comps ++ r := (List.append_cancel_left heq).symm
        apply hne2
        rw [hrr, hmirrorD r, he]
        rfl
      have hq2 : ¬ srcRoot cfg p ++ r <+: dstRoot cfg p := by
        intro h4
        have hSeq : srcRoot cfg p = dstRoot cfg p :=
          prefix_antisymm ((List.prefix_append _ _).trans h4) hDsub
        rw [← hSeq] at h4
        have h5 : srcRoot cfg p ++ r = srcRoot cfg p :=
          prefix_antisymm h4 (List.prefix_append _ _)
        have hr0 : r = [] := by
          have h6 : srcRoot cfg p ++ r = srcRoot cfg p ++ [] := by
            rw [List.append_nil]
            exact h5
          exact List.append_cancel_left h6
        rw [hr0, List.append_nil, hsrcdir] at he
        simp at he
      have h2 := conc.frame (srcRoot cfg p ++ r) hq1 hq2
      rw [h2, hgetD, if_pos (List.prefix_append _ _)]
  have hrunJob : ∀ fuel, kL + 1 ≤ fuel →
      copyInto cfg fuel (deleteTree fs2 (srcRoot cfg p))
        (cfg.cache ++ [mirrorTag p]) (dstRoot cfg p) = .ok (fsF, tL) := by
    intro fuel hf
    have h0 := conc.kont 1 [] fsF [] (copyIntoAux_nil cfg 0 fsF)
    unfold copyInto
    apply copyIntoAux_le (show 1 + kL ≤ fuel by omega)
    simpa using h0
  have hother : ∀ s, s ≠ mirrorTag p → s ≠ "large_files" →
      FS.get (deleteTree fs2 (srcRoot cfg p)) (cfg.cache ++ [s]) = none := by
    intro s hs hslf
    rw [hcachepres _ (List.prefix_append _ _), M5 _ ?o1 ?o2 ?o3 ?o4]
    · exact hfresh _ (List.prefix_append _ _)
    case o1 =>
      intro h4
      have h5 : cfg.cache ++ [mirrorTag p] <+: (cfg.cache ++ [s]) ++ [] := by
        simpa using (by rw [hMsrc] at h4; exact (List.prefix_append _ _).trans h4 :
          cfg.cache ++ [mirrorTag p] <+: cfg.cache ++ [s])
      exact hs (concat_head_eq h5).symm
    case o2 =>
      intro h4
      rw [hMsrc] at h4
      exact hs (concat_head_eq h4)
    case o3 =>
      intro h2s he
      have h5 := List.append_cancel_left he
      simp at h5
    case o4 =>
      intro h4
      have h5 : cfg.cache ++ [s] <+: (cfg.cache ++ ["large_files"]) ++ [] := by
        simpa using h4
      exact hslf (concat_head_eq h5)
  have hotherF : ∀ s, s ≠ mirrorTag p → s ≠ "large_files" →
      FS.get fsF (cfg.cache ++ [s]) = none := by
    intro s hs hslf
    rw [conc.frame (cfg.cache ++ [s]) ?f1 ?f2]
    · exact hother s hs hslf
    case f1 =>
      rintro rr ⟨hne2, heq⟩
      rcases hshape rr hne2 with h | ⟨r', hre, _⟩
      · have h5 : dstRoot cfg p ++ rr <+: srcRoot cfg p := by
          rw [← hDS]
          exact prefix_append_cancel.mpr h
        have h6 : cfg.cache <+: dstRoot cfg p ++ rr := by
          rw [← heq]
          exact List.prefix_append _ _
        exact hcs (h6.trans h5)
      · have h6 : cfg.cache <+: srcRoot cfg p ++ r' := by
          rw [← hDS, List.append_assoc, ← hre, ← heq]
          exact List.prefix_append _ _
        rcases prefix_comparable h6
            (List.prefix_append (srcRoot cfg p) r') with h | h
        · exact hcs h
        · exact hsc h
    case f2 =>
      intro h4
      exact hcs (((List.prefix_append _ _).trans h4).trans hDsub)
  refine ⟨fs2, t1, fsF, tL, max k1 (kL + 2), ?_, ?_, hrestore⟩
  · intro fuel hf
    exact hsave fuel (le_trans (Nat.le_max_left _ _) hf)
  · intro fuel hf
    have hf2 : kL + 2 ≤ fuel := le_trans (Nat.le_max_right _ _) hf
    unfold load
    by_cases hab : p.absolute
    · have htag : mirrorTag p = "absolute" := by
        unfold mirrorTag
        rw [if_pos hab]
      have hD : dstRoot cfg p = [] := by
        unfold dstRoot
        rw [if_pos hab]
      have hjob1 : copyInto cfg fuel (deleteTree fs2 (srcRoot cfg p))
          (cfg.cache ++ ["absolute"]) [] = .ok (fsF, tL) := by
        have h9 := hrunJob fuel (by omega)
        rw [htag, hD] at h9
        exact h9
      have hjob2 : copyInto cfg fuel fsF (cfg.cache ++ ["relative"]) cfg.pwd =
          .ok (fsF, []) :=
        copyInto_missing (by omega)
          (hotherF "relative" (by rw [htag]; decide) (by decide))
      simp only [Bind.bind, Except.bind]
      rw [hjob1]
      simp only
      rw [hjob2]
      simp
    · have htag : mirrorTag p = "relative" := by
        unfold mirrorTag
        rw [if_neg hab]
      have hD : dstRoot cfg p = cfg.pwd := by
        unfold dstRoot
        rw [if_neg hab]
      have hjob1 : copyInto cfg fuel (deleteTree fs2 (srcRoot cfg p))
          (cfg.cache ++ ["absolute"]) [] =
          .ok (deleteTree fs2 (srcRoot cfg p), []) :=
        copyInto_missing (by omega)
          (hother "absolute" (by rw [htag]; decide) (by decide))
      have hjob2 : copyInto cfg fuel (deleteTree fs2 (srcRoot cfg p))
          (cfg.cache ++ ["relative"]) cfg.pwd = .ok (fsF, tL) := by
        have h9 := hrunJob fuel (by omega)
        rw [htag, hD] at h9
        exact h9
      simp only [Bind.bind, Except.bind]
      rw [hjob1]
      simp only
      rw [hjob2]
      simp

theorem noptr_of_shape (fs : FS) (src : Path) (names : List String)
    (c : Bytes)
    (hsub : ∀ r, FS.get fs (src ++ r) = if r = [] then some Entry.dir
      else if ∃ n ∈ names, r = [n] then some (Entry.file c) else none)
    (hc : ¬ isPtrRecord c) :
    ∀ r c2, FS.get fs (src ++ r) = some (Entry.file c2) → ¬ isPtrRecord c2 := by
  intro r c2 hr
  rw [hsub r] at hr
  by_cases h1 : r = []
  · rw [if_pos h1] at hr
    simp at hr
  · rw [if_neg h1] at hr
    by_cases h2 : ∃ n ∈ names, r = [n]
    · rw [if_pos h2] at hr
      have : c = c2 := by simpa using hr
      rw [← this]
      exact hc
    · rw [if_neg h2] at hr
      simp at hr

theorem inj_of_shape (fs : FS) (src : Path) (names : List String)
    (c : Bytes)
    (hsub : ∀ r, FS.get fs (src ++ r) = if r = [] then some Entry.dir
      else if ∃ n ∈ names, r = [n] then some (Entry.file c) else none) :
    ∀ r1 r2 c1 c2, FS.get fs (src ++ r1) = some (Entry.file c1) →
      FS.get fs (src ++ r2) = some (Entry.file c2) →
      ¬ Bytes.len c1 < DEDUPLICATE_LARGER_THAN →
      ¬ Bytes.len c2 < DEDUPLICATE_LARGER_THAN →
      blake3Hex c1 = blake3Hex c2 → c1 = c2 := by
  have hfc : ∀ r c2, FS.get fs (src ++ r) = some (Entry.file c2) → c2 = c := by
    intro r c2 hr
    rw [hsub r] at hr
    by_cases h1 : r = []
    · rw [if_pos h1] at hr
      simp at hr
    · rw [if_neg h1] at hr
      by_cases h2 : ∃ n ∈ names, r = [n]
      · rw [if_pos h2] at hr
        simpa using hr.symm
      · rw [if_neg h2] at hr
        simp at hr
  intro r1 r2 c1 c2 h1 h2 _ _ _
  rw [hfc r1 c1 h1, hfc r2 c2 h2]

/-- C1 (counterexample): the round trip is not available for *every*
file or directory tree — `Cache::save` of a bare regular file fails
outright, because `fs::copy` targets `{cache}/absolute/f` whose parent
directory `{cache}/absolute` is never created (`save` only ensures
`{cache}/large_files`).  So a single-file tree cannot be saved, let
alone restored. -/
theorem round_trip_counterexample :
    save cfg0 10 [(["f"], Entry.file [1, 2, 3])] ⟨true, ["f"]⟩ =
      .error (.noParent ["cache", "absolute", "f"]) := by
  decide

/-- C1 (amended): for a *directory* tree, saving it, deleting the
original, and loading (with the same working directory) restores the
tree byte-identical at the same location — for an absolute path and for
a path relative to the working directory alike (`p.absolute` covers
both).  Hypotheses: the filesystem is a well-formed tree, the saved
root is a directory, the cache root is fresh and disjoint from the
source, no source file is shaped like a pointer record, and large
source contents are hash-collision-free. -/
theorem round_trip_amended (cfg : Cfg) (fs : FS) (p : LPath)
    (hg : goodTree fs)
    (hsrcdir : FS.get fs (srcRoot cfg p) = some Entry.dir)
    (hfresh : ∀ q, cfg.cache <+: q → FS.get fs q = none)
    (hcs : ¬ cfg.cache <+: srcRoot cfg p)
    (hsc : ¬ srcRoot cfg p <+: cfg.cache)
    (hcpref : ∀ q c, q <+: cfg.cache → FS.get fs q ≠ some (Entry.file c))
    (hnoptr : ∀ r c, FS.get fs (srcRoot cfg p ++ r) = some (Entry.file c) →
      ¬ isPtrRecord c)
    (hinj : ∀ r1 r2 c1 c2,
      FS.get fs (srcRoot cfg p ++ r1) = some (Entry.file c1) →
      FS.get fs (srcRoot cfg p ++ r2) = some (Entry.file c2) →
      ¬ Bytes.len c1 < DEDUPLICATE_LARGER_THAN →
      ¬ Bytes.len c2 < DEDUPLICATE_LARGER_THAN →
      blake3Hex c1 = blake3Hex c2 → c1 = c2) :
    ∃ fs2 t1 fs3 t2 k,
      (∀ fuel, k ≤ fuel → save cfg fuel fs p = .ok (fs2, t1)) ∧
      (∀ fuel, k ≤ fuel →
        load cfg fuel (deleteTree fs2 (srcRoot cfg p)) = .ok (fs3, t2)) ∧
      (∀ r, FS.get fs3 (srcRoot cfg p ++ r) =
        FS.get fs (srcRoot cfg p ++ r)) :=
  roundTripCore cfg fs p hg hsrcdir hfresh hcs hsc hcpref hnoptr hinj

/-- A small directory tree for the round-trip witness: a directory with
one file, saved under an absolute path. -/
def fsRT : FS := [(["s"], .dir), (["s", "a"], .file [1, 2, 3])]

/-- A small directory tree for the relative-path round-trip witness. -/
def fsRTrel : FS := [(["p"], .dir), (["p", "s"], .dir),
  (["p", "s", "a"], .file [9, 8])]

theorem round_trip_amended_witness :
    (∃ fs2 t1 fs3 t2 k,
      (∀ fuel, k ≤ fuel → save cfg0 fuel fsRT ⟨true, ["s"]⟩ = .ok (fs2, t1)) ∧
      (∀ fuel, k ≤ fuel →
        load cfg0 fuel (deleteTree fs2 (srcRoot cfg0 ⟨true, ["s"]⟩)) =
          .ok (fs3, t2)) ∧
      (∀ r, FS.get fs3 (srcRoot cfg0 ⟨true, ["s"]⟩ ++ r) =
        FS.get fsRT (srcRoot cfg0 ⟨true, ["s"]⟩ ++ r))) ∧
    (∃ fs2 t1 fs3 t2 k,
      (∀ fuel, k ≤ fuel →
        save cfg0 fuel fsRTrel ⟨false, ["s"]⟩ = .ok (fs2, t1)) ∧
      (∀ fuel, k ≤ fuel →
        load cfg0 fuel (deleteTree fs2 (srcRoot cfg0 ⟨false, ["s"]⟩)) =
          .ok (fs3, t2)) ∧
      (∀ r, FS.get fs3 (srcRoot cfg0 ⟨false, ["s"]⟩ ++ r) =
        FS.get fsRTrel (srcRoot cfg0 ⟨false, ["s"]⟩ ++ r))) := by
  constructor
  · exact round_trip_amended cfg0 fsRT ⟨true, ["s"]⟩
      (goodTree_of_inits fsRT (by decide) (by decide))
      (by decide)
      (fresh_of_not_under fsRT cfg0.cache (by decide) (by decide))
      (by decide) (by decide)
      (nofile_of_inits fsRT cfg0.cache (by decide))
      (noptr_of_shape fsRT (srcRoot cfg0 ⟨true, ["s"]⟩) ["a"] [1, 2, 3]
        (subtree_shape fsRT (srcRoot cfg0 ⟨true, ["s"]⟩) ["a"] [1, 2, 3]
          (by decide) (by decide) (by decide) (by decide) (by decide))
        (by decide))
      (inj_of_shape fsRT (srcRoot cfg0 ⟨true, ["s"]⟩) ["a"] [1, 2, 3]
        (subtree_shape fsRT (srcRoot cfg0 ⟨true, ["s"]⟩) ["a"] [1, 2, 3]
          (by decide) (by decide) (by decide) (by decide) (by decide)))
  · exact round_trip_amended cfg0 fsRTrel ⟨false, ["s"]⟩
      (goodTree_of_inits fsRTrel (by decide) (by decide))
      (by decide)
      (fresh_of_not_under fsRTrel cfg0.cache (by decide) (by decide))
      (by decide) (by decide)
      (nofile_of_inits fsRTrel cfg0.cache (by decide))
      (noptr_of_shape fsRTrel (srcRoot cfg0 ⟨false, ["s"]⟩) ["a"] [9, 8]
        (subtree_shape fsRTrel (srcRoot cfg0 ⟨false, ["s"]⟩) ["a"] [9, 8]
          (by decide) (by decide) (by decide) (by decide) (by decide))
        (by decide))
      (inj_of_shape fsRTrel (srcRoot cfg0 ⟨false, ["s"]⟩) ["a"] [9, 8]
        (subtree_shape fsRTrel (srcRoot cfg0 ⟨false, ["s"]⟩) ["a"] [9, 8]
          (by decide) (by decide) (by decide) (by decide) (by decide)))

end Cache

end Gentle
